import Mathlib

/-!
# smpsearch: conversion of a `SimpleQuery` to an Elasticsearch query document

Shallow embedding of `simple-query.go` and `to_elastic.go`.

* Go's `interface{}` values that the converter builds (strings, ints, `[]interface{}`,
  `map[string]interface{}`) are the type `Json`.  A Go map is an unordered finite map with
  unique keys; it is kept here as a key-sorted association list, so that two maps with the
  same content are equal terms.  `encoding/json` writes map keys in sorted order, which is the
  order of the list.
* A Go string is a sequence of bytes, valid UTF-8 or not.  It is a Lean string here, each
  character of which stands for one byte (the byte is the code point, below 256); the field
  names, operators and keys of the source are ASCII and read as usual.  The text that
  `json.Marshal` returns is such a byte string too.  Go's `int` is `Int`, as the converter
  does no arithmetic on the numbers it passes through.
* A failed type assertion (a Go panic) is `none` in `buildDocument`.
* `time.Time.Format(time.RFC3339)` and `json.Marshal` are library functions; they are modelled
  after the Go standard library (`formatRFC3339`, `marshal`).  The formatter works on the
  absolute seconds of package time, a `uint64` that wraps around at 2^64.
* `json.Unmarshal` and `time.Parse` read the texts back (`unmarshal`, `Parse`); a decoded
  number is a `float64`, which is recorded by its value.
-/

namespace Smpsearch

/-! ## Dynamic values (`interface{}`) and maps -/

/-- A dynamic Go value as the converter handles it.  `unsupported` stands for every dynamic
value that `json.Marshal` rejects (a channel, a function, a complex number, a non-finite
float); the converter never builds one. -/
inductive Json where
  | str (s : String)
  | int (n : Int)
  | arr (xs : List Json)
  | obj (kvs : List (String × Json))
  | unsupported

/-- Go map entries, sorted by key. -/
abbrev Fields := List (String × Json)

/-- Byte-wise (code point) order of two keys, as `encoding/json` sorts them. -/
def keyLt (a b : String) : Bool := decide (a.data < b.data)

/-- Reading `m[k]` with the comma-ok form: the value stored under `k`, if any. -/
def mapGet (k : String) : Fields → Option Json
  | [] => none
  | (k', v') :: rest => if k = k' then some v' else mapGet k rest

/-- The assignment `m[k] = v`: the entry for `k` is replaced when there is one and added
otherwise. -/
def mapSet (k : String) (v : Json) : Fields → Fields
  | [] => [(k, v)]
  | (k', v') :: rest =>
    if k = k' then (k, v) :: rest
    else if keyLt k k' = true then (k, v) :: (k', v') :: rest
    else (k', v') :: mapSet k v rest

/-- The keys of a map. -/
def mapKeys (m : Fields) : List String := m.map Prod.fst

/-- A map literal `map[string]interface{}{k1: v1, ...}`. -/
def mapLit (entries : List (String × Json)) : Fields :=
  entries.foldl (fun m e => mapSet e.1 e.2 m) []

/-- The type assertion `x.(map[string]interface{})` on the result of an index expression:
it panics (`none`) when the key is missing or the value is no map. -/
def asMap : Option Json → Option Fields
  | some (Json.obj m) => some m
  | _ => none

/-- The type assertion `x.([]interface{})`. -/
def asSlice : Option Json → Option (List Json)
  | some (Json.arr xs) => some xs
  | _ => none

/-! ## `time.Time` and `Format(time.RFC3339)` -/

/-- A `time.Time`: an instant (the seconds since the Unix epoch that `t.Unix()` returns, an
`int64`, and nanoseconds within the second) together with the offset, in seconds east of
UTC, that its location has at that instant. -/
structure Time where
  sec : Int
  nsec : Nat
  offset : Int

/-- Seconds from 0001-01-01T00:00:00Z to the Unix epoch (`unixToInternal`). -/
def unixToInternal : Int := (1969 * 365 + 1969 / 4 - 1969 / 100 + 1969 / 400) * 86400

/-- The constant `absoluteZeroYear`: the year in which the absolute seconds of package time
start to count; it is 1 modulo 400. -/
def absoluteZeroYear : Int := -292277022399

/-- The constant `internalToAbsolute`: the seconds from the first day of `absoluteZeroYear`
to 0001-01-01, which are `(1 - absoluteZeroYear) * 365.2425` days of 86400 seconds. -/
def internalToAbsolute : Int := (1 - absoluteZeroYear) / 400 * 146097 * 86400

/-- The method `abs` of `time.Time`: the seconds of the instant in its zone since the first
day of `absoluteZeroYear`, as a `uint64`; the sum wraps around at 2^64. -/
def Time.abs (t : Time) : Int :=
  (t.sec + t.offset + (unixToInternal + internalToAbsolute)) % 18446744073709551616

/-- The function `isLeap` of package time. -/
def isLeap (year : Int) : Bool :=
  year % 4 == 0 && (year % 100 != 0 || year % 400 == 0)

/-- The table `daysBefore[m]`: days in a non-leap year before month `m + 1`. -/
def daysBefore (m : Nat) : Int :=
  match m with
  | 0 => 0
  | 1 => 31
  | 2 => 59
  | 3 => 90
  | 4 => 120
  | 5 => 151
  | 6 => 181
  | 7 => 212
  | 8 => 243
  | 9 => 273
  | 10 => 304
  | 11 => 334
  | _ => 365

/-- The function `absDate`: year, month and day of the day number `d0`, counted from the
first day of `absoluteZeroYear` in the proleptic Gregorian calendar. -/
def absDate (d0 : Int) : Int × Int × Int :=
  let n400 := d0 / 146097
  let y := 400 * n400
  let d := d0 - 146097 * n400
  let n100 := d / 36524
  let n100 := n100 - n100 / 4
  let y := y + 100 * n100
  let d := d - 36524 * n100
  let n4 := d / 1461
  let y := y + 4 * n4
  let d := d - 1461 * n4
  let n1 := d / 365
  let n1 := n1 - n1 / 4
  let y := y + n1
  let d := d - 365 * n1
  let year := y + absoluteZeroYear
  if isLeap year && d == 59 then (year, 2, 29)
  else
    let day := if isLeap year && d > 59 then d - 1 else d
    let month := (day / 31).toNat
    let fin := daysBefore (month + 1)
    if day ≥ fin then (year, (month : Int) + 2, day - fin + 1)
    else (year, (month : Int) + 1, day - daysBefore month + 1)

/-- The function `appendInt`: the decimal digits of `x`, zero-padded to `width`, after a minus sign when
`x` is negative. -/
def appendInt (x : Int) (width : Nat) : String :=
  let digits := Nat.toDigits 10 x.natAbs
  let body := List.replicate (width - digits.length) '0' ++ digits
  String.mk (if x < 0 then '-' :: body else body)

/-- The call `t.Format(time.RFC3339)`, layout `2006-01-02T15:04:05Z07:00`: date and clock of the
instant in its zone at second precision, found from the absolute seconds `t.abs`, then `Z`
for offset zero and otherwise the signed offset in hours and minutes (the offset's seconds
are cut off, as Go's `/` truncates). -/
def formatRFC3339 (t : Time) : String :=
  let abs := t.abs
  let (year, month, day) := absDate (abs / 86400)
  let s := abs % 86400
  let date := appendInt year 4 ++ "-" ++ appendInt month 2 ++ "-" ++ appendInt day 2
  let clock := appendInt (s / 3600) 2 ++ ":" ++ appendInt (s % 3600 / 60) 2 ++ ":" ++
    appendInt (s % 60) 2
  let zone := Int.tdiv t.offset 60
  let zoneText :=
    if t.offset = 0 then "Z"
    else (if zone < 0 then "-" else "+") ++ appendInt (zone.natAbs / 60) 2 ++ ":" ++
      appendInt (zone.natAbs % 60) 2
  date ++ "T" ++ clock ++ zoneText

/-! ## The query model (`simple-query.go`) -/

/-- The struct `DataRange`: a time period. -/
structure DataRange where
  From : Time
  To : Time

/-- The struct `Aggregation`; `Typ` is the Go field `Type` (an `AggregationType`, a string). -/
structure Aggregation where
  Field : String
  Typ : String
  Size : Int

/-- The struct `Filter`; `Operator` is a Go `Operator`, a string. -/
structure Filter where
  Field : String
  Operator : String
  Value : String

/-- The struct `SimpleQuery`. -/
structure SimpleQuery where
  DateRange : DataRange
  Filters : List Filter
  Aggregations : List Aggregation
  Limit : Int
  Offset : Int

def TermsAggregation : String := "terms"
def SumAggregation : String := "sum"
def AvgAggregation : String := "avg"

def EqualOperator : String := "="
def NotEqualOperator : String := "!="
def GreaterThanOperator : String := ">"
def LessThanOperator : String := "<"
def GreaterOrEqual : String := ">="
def LessOrEqual : String := "<="

/-! ## The converter (`to_elastic.go`) -/

/-- The method `convertAggregation`; `none` is the nil map of the default branch. -/
def convertAggregation (agg : Aggregation) : Option Fields :=
  if agg.Typ = TermsAggregation then
    some (mapLit [("terms", Json.obj (mapLit [("field", Json.str agg.Field),
      ("size", Json.int agg.Size)]))])
  else if agg.Typ = SumAggregation then
    some (mapLit [("sum", Json.obj (mapLit [("field", Json.str agg.Field)]))])
  else if agg.Typ = AvgAggregation then
    some (mapLit [("avg", Json.obj (mapLit [("field", Json.str agg.Field)]))])
  else none

/-- The method `convertFilter`; `none` is the nil map of the default branch. -/
def convertFilter (filter : Filter) : Option Fields :=
  if filter.Operator = EqualOperator then
    some (mapLit [("match", Json.obj (mapLit [(filter.Field, Json.str filter.Value)]))])
  else if filter.Operator = NotEqualOperator then
    some (mapLit [("bool", Json.obj (mapLit [("must_not", Json.obj (mapLit [("match",
      Json.obj (mapLit [(filter.Field, Json.str filter.Value)]))]))]))])
  else if filter.Operator = GreaterThanOperator then
    some (mapLit [("range", Json.obj (mapLit [(filter.Field,
      Json.obj (mapLit [("gt", Json.str filter.Value)]))]))])
  else if filter.Operator = LessThanOperator then
    some (mapLit [("range", Json.obj (mapLit [(filter.Field,
      Json.obj (mapLit [("lt", Json.str filter.Value)]))]))])
  else if filter.Operator = GreaterOrEqual then
    some (mapLit [("range", Json.obj (mapLit [(filter.Field,
      Json.obj (mapLit [("gte", Json.str filter.Value)]))]))])
  else if filter.Operator = LessOrEqual then
    some (mapLit [("range", Json.obj (mapLit [(filter.Field,
      Json.obj (mapLit [("lte", Json.str filter.Value)]))]))])
  else none

/-- The map literal that `ToElastic` starts from: the query with the date range clause as
the only element of `must`, and the pagination. -/
def baseQuery (search : SimpleQuery) : Fields :=
  mapLit [
    ("query", Json.obj (mapLit [
      ("bool", Json.obj (mapLit [
        ("must", Json.arr [
          Json.obj (mapLit [
            ("range", Json.obj (mapLit [
              ("@timestamp", Json.obj (mapLit [
                ("gte", Json.str (formatRFC3339 search.DateRange.From)),
                ("lte", Json.str (formatRFC3339 search.DateRange.To))]))]))])])]))])),
    ("from", Json.int search.Offset),
    ("size", Json.int search.Limit)]

/-- The filter loop: the clause of every filter, in order, unless it is nil. -/
def collectFilters (fs : List Filter) : List Json :=
  fs.foldl (fun filters filter =>
    match convertFilter filter with
    | some filterQuery => filters ++ [Json.obj filterQuery]
    | none => filters) []

/-- The aggregation loop: `aggs[agg.Field] = aggQuery` for every clause that is not nil. -/
def collectAggs (as : List Aggregation) : Fields :=
  as.foldl (fun aggs agg =>
    match convertAggregation agg with
    | some aggQuery => mapSet agg.Field (Json.obj aggQuery) aggs
    | none => aggs) []

/-- The filter step of `ToElastic`: appends the filter clauses to
`query["query"]["bool"]["must"]`; `none` when a type assertion panics. -/
def processFilters (search : SimpleQuery) (query : Fields) : Option Fields :=
  if search.Filters.length > 0 then
    let filters := collectFilters search.Filters
    if filters.length > 0 then do
      let q ← asMap (mapGet "query" query)
      let b ← asMap (mapGet "bool" q)
      let must ← asSlice (mapGet "must" b)
      let b := mapSet "must" (Json.arr (must ++ filters)) b
      pure (mapSet "query" (Json.obj (mapSet "bool" (Json.obj b) q)) query)
    else some query
  else some query

/-- The aggregation step of `ToElastic`. -/
def processAggregations (search : SimpleQuery) (query : Fields) : Fields :=
  if search.Aggregations.length > 0 then
    let aggs := collectAggs search.Aggregations
    if aggs.length > 0 then mapSet "aggs" (Json.obj aggs) query else query
  else query

/-- The map `query` that `ToElastic` hands to `json.Marshal`; `none` when the code panics. -/
def buildDocument (search : SimpleQuery) : Option Fields :=
  (processFilters search (baseQuery search)).map (processAggregations search)

/-! ## `json.Marshal` -/

/-- One digit of `"0123456789abcdef"`. -/
def hexDigit (n : Nat) : Char :=
  if n < 10 then Char.ofNat (48 + n) else Char.ofNat (87 + n)

/-- The rune `utf8.RuneError`, U+FFFD. -/
def RuneError : Nat := 65533

/-- The function `utf8.DecodeRuneInString`: the rune that the first bytes of a string encode
and the number of bytes it takes; `(RuneError, 1)` when they are no UTF-8 encoding (a wrong
first byte, a continuation byte outside the accepted range, a string that ends too early,
which excludes overlong forms, surrogates and runes above U+10FFFF). -/
def decodeRune : List Char → Nat × Nat
  | [] => (RuneError, 0)
  | c0 :: rest =>
    let s0 := c0.toNat
    if s0 < 128 then (s0, 1)
    else if s0 < 194 ∨ 244 < s0 then (RuneError, 1)
    else
      let sz := if s0 < 224 then 2 else if s0 < 240 then 3 else 4
      let lo := if s0 = 224 then 160 else if s0 = 240 then 144 else 128
      let hi := if s0 = 237 then 159 else if s0 = 244 then 143 else 191
      if rest.length + 1 < sz then (RuneError, 1)
      else
        match rest with
        | [] => (RuneError, 1)
        | c1 :: rest1 =>
          let s1 := c1.toNat
          if s1 < lo ∨ hi < s1 then (RuneError, 1)
          else if sz ≤ 2 then (s0 % 32 * 64 + s1 % 64, 2)
          else
            match rest1 with
            | [] => (RuneError, 1)
            | c2 :: rest2 =>
              let s2 := c2.toNat
              if s2 < 128 ∨ 191 < s2 then (RuneError, 1)
              else if sz ≤ 3 then (s0 % 16 * 4096 + s1 % 64 * 64 + s2 % 64, 3)
              else
                match rest2 with
                | [] => (RuneError, 1)
                | c3 :: _ =>
                  let s3 := c3.toNat
                  if s3 < 128 ∨ 191 < s3 then (RuneError, 1)
                  else (s0 % 8 * 262144 + s1 % 64 * 4096 + s2 % 64 * 64 + s3 % 64, 4)

/-- How the encoder writes one ASCII byte of a string (HTML escaping is on for
`json.Marshal`): a backslash before `"` and the backslash, the short escapes for backspace,
form feed, newline, carriage return and tab, a `u00XX` escape for the other control
characters and for `<`, `>`, `&`, and every other byte as it is (the short escapes for
backspace and form feed are those of Go 1.22 and later). -/
def escapeChar (c : Char) : List Char :=
  let n := c.toNat
  let bs := Char.ofNat 92
  if n = 92 ∨ n = 34 then [bs, c]
  else if n = 8 then [bs, 'b']
  else if n = 12 then [bs, 'f']
  else if n = 10 then [bs, 'n']
  else if n = 13 then [bs, 'r']
  else if n = 9 then [bs, 't']
  else if n < 32 ∨ n = 60 ∨ n = 62 ∨ n = 38 then
    [bs, 'u', '0', '0', hexDigit (n / 16), hexDigit (n % 16)]
  else [c]

/-- The loop of `appendString` over the bytes of a string: an ASCII byte is written by
`escapeChar`; a byte that starts no UTF-8 encoding becomes the escape `ufffd`; the runes
U+2028 and U+2029 become the escapes `u2028` and `u2029`; the bytes of every other rune are
copied.  The first argument bounds the number of steps; the length of the string is
enough. -/
def appendStringLoop : Nat → List Char → List Char
  | 0, _ => []
  | _ + 1, [] => []
  | fuel + 1, c :: rest =>
    let bs := Char.ofNat 92
    if c.toNat < 128 then escapeChar c ++ appendStringLoop fuel rest
    else
      let rs := decodeRune (c :: rest)
      if rs.1 = RuneError ∧ rs.2 = 1 then
        [bs, 'u', 'f', 'f', 'f', 'd'] ++ appendStringLoop fuel rest
      else if rs.1 = 8232 ∨ rs.1 = 8233 then
        [bs, 'u', '2', '0', '2', hexDigit (rs.1 % 16)] ++
          appendStringLoop fuel (rest.drop (rs.2 - 1))
      else (c :: rest).take rs.2 ++ appendStringLoop fuel (rest.drop (rs.2 - 1))

/-- A JSON string literal, as `appendString` writes it. -/
def quoteString (s : String) : String :=
  String.mk (Char.ofNat 34 :: (appendStringLoop s.length s.data ++ [Char.ofNat 34]))

/-- An `int` in base 10. -/
def formatInt (n : Int) : String :=
  String.mk (if n < 0 then '-' :: Nat.toDigits 10 n.natAbs else Nat.toDigits 10 n.natAbs)

/-- The encoded elements, separated by commas. -/
def joinComma : List String → String
  | [] => ""
  | [p] => p
  | p :: ps => p ++ "," ++ joinComma ps

mutual
/-- The call `json.Marshal` of a dynamic value: the JSON text without white space, the keys of a map
in sorted order; `none` is a returned error. -/
def marshal : Json → Option String
  | Json.str s => some (quoteString s)
  | Json.int n => some (formatInt n)
  | Json.arr xs => (marshalElems xs).map (fun ps => "[" ++ joinComma ps ++ "]")
  | Json.obj kvs => (marshalFields kvs).map (fun ps => "\x7b" ++ joinComma ps ++ "\x7d")
  | Json.unsupported => none

/-- The elements of a slice. -/
def marshalElems : List Json → Option (List String)
  | [] => some []
  | v :: vs =>
    match marshal v, marshalElems vs with
    | some s, some ss => some (s :: ss)
    | _, _ => none

/-- The entries of a map. -/
def marshalFields : List (String × Json) → Option (List String)
  | [] => some []
  | (k, v) :: kvs =>
    match marshal v, marshalFields kvs with
    | some s, some ss => some ((quoteString k ++ ":" ++ s) :: ss)
    | _, _ => none
end

/-- The method `ConverterImpl.ToElastic`: the JSON text of the assembled query, the text of the empty
object when `json.Marshal` returns an error; `none` when the code panics. -/
def ToElastic (search : SimpleQuery) : Option String :=
  (buildDocument search).map (fun query =>
    match marshal (Json.obj query) with
    | some jsonBytes => jsonBytes
    | none => "\x7b\x7d")

/-! ## Reading a document -/

/-- The value `doc["query"]["bool"]["must"]` as a slice. -/
def mustOf (doc : Fields) : Option (List Json) := do
  let q ← asMap (mapGet "query" doc)
  let b ← asMap (mapGet "bool" q)
  asSlice (mapGet "must" b)

/-- The entries of `doc["aggs"]`; no entries when the key is absent. -/
def aggsOf (doc : Fields) : Fields :=
  match mapGet "aggs" doc with
  | some (Json.obj m) => m
  | _ => []

/-- Whether a clause is a range clause on `field`: a map with a key `range` whose value is
a map with the key `field`. -/
def isRangeOn (field : String) (c : Json) : Bool :=
  match asMap (some c) with
  | some m =>
    match asMap (mapGet "range" m) with
    | some r => (mapGet field r).isSome
    | none => false
  | none => false

mutual
/-- Every key of every map inside a value. -/
def nestedKeys : Json → List String
  | Json.obj kvs => fieldsKeys kvs
  | Json.arr xs => elemsKeys xs
  | _ => []

/-- Every key inside the elements of a slice. -/
def elemsKeys : List Json → List String
  | [] => []
  | v :: vs => nestedKeys v ++ elemsKeys vs

/-- Every key inside a map, its own keys included. -/
def fieldsKeys : List (String × Json) → List String
  | [] => []
  | (k, v) :: kvs => k :: (nestedKeys v ++ fieldsKeys kvs)
end

mutual
/-- Whether `json.Marshal` accepts a value: nothing inside it is `unsupported`. -/
def marshalable : Json → Bool
  | Json.unsupported => false
  | Json.arr xs => marshalableElems xs
  | Json.obj kvs => marshalableFields kvs
  | _ => true

/-- All elements are accepted. -/
def marshalableElems : List Json → Bool
  | [] => true
  | v :: vs => marshalable v && marshalableElems vs

/-- All values of the entries are accepted. -/
def marshalableFields : List (String × Json) → Bool
  | [] => true
  | (_, v) :: kvs => marshalable v && marshalableFields kvs
end

/-- The date range clause, written out with its keys in sorted order. -/
def dateRangeClause (dr : DataRange) : Json :=
  Json.obj [("range", Json.obj [("@timestamp", Json.obj [
    ("gte", Json.str (formatRFC3339 dr.From)), ("lte", Json.str (formatRFC3339 dr.To))])])]

/-- A map in canonical form: the keys strictly increase, so no key occurs twice. -/
def SortedKeys (m : Fields) : Prop := (mapKeys m).Pairwise (fun a b => a < b)

/-- The relation `Emits search doc`: `ToElastic search` assembles the document `doc` without a panic,
`json.Marshal` accepts it, and the call returns its JSON text (not the fallback). -/
def Emits (search : SimpleQuery) (doc : Fields) : Prop :=
  buildDocument search = some doc ∧
    ∃ text, marshal (Json.obj doc) = some text ∧ ToElastic search = some text

mutual
/-- The values inside a value that are no slice and no map, from left to right. -/
def scalars : Json → List Json
  | Json.arr xs => scalarsElems xs
  | Json.obj kvs => scalarsFields kvs
  | v => [v]

/-- The scalars inside the elements of a slice. -/
def scalarsElems : List Json → List Json
  | [] => []
  | v :: vs => scalars v ++ scalarsElems vs

/-- The scalars inside the values of a map. -/
def scalarsFields : List (String × Json) → List Json
  | [] => []
  | (_, v) :: kvs => scalars v ++ scalarsFields kvs
end

/-! ## Reading JSON text back -/

/-- The function `utf8.EncodeRune`: the UTF-8 bytes of a rune; those of U+FFFD for a
surrogate and for a rune above U+10FFFF. -/
def encodeRune (r : Nat) : List Char :=
  if r < 128 then [Char.ofNat r]
  else if r < 2048 then [Char.ofNat (192 + r / 64), Char.ofNat (128 + r % 64)]
  else if 1114111 < r ∨ (55296 ≤ r ∧ r ≤ 57343) then
    [Char.ofNat 239, Char.ofNat 191, Char.ofNat 189]
  else if r < 65536 then
    [Char.ofNat (224 + r / 4096), Char.ofNat (128 + r / 64 % 64), Char.ofNat (128 + r % 64)]
  else
    [Char.ofNat (240 + r / 262144), Char.ofNat (128 + r / 4096 % 64),
      Char.ofNat (128 + r / 64 % 64), Char.ofNat (128 + r % 64)]

/-- The function `utf8.ValidString` as a loop over `decodeRune`: no position of the string
decodes to `(RuneError, 1)`. -/
def validLoop : Nat → List Char → Bool
  | 0, cs => cs.isEmpty
  | _ + 1, [] => true
  | fuel + 1, c :: rest =>
    let rs := decodeRune (c :: rest)
    if rs.1 = RuneError ∧ rs.2 = 1 then false else validLoop fuel (rest.drop (rs.2 - 1))

/-- Whether a Go string is valid UTF-8. -/
def validUTF8 (s : String) : Bool := validLoop s.length s.data

/-- The value of a hexadecimal digit. -/
def hexVal (c : Char) : Option Nat :=
  let n := c.toNat
  if 48 ≤ n ∧ n ≤ 57 then some (n - 48)
  else if 97 ≤ n ∧ n ≤ 102 then some (n - 87)
  else if 65 ≤ n ∧ n ≤ 70 then some (n - 55)
  else none

/-- The function `getu4` of the decoder: the number that the four hexadecimal digits of an
escape `uXXXX` denote, and the text after them. -/
def getu4 : List Char → Option (Nat × List Char)
  | b :: u :: h1 :: h2 :: h3 :: h4 :: rest =>
    if b.toNat = 92 ∧ u.toNat = 117 then
      match hexVal h1, hexVal h2, hexVal h3, hexVal h4 with
      | some a, some b, some c, some d => some (((a * 16 + b) * 16 + c) * 16 + d, rest)
      | _, _, _, _ => none
    else none
  | _ => none

/-- The body of a string literal, after the opening quote, as the decoder reads it: up to
the closing quote, with the escapes resolved (a surrogate pair gives one rune, a lone
surrogate U+FFFD) and every other rune decoded and encoded again; a control character and
an unknown escape are errors.  The result is the string and the text after the closing
quote. -/
def parseStringBody : Nat → List Char → Option (List Char × List Char)
  | 0, _ => none
  | _ + 1, [] => none
  | fuel + 1, c :: rest =>
    let n := c.toNat
    if n = 34 then some ([], rest)
    else if n = 92 then
      match rest with
      | [] => none
      | e :: rest2 =>
        let m := e.toNat
        if m = 34 ∨ m = 92 ∨ m = 47 then
          (parseStringBody fuel rest2).map (fun p => (e :: p.1, p.2))
        else if m = 98 then (parseStringBody fuel rest2).map (fun p => (Char.ofNat 8 :: p.1, p.2))
        else if m = 102 then
          (parseStringBody fuel rest2).map (fun p => (Char.ofNat 12 :: p.1, p.2))
        else if m = 110 then
          (parseStringBody fuel rest2).map (fun p => (Char.ofNat 10 :: p.1, p.2))
        else if m = 114 then
          (parseStringBody fuel rest2).map (fun p => (Char.ofNat 13 :: p.1, p.2))
        else if m = 116 then
          (parseStringBody fuel rest2).map (fun p => (Char.ofNat 9 :: p.1, p.2))
        else if m = 117 then
          match getu4 (c :: rest) with
          | none => none
          | some (rr, rest3) =>
            if 55296 ≤ rr ∧ rr < 57344 then
              match getu4 rest3 with
              | some (rr1, rest4) =>
                if rr < 56320 ∧ 56320 ≤ rr1 ∧ rr1 < 57344 then
                  (parseStringBody fuel rest4).map (fun p =>
                    (encodeRune ((rr - 55296) * 1024 + (rr1 - 56320) + 65536) ++ p.1, p.2))
                else
                  (parseStringBody fuel rest3).map (fun p => (encodeRune RuneError ++ p.1, p.2))
              | none =>
                (parseStringBody fuel rest3).map (fun p => (encodeRune RuneError ++ p.1, p.2))
            else (parseStringBody fuel rest3).map (fun p => (encodeRune rr ++ p.1, p.2))
        else none
    else if n < 32 then none
    else if n < 128 then (parseStringBody fuel rest).map (fun p => (c :: p.1, p.2))
    else
      let rs := decodeRune (c :: rest)
      (parseStringBody fuel (rest.drop (rs.2 - 1))).map (fun p => (encodeRune rs.1 ++ p.1, p.2))

/-- White space between the tokens of a JSON text is skipped. -/
def skipWs : List Char → List Char
  | [] => []
  | c :: rest =>
    if c.toNat = 32 ∨ c.toNat = 9 ∨ c.toNat = 10 ∨ c.toNat = 13 then skipWs rest
    else c :: rest

/-- A run of decimal digits, read onto the number `acc`. -/
def readDigits : List Char → Nat → Nat × List Char
  | [], acc => (acc, [])
  | c :: rest, acc =>
    if 48 ≤ c.toNat ∧ c.toNat ≤ 57 then readDigits rest (acc * 10 + (c.toNat - 48))
    else (acc, c :: rest)

/-- A number literal without sign: `0`, or digits that start with a digit from 1 to 9.  A
fraction or an exponent after it is no integer and is not read (`none`). -/
def parseNat : List Char → Option (Nat × List Char)
  | [] => none
  | c :: rest =>
    let r :=
      if c.toNat = 48 then some (0, rest)
      else if 49 ≤ c.toNat ∧ c.toNat ≤ 57 then some (readDigits rest (c.toNat - 48))
      else none
    match r with
    | none => none
    | some (n, []) => some (n, [])
    | some (n, d :: rest2) =>
      if (48 ≤ d.toNat ∧ d.toNat ≤ 57) ∨ d.toNat = 46 ∨ d.toNat = 101 ∨ d.toNat = 69 then none
      else some (n, d :: rest2)

/-- The number of binary digits that an integer `a` has beyond 53, the size of the
mantissa of a `float64`; the first argument bounds the recursion. -/
def floatShift : Nat → Nat → Nat
  | 0, _ => 0
  | fuel + 1, a => if a < 9007199254740992 then 0 else floatShift fuel (a / 2) + 1

/-- The `float64` that `strconv.ParseFloat` finds for an integer literal: the `float64`
nearest to the integer, of two equally near ones that with the even mantissa, and `none`
for an integer that is rounded beyond the largest `float64`, which is (2^53 - 1) * 2^971.
The `float64` is given by its value, the mantissa `q1` times 2^`e`, which is an integer
again; every integer up to 2^53 in size is its own `float64`. -/
def roundFloat64 (n : Int) : Option Int :=
  let a := n.natAbs
  let e := floatShift a a
  let q := a / 2 ^ e
  let r := a % 2 ^ e
  let q1 := if 2 ^ e < 2 * r ∨ (2 * r = 2 ^ e ∧ q % 2 = 1) then q + 1 else q
  let m := q1 * 2 ^ e
  if 971 < e ∨ (e = 971 ∧ q1 = 9007199254740992) then none
  else some (if n < 0 then -(m : Int) else (m : Int))

/-- A number literal with an optional minus sign, as the decoder reads it into a dynamic
value: an integer literal gives the `float64` nearest to it. -/
def parseNumber : List Char → Option (Int × List Char)
  | [] => none
  | c :: rest =>
    if c.toNat = 45 then
      (parseNat rest).bind (fun p => (roundFloat64 (-(p.1 : Int))).map (fun x => (x, p.2)))
    else
      (parseNat (c :: rest)).bind (fun p => (roundFloat64 (p.1 : Int)).map (fun x => (x, p.2)))

mutual
/-- A JSON value at the start of a text: a string, a number, an array or an object, whose
entries are stored one after the other as the decoder stores them in a map, a later entry
replacing an earlier one with the same key.  A number is a `float64` in the decoded value;
it is recorded as `Json.int` of its value.  A text that is no JSON, and the literals and
numbers that `Json` has no value for, give `none`.  The first argument bounds the depth of
the recursion. -/
def parseValue : Nat → List Char → Option (Json × List Char)
  | 0, _ => none
  | fuel + 1, cs =>
    match skipWs cs with
    | [] => none
    | c :: rest =>
      if c.toNat = 34 then
        (parseStringBody (fuel + 1) rest).map (fun p => (Json.str (String.mk p.1), p.2))
      else if c.toNat = 91 then
        match skipWs rest with
        | [] => none
        | d :: rest2 =>
          if d.toNat = 93 then some (Json.arr [], rest2)
          else (parseElems fuel (d :: rest2)).map (fun p => (Json.arr p.1, p.2))
      else if c.toNat = 123 then
        match skipWs rest with
        | [] => none
        | d :: rest2 =>
          if d.toNat = 125 then some (Json.obj [], rest2)
          else (parseFields fuel (d :: rest2)).map (fun p => (Json.obj (mapLit p.1), p.2))
      else (parseNumber (c :: rest)).map (fun p => (Json.int p.1, p.2))

/-- The elements of an array up to the closing bracket. -/
def parseElems : Nat → List Char → Option (List Json × List Char)
  | 0, _ => none
  | fuel + 1, cs =>
    match parseValue fuel cs with
    | none => none
    | some (v, r) =>
      match skipWs r with
      | [] => none
      | d :: r2 =>
        if d.toNat = 44 then (parseElems fuel r2).map (fun p => (v :: p.1, p.2))
        else if d.toNat = 93 then some ([v], r2)
        else none

/-- The entries of an object up to the closing brace. -/
def parseFields : Nat → List Char → Option (List (String × Json) × List Char)
  | 0, _ => none
  | fuel + 1, cs =>
    match skipWs cs with
    | [] => none
    | q :: r0 =>
      if q.toNat = 34 then
        match parseStringBody (fuel + 1) r0 with
        | none => none
        | some (k, r1) =>
          match skipWs r1 with
          | [] => none
          | colon :: r2 =>
            if colon.toNat = 58 then
              match parseValue fuel r2 with
              | none => none
              | some (v, r3) =>
                match skipWs r3 with
                | [] => none
                | d :: r4 =>
                  if d.toNat = 44 then
                    (parseFields fuel r4).map (fun p => ((String.mk k, v) :: p.1, p.2))
                  else if d.toNat = 125 then some ([(String.mk k, v)], r4)
                  else none
            else none
      else none
end

/-- The call `json.Unmarshal` of a text into a dynamic value: the one JSON value that the
text holds, with nothing but white space after it. -/
def unmarshal (text : String) : Option Json :=
  match parseValue (text.length + 1) text.data with
  | none => none
  | some (v, rest) => if (skipWs rest).isEmpty then some v else none

/-- The text after a number literal of `json.Marshal` does not go on with a digit, a point
or an exponent: it is empty or starts with another byte. -/
def EndsNumber (rest : List Char) : Prop :=
  ∀ d ∈ rest.head?, ¬ ((48 ≤ d.toNat ∧ d.toNat ≤ 57) ∨ d.toNat = 46 ∨ d.toNat = 101 ∨
    d.toNat = 69)

/-- The number that a list of decimal digits denotes. -/
def digitsValue (l : List Char) : Nat := l.foldl (fun a c => a * 10 + (c.toNat - 48)) 0

mutual
/-- The bytes of the text that `json.Marshal` writes for a value (nothing for a value it
rejects). -/
def encode : Json → List Char
  | Json.str s => (quoteString s).data
  | Json.int n => (formatInt n).data
  | Json.arr xs => Char.ofNat 91 :: (encodeElems xs ++ [Char.ofNat 93])
  | Json.obj kvs => Char.ofNat 123 :: (encodeFields kvs ++ [Char.ofNat 125])
  | Json.unsupported => []

/-- The elements of a slice with commas between them. -/
def encodeElems : List Json → List Char
  | [] => []
  | v :: vs => if vs.isEmpty then encode v else encode v ++ Char.ofNat 44 :: encodeElems vs

/-- The entries of a map, each as key, colon and value, with commas between them. -/
def encodeFields : List (String × Json) → List Char
  | [] => []
  | (k, v) :: kvs =>
    if kvs.isEmpty then (quoteString k).data ++ Char.ofNat 58 :: encode v
    else (quoteString k).data ++ Char.ofNat 58 :: (encode v ++ Char.ofNat 44 :: encodeFields kvs)
end

mutual
/-- A value in the form that decoding gives back: every string and every key is valid
UTF-8, every number is the value of a `float64`, every map has its keys in increasing
order, and nothing in it is rejected by `json.Marshal`. -/
def Canonical : Json → Prop
  | Json.str s => validUTF8 s = true
  | Json.int n => roundFloat64 n = some n
  | Json.arr xs => CanonicalElems xs
  | Json.obj kvs => SortedKeys kvs ∧ CanonicalFields kvs
  | Json.unsupported => False

/-- All elements of a slice are canonical. -/
def CanonicalElems : List Json → Prop
  | [] => True
  | v :: vs => Canonical v ∧ CanonicalElems vs

/-- All keys of a map are valid UTF-8 and all its values are canonical. -/
def CanonicalFields : List (String × Json) → Prop
  | [] => True
  | (k, v) :: kvs => validUTF8 k = true ∧ Canonical v ∧ CanonicalFields kvs
end

/-- A string of ASCII bytes only. -/
def Ascii (s : String) : Prop := ∀ c ∈ s.data, c.toNat < 128

/-! ## Reading an RFC 3339 timestamp back (`time.Parse` with the layout `time.RFC3339`) -/

/-- The function `daysSinceEpoch` of package time, counted from 0001-01-01: the days before
the first day of `year`. -/
def daysSinceEpoch (year : Int) : Int :=
  let y := year - 1
  let n400 := y / 400
  let y := y - 400 * n400
  let d := 146097 * n400
  let n100 := y / 100
  let y := y - 100 * n100
  let d := d + 36524 * n100
  let n4 := y / 4
  let y := y - 4 * n4
  let d := d + 1461 * n4
  d + 365 * y

/-- The function `daysIn`: the number of days of a month. -/
def daysIn (month : Nat) (year : Int) : Nat :=
  if month = 2 ∧ isLeap year = true then 29
  else (daysBefore month - daysBefore (month - 1)).toNat

/-- The seconds since the Unix epoch that `time.Date` computes for a date and a clock in
UTC, for a month from 1 to 12. -/
def dateUnix (year : Int) (month day hour min sec : Nat) : Int :=
  let d := daysSinceEpoch year + daysBefore (month - 1) +
    (if isLeap year = true ∧ 3 ≤ month then 1 else 0) + ((day : Int) - 1)
  d * 86400 + ((hour : Int) * 3600 + (min : Int) * 60 + (sec : Int)) - unixToInternal

/-- The closure `parseUint` of `parseRFC3339`: the number that the digits denote, when all
of the bytes are digits and the number lies within the range. -/
def parseUint (cs : List Char) (lo hi : Nat) : Option Nat :=
  if cs.all (fun c => decide (48 ≤ c.toNat ∧ c.toNat ≤ 57)) then
    if lo ≤ digitsValue cs ∧ digitsValue cs ≤ hi then some (digitsValue cs) else none
  else none

/-- The fraction of a second after the clock, when there is one: a point and digits, of
which nine count; the result is the nanoseconds and the text after the digits. -/
def parseFraction : List Char → Nat × List Char
  | [] => (0, [])
  | [c] => (0, [c])
  | p :: d :: rest =>
    if p.toNat = 46 ∧ 48 ≤ d.toNat ∧ d.toNat ≤ 57 then
      let ds := (d :: rest).takeWhile (fun c => decide (48 ≤ c.toNat ∧ c.toNat ≤ 57))
      let ds9 := ds.take 9
      (digitsValue ds9 * 10 ^ (9 - ds9.length), (d :: rest).drop ds.length)
    else (0, p :: d :: rest)

/-- The zone at the end of a timestamp: `Z`, or a sign, two digits of hours up to 23, a
colon and two digits of minutes up to 59; the result is the offset in seconds. -/
def parseZone : List Char → Option Int
  | [z] => if z.toNat = 90 then some 0 else none
  | [s, h1, h2, c, m1, m2] =>
    match parseUint [h1, h2] 0 23, parseUint [m1, m2] 0 59 with
    | some hr, some mm =>
      if (s.toNat = 45 ∨ s.toNat = 43) ∧ c.toNat = 58 then
        if s.toNat = 45 then some (-(((hr * 60 + mm) * 60 : Nat) : Int))
        else some (((hr * 60 + mm) * 60 : Nat) : Int)
      else none
    | _, _ => none
  | _ => none

/-- The function `parseRFC3339` behind `time.Parse(time.RFC3339, s)`: four digits of year,
two of month, day, hour, minute and second at their fixed places with the separators
between them, an optional fraction of a second and the zone; each number must lie within
its range.  The result is the instant and the offset of the zone. -/
def parseRFC3339 (s : String) : Option Time :=
  match s.data with
  | y1 :: y2 :: y3 :: y4 :: s4 :: m1 :: m2 :: s7 :: d1 :: d2 :: s10 :: h1 :: h2 :: s13 ::
      n1 :: n2 :: s16 :: c1 :: c2 :: rest =>
    match parseUint [y1, y2, y3, y4] 0 9999, parseUint [m1, m2] 1 12 with
    | some year, some month =>
      match parseUint [d1, d2] 1 (daysIn month year), parseUint [h1, h2] 0 23,
        parseUint [n1, n2] 0 59, parseUint [c1, c2] 0 59 with
      | some day, some hour, some min, some sec =>
        if s4.toNat = 45 ∧ s7.toNat = 45 ∧ s10.toNat = 84 ∧ s13.toNat = 58 ∧
            s16.toNat = 58 then
          let frac := parseFraction rest
          match parseZone frac.2 with
          | some zoneOffset =>
            some ⟨dateUnix year month day hour min sec - zoneOffset, frac.1, zoneOffset⟩
          | none => none
        else none
      | _, _, _, _ => none
    | _, _ => none
  | _ => none

/-- The last part of `absDate`: month and day of the day `d` of a year, counted from 0. -/
def monthDayOf (year d : Int) : Int × Int × Int :=
  if isLeap year && d == 59 then (year, 2, 29)
  else
    let day := if isLeap year && d > 59 then d - 1 else d
    let month := (day / 31).toNat
    let fin := daysBefore (month + 1)
    if day ≥ fin then (year, (month : Int) + 2, day - fin + 1)
    else (year, (month : Int) + 1, day - daysBefore month + 1)

/-! ## The general parser of package time at the layout `time.RFC3339`

`time.Parse` tries `parseRFC3339` first and, when that gives no result, the general parser
`parse`, which walks the layout `2006-01-02T15:04:05Z07:00` chunk by chunk. -/

/-- The function `getnum` of package time: a number of one or two digits at the start of
the text, of two digits when `fixed`, and the text after it. -/
def getnum (s : List Char) (fixed : Bool) : Option (Nat × List Char) :=
  match s with
  | [] => none
  | c :: rest =>
    if 48 ≤ c.toNat ∧ c.toNat ≤ 57 then
      match rest with
      | [] => if fixed then none else some (c.toNat - 48, [])
      | d :: rest2 =>
        if 48 ≤ d.toNat ∧ d.toNat ≤ 57 then
          some ((c.toNat - 48) * 10 + (d.toNat - 48), rest2)
        else if fixed then none else some (c.toNat - 48, d :: rest2)
    else none

/-- The function `skip` for a prefix of one byte that is no space: the text after that
byte. -/
def skip (value : List Char) (b : Nat) : Option (List Char) :=
  match value with
  | [] => none
  | c :: rest => if c.toNat = b then some rest else none

/-- The chunk `2006` of the layout (`stdLongYear`): four bytes, the first a digit, read by
`atoi`, which wants digits only. -/
def parseLongYear (value : List Char) : Option (Nat × List Char) :=
  match value with
  | y1 :: y2 :: y3 :: y4 :: rest =>
    if [y1, y2, y3, y4].all (fun c => decide (48 ≤ c.toNat ∧ c.toNat ≤ 57)) then
      some (digitsValue [y1, y2, y3, y4], rest)
    else none
  | _ => none

/-- The fraction of a second that the general parser accepts after the seconds although
the layout has none: a point or a comma and digits, of which nine count. -/
def parseFractionGeneral : List Char → Nat × List Char
  | [] => (0, [])
  | [c] => (0, [c])
  | p :: d :: rest =>
    if (p.toNat = 46 ∨ p.toNat = 44) ∧ 48 ≤ d.toNat ∧ d.toNat ≤ 57 then
      let ds := (d :: rest).takeWhile (fun c => decide (48 ≤ c.toNat ∧ c.toNat ≤ 57))
      let ds9 := ds.take 9
      (digitsValue ds9 * 10 ^ (9 - ds9.length), (d :: rest).drop ds.length)
    else (0, p :: d :: rest)

/-- The chunk `Z07:00` of the layout (`stdISO8601ColonTZ`): `Z`, or a sign, two digits of
hours up to 24, a colon and two digits of minutes up to 60; the result is the offset in
seconds and the text after the zone. -/
def parseColonTZ (value : List Char) : Option (Int × List Char) :=
  match value with
  | [] => none
  | z :: rest =>
    if z.toNat = 90 then some (0, rest)
    else
      match rest with
      | h1 :: h2 :: c :: m1 :: m2 :: rest2 =>
        if c.toNat = 58 then
          match getnum [h1, h2] true, getnum [m1, m2] true with
          | some (hr, _), some (mm, _) =>
            if 24 < hr ∨ 60 < mm then none
            else if z.toNat = 43 then some ((((hr * 60 + mm) * 60 : Nat) : Int), rest2)
            else if z.toNat = 45 then some (-(((hr * 60 + mm) * 60 : Nat) : Int), rest2)
            else none
          | _, _ => none
        else none
      | _ => none

/-- The function `parse` of package time at the layout `time.RFC3339`: the year, then each
separator and number of the layout in turn, a fraction of a second when the text has one,
the zone, and nothing after it; the day is checked against the month at the end. -/
def parse (s : String) : Option Time :=
  match parseLongYear s.data with
  | none => none
  | some (year, v) =>
  match (skip v 45).bind (fun v => getnum v true) with
  | none => none
  | some (month, v) =>
  if month = 0 ∨ 12 < month then none else
  match (skip v 45).bind (fun v => getnum v true) with
  | none => none
  | some (day, v) =>
  match (skip v 84).bind (fun v => getnum v false) with
  | none => none
  | some (hour, v) =>
  if 24 ≤ hour then none else
  match (skip v 58).bind (fun v => getnum v true) with
  | none => none
  | some (min, v) =>
  if 60 ≤ min then none else
  match (skip v 58).bind (fun v => getnum v true) with
  | none => none
  | some (sec, v) =>
  if 60 ≤ sec then none else
  let frac := parseFractionGeneral v
  match parseColonTZ frac.2 with
  | none => none
  | some (zoneOffset, v) =>
  if v.length ≠ 0 then none
  else if day < 1 ∨ daysIn month year < day then none
  else some ⟨dateUnix year month day hour min sec - zoneOffset, frac.1, zoneOffset⟩

/-- The call `time.Parse(time.RFC3339, s)`: the result of `parseRFC3339` when it has one,
and of the general parser otherwise. -/
def Parse (s : String) : Option Time :=
  match parseRFC3339 s with
  | some t => some t
  | none => parse s

/-! ## Maps: reading after writing -/

theorem keyLt_iff (a b : String) : keyLt a b = true ↔ a < b := by
  unfold keyLt
  rw [decide_eq_true_iff]
  exact String.lt_iff_toList_lt.symm

theorem mapGet_mapSet (k k' : String) (v : Json) (m : Fields) :
    mapGet k' (mapSet k v m) = if k' = k then some v else mapGet k' m := by
  induction m with
  | nil => simp [mapSet, mapGet]
  | cons e rest ih =>
    obtain ⟨k0, v0⟩ := e
    by_cases h1 : k = k0
    · subst h1
      by_cases h2 : k' = k <;> simp [mapSet, mapGet, h2]
    · by_cases h3 : keyLt k k0 = true
      · by_cases h2 : k' = k <;> simp [mapSet, mapGet, h1, h2, h3]
      · by_cases h2 : k' = k
        · subst h2
          simp [mapSet, mapGet, h1, h3, ih]
        · simp [mapSet, mapGet, h1, h2, h3, ih]

theorem mapGet_isSome_iff (k : String) (m : Fields) :
    (mapGet k m).isSome = true ↔ k ∈ mapKeys m := by
  induction m with
  | nil => simp [mapGet, mapKeys]
  | cons e rest ih =>
    obtain ⟨k0, v0⟩ := e
    by_cases h : k = k0
    · simp [mapGet, mapKeys, h]
    · simp only [mapKeys] at ih
      simp [mapGet, mapKeys, h, ih]

theorem mem_mapKeys_mapSet (k k' : String) (v : Json) (m : Fields) :
    k' ∈ mapKeys (mapSet k v m) ↔ k' = k ∨ k' ∈ mapKeys m := by
  rw [← mapGet_isSome_iff, ← mapGet_isSome_iff, mapGet_mapSet]
  by_cases h : k' = k <;> simp [h]

theorem sortedKeys_mapSet (k : String) (v : Json) (m : Fields) (h : SortedKeys m) :
    SortedKeys (mapSet k v m) := by
  induction m with
  | nil => simp [mapSet, SortedKeys, mapKeys]
  | cons e rest ih =>
    obtain ⟨k0, v0⟩ := e
    have hc : (∀ a ∈ mapKeys rest, k0 < a) ∧ SortedKeys rest := by
      simpa [SortedKeys, mapKeys] using h
    by_cases h1 : k = k0
    · subst h1
      simpa [mapSet, SortedKeys, mapKeys] using h
    · by_cases h3 : keyLt k k0 = true
      · have hlt : k < k0 := (keyLt_iff k k0).1 h3
        have hall : ∀ a ∈ mapKeys rest, k < a := fun a ha => lt_trans hlt (hc.1 a ha)
        have e : mapSet k v ((k0, v0) :: rest) = (k, v) :: (k0, v0) :: rest := by
          simp [mapSet, h1, h3]
        rw [e]
        simp only [SortedKeys, mapKeys, List.map_cons, List.pairwise_cons, List.mem_cons]
        refine ⟨?_, ?_, ?_⟩
        · intro a ha
          rcases ha with ha | ha
          · exact ha ▸ hlt
          · exact hall a (by simpa [mapKeys] using ha)
        · intro a ha
          exact hc.1 a (by simpa [mapKeys] using ha)
        · simpa [SortedKeys, mapKeys] using hc.2
      · have hgt : k0 < k := by
          rcases lt_trichotomy k k0 with h4 | h4 | h4
          · exact absurd ((keyLt_iff k k0).2 h4) h3
          · exact absurd h4 h1
          · exact h4
        have ih2 := ih hc.2
        have e : mapSet k v ((k0, v0) :: rest) = (k0, v0) :: mapSet k v rest := by
          simp [mapSet, h1, h3]
        rw [e]
        simp only [SortedKeys, mapKeys, List.map_cons, List.pairwise_cons]
        refine ⟨?_, ?_⟩
        · intro a ha
          have ha2 : a ∈ mapKeys (mapSet k v rest) := by simpa [mapKeys] using ha
          rcases (mem_mapKeys_mapSet k a v rest).1 ha2 with h5 | h5
          · exact h5 ▸ hgt
          · exact hc.1 a h5
        · simpa [SortedKeys, mapKeys] using ih2

theorem sortedKeys_nodup (m : Fields) (h : SortedKeys m) : (mapKeys m).Nodup := by
  unfold SortedKeys at h
  exact h.imp (fun hab => ne_of_lt hab)

/-! ## The loops and the assembled document in closed form -/

theorem baseQuery_eq (search : SimpleQuery) :
    baseQuery search = [("from", Json.int search.Offset),
      ("query", Json.obj [("bool", Json.obj [("must",
        Json.arr [dateRangeClause search.DateRange])])]),
      ("size", Json.int search.Limit)] := rfl

theorem collectFilters_foldl (fs : List Filter) (acc : List Json) :
    fs.foldl (fun filters filter =>
      match convertFilter filter with
      | some filterQuery => filters ++ [Json.obj filterQuery]
      | none => filters) acc = acc ++ (fs.filterMap convertFilter).map Json.obj := by
  induction fs generalizing acc with
  | nil => simp
  | cons f rest ih =>
    rw [List.foldl_cons, ih]
    cases h : convertFilter f <;> simp [List.filterMap_cons, h]

theorem collectFilters_eq (fs : List Filter) :
    collectFilters fs = (fs.filterMap convertFilter).map Json.obj := by
  unfold collectFilters
  rw [collectFilters_foldl]
  simp

/-- The `must` slice that `ToElastic` ends with. -/
theorem processFilters_eq (search : SimpleQuery) :
    processFilters search (baseQuery search) = some [("from", Json.int search.Offset),
      ("query", Json.obj [("bool", Json.obj [("must",
        Json.arr (dateRangeClause search.DateRange ::
          (search.Filters.filterMap convertFilter).map Json.obj))])]),
      ("size", Json.int search.Limit)] := by
  rw [baseQuery_eq]
  unfold processFilters
  rw [collectFilters_eq]
  by_cases h1 : search.Filters.length > 0
  · by_cases h2 : ((search.Filters.filterMap convertFilter).map Json.obj).length > 0
    · rw [if_pos h1]
      simp only [h2, if_true]
      rfl
    · have h3 : search.Filters.filterMap convertFilter = [] := by
        simpa using h2
      rw [if_pos h1]
      simp [h3]
  · have h3 : search.Filters = [] := by simpa using h1
    simp [h3]

theorem processAggregations_eq (search : SimpleQuery) (q v : Json) (n : Json) :
    processAggregations search [("from", n), ("query", q), ("size", v)] =
      (if (collectAggs search.Aggregations).length > 0
        then [("aggs", Json.obj (collectAggs search.Aggregations))] else []) ++
        [("from", n), ("query", q), ("size", v)] := by
  unfold processAggregations
  by_cases h1 : search.Aggregations.length > 0
  · rw [if_pos h1]
    by_cases h2 : (collectAggs search.Aggregations).length > 0
    · simp only [h2, if_true]
      rfl
    · simp only [h2, if_false]
      rfl
  · have h3 : search.Aggregations = [] := by simpa using h1
    simp [h3, collectAggs]

/-- The document handed to `json.Marshal`, in closed form: no type assertion panics. -/
theorem buildDocument_eq (search : SimpleQuery) :
    buildDocument search = some (
      (if (collectAggs search.Aggregations).length > 0
        then [("aggs", Json.obj (collectAggs search.Aggregations))] else []) ++
      [("from", Json.int search.Offset),
       ("query", Json.obj [("bool", Json.obj [("must",
          Json.arr (dateRangeClause search.DateRange ::
            (search.Filters.filterMap convertFilter).map Json.obj))])]),
       ("size", Json.int search.Limit)]) := by
  unfold buildDocument
  rw [processFilters_eq, Option.map_some', processAggregations_eq]

theorem mustOf_buildDocument (search : SimpleQuery) (doc : Fields)
    (h : buildDocument search = some doc) :
    mustOf doc = some (dateRangeClause search.DateRange ::
      (search.Filters.filterMap convertFilter).map Json.obj) := by
  rw [buildDocument_eq] at h
  injection h with h
  subst h
  by_cases h2 : (collectAggs search.Aggregations).length > 0
  · simp only [h2, if_true]
    rfl
  · simp only [h2, if_false]
    rfl

/-! ## `json.Marshal` accepts what the converter builds -/

mutual
theorem marshal_isSome : (v : Json) → marshalable v = true → (marshal v).isSome = true
  | Json.str _, _ => by simp [marshal]
  | Json.int _, _ => by simp [marshal]
  | Json.arr xs, h => by
    have h2 := marshalElems_isSome xs (by simpa [marshalable] using h)
    simpa [marshal] using h2
  | Json.obj kvs, h => by
    have h2 := marshalFields_isSome kvs (by simpa [marshalable] using h)
    simpa [marshal] using h2
  | Json.unsupported, h => by simp [marshalable] at h

theorem marshalElems_isSome :
    (xs : List Json) → marshalableElems xs = true → (marshalElems xs).isSome = true
  | [], _ => by simp [marshalElems]
  | v :: vs, h => by
    have h0 : marshalable v = true ∧ marshalableElems vs = true := by
      simpa [marshalableElems] using h
    have h1 := marshal_isSome v h0.1
    have h2 := marshalElems_isSome vs h0.2
    obtain ⟨s, hs⟩ := Option.isSome_iff_exists.1 h1
    obtain ⟨ss, hss⟩ := Option.isSome_iff_exists.1 h2
    simp [marshalElems, hs, hss]

theorem marshalFields_isSome :
    (kvs : List (String × Json)) → marshalableFields kvs = true →
      (marshalFields kvs).isSome = true
  | [], _ => by simp [marshalFields]
  | (k, v) :: rest, h => by
    have h0 : marshalable v = true ∧ marshalableFields rest = true := by
      simpa [marshalableFields] using h
    have h1 := marshal_isSome v h0.1
    have h2 := marshalFields_isSome rest h0.2
    obtain ⟨s, hs⟩ := Option.isSome_iff_exists.1 h1
    obtain ⟨ss, hss⟩ := Option.isSome_iff_exists.1 h2
    simp [marshalFields, hs, hss]
end

theorem marshalableFields_mapSet (k : String) (v : Json) (m : Fields)
    (hv : marshalable v = true) (hm : marshalableFields m = true) :
    marshalableFields (mapSet k v m) = true := by
  induction m with
  | nil => simp [mapSet, marshalableFields, hv]
  | cons e rest ih =>
    obtain ⟨k0, v0⟩ := e
    have h0 : marshalable v0 = true ∧ marshalableFields rest = true := by
      simpa [marshalableFields] using hm
    by_cases h1 : k = k0
    · simp [mapSet, h1, marshalableFields, hv, h0.2]
    · by_cases h3 : keyLt k k0 = true
      · simp [mapSet, h1, h3, marshalableFields, hv, h0.1, h0.2]
      · simp [mapSet, h1, h3, marshalableFields, h0.1, ih h0.2]

theorem marshalable_convertFilter (f : Filter) (c : Fields) (h : convertFilter f = some c) :
    marshalable (Json.obj c) = true := by
  unfold convertFilter at h
  split_ifs at h <;>
    (injection h with h; subst h
     simp [mapLit, mapSet, marshalable, marshalableFields])

theorem marshalable_convertAggregation (a : Aggregation) (c : Fields)
    (h : convertAggregation a = some c) : marshalable (Json.obj c) = true := by
  unfold convertAggregation at h
  split_ifs at h <;>
    (injection h with h; subst h
     simp [mapLit, mapSet, keyLt, marshalable, marshalableFields])

theorem marshalableElems_filters (fs : List Filter) :
    marshalableElems ((fs.filterMap convertFilter).map Json.obj) = true := by
  induction fs with
  | nil => simp [marshalableElems]
  | cons f rest ih =>
    cases h : convertFilter f with
    | none => simpa [List.filterMap_cons, h] using ih
    | some c =>
      simp [List.filterMap_cons, h, marshalableElems, ih, marshalable_convertFilter f c h]

theorem marshalableFields_foldl (as : List Aggregation) (acc : Fields)
    (hacc : marshalableFields acc = true) :
    marshalableFields (as.foldl (fun aggs agg =>
      match convertAggregation agg with
      | some aggQuery => mapSet agg.Field (Json.obj aggQuery) aggs
      | none => aggs) acc) = true := by
  induction as generalizing acc with
  | nil => simpa using hacc
  | cons a rest ih =>
    rw [List.foldl_cons]
    apply ih
    cases h : convertAggregation a with
    | none => simpa using hacc
    | some c =>
      exact marshalableFields_mapSet _ _ _ (marshalable_convertAggregation a c h) hacc

theorem marshalable_buildDocument (search : SimpleQuery) (doc : Fields)
    (h : buildDocument search = some doc) : marshalable (Json.obj doc) = true := by
  rw [buildDocument_eq] at h
  injection h with h
  subst h
  have ha : marshalableFields (collectAggs search.Aggregations) = true :=
    marshalableFields_foldl search.Aggregations [] rfl
  have hf := marshalableElems_filters search.Filters
  by_cases h2 : (collectAggs search.Aggregations).length > 0
  · simp only [h2, if_true]
    simp [marshalable, marshalableFields, marshalableElems, dateRangeClause, ha, hf]
  · simp only [h2, if_false]
    simp [marshalable, marshalableFields, marshalableElems, dateRangeClause, hf]

/-- The method `ToElastic` never panics and never takes the fallback branch. -/
theorem emits_buildDocument (search : SimpleQuery) :
    ∃ doc, Emits search doc := by
  refine ⟨_, buildDocument_eq search, ?_⟩
  have hm := marshal_isSome _ (marshalable_buildDocument search _ (buildDocument_eq search))
  obtain ⟨text, ht⟩ := Option.isSome_iff_exists.1 hm
  refine ⟨text, ht, ?_⟩
  unfold ToElastic
  rw [buildDocument_eq, Option.map_some', ht]

/-! ## The two sub-mappers: when a clause is produced -/

theorem convertFilter_isSome_iff (f : Filter) :
    (convertFilter f).isSome = true ↔ f.Operator ∈ ["=", "!=", ">", "<", ">=", "<="] := by
  unfold convertFilter EqualOperator NotEqualOperator GreaterThanOperator LessThanOperator
    GreaterOrEqual LessOrEqual
  split_ifs <;> simp_all

theorem convertAggregation_isSome_iff (a : Aggregation) :
    (convertAggregation a).isSome = true ↔ a.Typ ∈ ["terms", "sum", "avg"] := by
  unfold convertAggregation TermsAggregation SumAggregation AvgAggregation
  split_ifs <;> simp_all

theorem filterMap_convertFilter (fs : List Filter) :
    ((fs.filterMap convertFilter).map Json.obj).map some =
      (fs.filter (fun f => decide (f.Operator ∈ ["=", "!=", ">", "<", ">=", "<="]))).map
        (fun f => (convertFilter f).map Json.obj) := by
  induction fs with
  | nil => simp
  | cons f rest ih =>
    have hiff := convertFilter_isSome_iff f
    cases h : convertFilter f with
    | none =>
      have hn : ¬ f.Operator ∈ ["=", "!=", ">", "<", ">=", "<="] := by
        intro hm
        have := hiff.2 hm
        simp [h] at this
      rw [List.filterMap_cons, h, List.filter_cons]
      simp only [hn, decide_False]
      simpa using ih
    | some c =>
      have hm : f.Operator ∈ ["=", "!=", ">", "<", ">=", "<="] := hiff.1 (by simp [h])
      rw [List.filterMap_cons, h, List.filter_cons]
      simp only [hm, decide_True, if_true, List.map_cons, h, Option.map_some']
      rw [ih]

/-! ## The aggregation loop -/

theorem collectAggs_append (as : List Aggregation) (a : Aggregation) :
    collectAggs (as ++ [a]) =
      match convertAggregation a with
      | some aggQuery => mapSet a.Field (Json.obj aggQuery) (collectAggs as)
      | none => collectAggs as := by
  simp [collectAggs, List.foldl_append]

/-- Under a field name the loop leaves the clause of the last aggregation with that field
and a recognized type. -/
theorem mapGet_collectAggs (f : String) (as : List Aggregation) :
    mapGet f (collectAggs as) =
      ((as.filter (fun a => decide (a.Typ ∈ ["terms", "sum", "avg"] ∧ a.Field = f))).getLast?).bind
        (fun a => (convertAggregation a).map Json.obj) := by
  induction as using List.reverseRecOn with
  | nil => simp [collectAggs, mapGet]
  | append_singleton l a ih =>
    rw [collectAggs_append, List.filter_append]
    have hiff := convertAggregation_isSome_iff a
    cases h : convertAggregation a with
    | none =>
      have hn : ¬ a.Typ ∈ ["terms", "sum", "avg"] := by
        intro hm
        have := hiff.2 hm
        simp [h] at this
      have e : List.filter (fun a => decide (a.Typ ∈ ["terms", "sum", "avg"] ∧ a.Field = f)) [a]
          = [] := by
        have hp : decide (a.Typ ∈ ["terms", "sum", "avg"] ∧ a.Field = f) = false :=
          decide_eq_false (fun h2 => hn h2.1)
        simp only [List.filter, hp]
      rw [e, List.append_nil]
      exact ih
    | some c =>
      have hm : a.Typ ∈ ["terms", "sum", "avg"] := hiff.1 (by simp [h])
      simp only []
      rw [mapGet_mapSet]
      by_cases hf : f = a.Field
      · have e : List.filter
            (fun a => decide (a.Typ ∈ ["terms", "sum", "avg"] ∧ a.Field = f)) [a] = [a] := by
          have hp : decide (a.Typ ∈ ["terms", "sum", "avg"] ∧ a.Field = f) = true :=
            decide_eq_true ⟨hm, hf.symm⟩
          simp only [List.filter, hp]
        rw [e, List.getLast?_append]
        simp [hf, h]
      · have e : List.filter
            (fun a => decide (a.Typ ∈ ["terms", "sum", "avg"] ∧ a.Field = f)) [a] = [] := by
          have hp : decide (a.Typ ∈ ["terms", "sum", "avg"] ∧ a.Field = f) = false :=
            decide_eq_false (fun h2 => hf h2.2.symm)
          simp only [List.filter, hp]
        rw [e, List.append_nil, if_neg hf]
        exact ih

theorem sortedKeys_collectAggs (as : List Aggregation) : SortedKeys (collectAggs as) := by
  induction as using List.reverseRecOn with
  | nil => simp [collectAggs, SortedKeys, mapKeys]
  | append_singleton l a ih =>
    rw [collectAggs_append]
    cases h : convertAggregation a with
    | none => exact ih
    | some c => exact sortedKeys_mapSet _ _ _ ih

theorem mem_mapKeys_collectAggs (f : String) (as : List Aggregation) :
    f ∈ mapKeys (collectAggs as) ↔
      ∃ a ∈ as, a.Typ ∈ ["terms", "sum", "avg"] ∧ a.Field = f := by
  induction as using List.reverseRecOn with
  | nil => simp [collectAggs, mapKeys]
  | append_singleton l a ih =>
    rw [collectAggs_append]
    have hiff := convertAggregation_isSome_iff a
    cases h : convertAggregation a with
    | none =>
      have hn : ¬ a.Typ ∈ ["terms", "sum", "avg"] := by
        intro hm
        have := hiff.2 hm
        simp [h] at this
      simp only []
      rw [ih]
      constructor
      · rintro ⟨b, hb, hb2⟩
        exact ⟨b, List.mem_append_left _ hb, hb2⟩
      · rintro ⟨b, hb, hb2⟩
        rcases List.mem_append.1 hb with hb3 | hb3
        · exact ⟨b, hb3, hb2⟩
        · have : b = a := by simpa using hb3
          subst this
          exact absurd hb2.1 hn
    | some c =>
      have hm : a.Typ ∈ ["terms", "sum", "avg"] := hiff.1 (by simp [h])
      simp only []
      rw [mem_mapKeys_mapSet, ih]
      constructor
      · rintro (h1 | ⟨b, hb, hb2⟩)
        · exact ⟨a, by simp, hm, h1.symm⟩
        · exact ⟨b, List.mem_append_left _ hb, hb2⟩
      · rintro ⟨b, hb, hb2⟩
        rcases List.mem_append.1 hb with hb3 | hb3
        · exact Or.inr ⟨b, hb3, hb2⟩
        · have : b = a := by simpa using hb3
          subst this
          exact Or.inl hb2.2.symm

theorem collectAggs_length_pos_iff (as : List Aggregation) :
    (collectAggs as).length > 0 ↔ ∃ a ∈ as, a.Typ ∈ ["terms", "sum", "avg"] := by
  constructor
  · intro h
    obtain ⟨e, rest, he⟩ := List.exists_cons_of_length_pos h
    have hk : e.1 ∈ mapKeys (collectAggs as) := by simp [he, mapKeys]
    obtain ⟨a, ha, ht, _⟩ := (mem_mapKeys_collectAggs e.1 as).1 hk
    exact ⟨a, ha, ht⟩
  · rintro ⟨a, ha, ht⟩
    have hk : a.Field ∈ mapKeys (collectAggs as) :=
      (mem_mapKeys_collectAggs a.Field as).2 ⟨a, ha, ht, rfl⟩
    cases hc : collectAggs as with
    | nil => simp [hc, mapKeys] at hk
    | cons e rest => simp

/-! ## Reading the assembled document -/

theorem mapGet_pagination (search : SimpleQuery) (doc : Fields)
    (h : buildDocument search = some doc) :
    mapGet "from" doc = some (Json.int search.Offset) ∧
      mapGet "size" doc = some (Json.int search.Limit) := by
  rw [buildDocument_eq] at h
  injection h with h
  subst h
  by_cases h2 : (collectAggs search.Aggregations).length > 0
  · simp only [h2, if_true]
    exact ⟨rfl, rfl⟩
  · simp only [h2, if_false]
    exact ⟨rfl, rfl⟩

theorem mapGet_aggs (search : SimpleQuery) (doc : Fields)
    (h : buildDocument search = some doc) :
    mapGet "aggs" doc =
      if (collectAggs search.Aggregations).length > 0
        then some (Json.obj (collectAggs search.Aggregations)) else none := by
  rw [buildDocument_eq] at h
  injection h with h
  subst h
  by_cases h2 : (collectAggs search.Aggregations).length > 0
  · simp only [h2, if_true]
    rfl
  · simp only [h2, if_false]
    rfl

theorem aggsOf_buildDocument (search : SimpleQuery) (doc : Fields)
    (h : buildDocument search = some doc) :
    aggsOf doc = collectAggs search.Aggregations := by
  unfold aggsOf
  rw [mapGet_aggs search doc h]
  by_cases h2 : (collectAggs search.Aggregations).length > 0
  · simp only [h2, if_true]
  · simp only [h2, if_false]
    have : collectAggs search.Aggregations = [] := by
      cases hc : collectAggs search.Aggregations with
      | nil => rfl
      | cons e rest => simp [hc] at h2
    rw [this]

/-! ## Range clauses among the filter clauses -/

theorem isRangeOn_range (k field : String) (v : Json) :
    isRangeOn k (Json.obj [("range", Json.obj [(field, v)])]) = decide (field = k) := by
  by_cases h : field = k
  · subst h
    simp [isRangeOn, asMap, mapGet]
  · have h2 : ¬ k = field := fun h3 => h h3.symm
    simp [isRangeOn, asMap, mapGet, h, h2]

theorem isRangeOn_convertFilter (f : Filter) (c : Fields) (h : convertFilter f = some c) :
    isRangeOn "@timestamp" (Json.obj c) =
      decide (f.Field = "@timestamp" ∧ f.Operator ∈ [">", "<", ">=", "<="]) := by
  unfold convertFilter EqualOperator NotEqualOperator GreaterThanOperator LessThanOperator
    GreaterOrEqual LessOrEqual at h
  split_ifs at h with h1 h2 h3 h4 h5 h6
  · injection h with h
    subst h
    have hr : decide (f.Field = "@timestamp" ∧ f.Operator ∈ [">", "<", ">=", "<="]) = false :=
      decide_eq_false (fun hc => absurd (h1 ▸ hc.2) (by decide))
    rw [hr]
    rfl
  · injection h with h
    subst h
    have hr : decide (f.Field = "@timestamp" ∧ f.Operator ∈ [">", "<", ">=", "<="]) = false :=
      decide_eq_false (fun hc => absurd (h2 ▸ hc.2) (by decide))
    rw [hr]
    rfl
  all_goals
    injection h with h
    subst h
    have hm : f.Operator ∈ [">", "<", ">=", "<="] := by
      first | (rw [h3]; decide) | (rw [h4]; decide) | (rw [h5]; decide) | (rw [h6]; decide)
    have hr : decide (f.Field = "@timestamp" ∧ f.Operator ∈ [">", "<", ">=", "<="]) =
        decide (f.Field = "@timestamp") := by
      simp only [hm, and_true]
    rw [hr]
    exact isRangeOn_range "@timestamp" f.Field _

theorem countP_filter_clauses (fs : List Filter) :
    ((fs.filterMap convertFilter).map Json.obj).countP (isRangeOn "@timestamp") =
      fs.countP (fun f =>
        decide (f.Field = "@timestamp" ∧ f.Operator ∈ [">", "<", ">=", "<="])) := by
  induction fs with
  | nil => simp
  | cons f rest ih =>
    cases h : convertFilter f with
    | none =>
      have hn : ¬ f.Operator ∈ ["=", "!=", ">", "<", ">=", "<="] := by
        intro hm
        have := (convertFilter_isSome_iff f).2 hm
        simp [h] at this
      have hp : decide (f.Field = "@timestamp" ∧ f.Operator ∈ [">", "<", ">=", "<="]) =
          false := by
        apply decide_eq_false
        rintro ⟨_, hm⟩
        apply hn
        simp only [List.mem_cons, List.mem_singleton, List.mem_nil_iff, or_false] at hm ⊢
        tauto
      rw [List.filterMap_cons, h, List.countP_cons, ih]
      simp only [hp, Bool.false_eq_true, if_false, Nat.add_zero]
    | some c =>
      rw [List.filterMap_cons, h]
      simp only [List.map_cons, List.countP_cons, ih, isRangeOn_convertFilter f c h]

/-! ## The returned text -/

theorem joinComma_length_pos (p : String) (ps : List String) (h : 0 < p.length) :
    0 < (joinComma (p :: ps)).length := by
  cases ps with
  | nil => simpa [joinComma] using h
  | cons p2 rest =>
    simp only [joinComma, String.length_append]
    omega

/-- The text of a map with at least one entry is not the text of the empty object. -/
theorem marshal_obj_cons_ne (e : String × Json) (rest : Fields) (text : String)
    (h : marshal (Json.obj (e :: rest)) = some text) : text ≠ "\x7b\x7d" := by
  obtain ⟨k, v⟩ := e
  simp only [marshal, marshalFields] at h
  cases h1 : marshal v with
  | none => simp [h1] at h
  | some s1 =>
    cases h2 : marshalFields rest with
    | none => simp [h1, h2] at h
    | some ss =>
      simp only [h1, h2, Option.map_some', Option.some.injEq] at h
      have hp : 0 < (quoteString k ++ ":" ++ s1).length := by
        simp only [String.length_append]
        have : (":" : String).length = 1 := rfl
        omega
      have hj := joinComma_length_pos (quoteString k ++ ":" ++ s1) ss hp
      intro hc
      rw [← h] at hc
      have hl := congrArg String.length hc
      simp only [String.length_append] at hl
      have e1 : ("\x7b" : String).length = 1 := rfl
      have e2 : ("\x7d" : String).length = 1 := rfl
      have e3 : ("\x7b\x7d" : String).length = 2 := rfl
      omega

theorem buildDocument_ne_nil (search : SimpleQuery) (doc : Fields)
    (h : buildDocument search = some doc) : ∃ e rest, doc = e :: rest := by
  rw [buildDocument_eq] at h
  injection h with h
  subst h
  by_cases h2 : (collectAggs search.Aggregations).length > 0
  · simp only [h2, if_true]
    exact ⟨_, _, rfl⟩
  · simp only [h2, if_false]
    exact ⟨_, _, rfl⟩

theorem filterMap_convertFilter_nil (fs : List Filter)
    (h : ∀ f ∈ fs, f.Operator ∉ ["=", "!=", ">", "<", ">=", "<="]) :
    fs.filterMap convertFilter = [] := by
  induction fs with
  | nil => rfl
  | cons f rest ih =>
    have hn : convertFilter f = none := by
      cases hc : convertFilter f with
      | none => rfl
      | some c =>
        exact absurd ((convertFilter_isSome_iff f).1 (by simp [hc])) (h f (by simp))
    rw [List.filterMap_cons, hn]
    exact ih (fun g hg => h g (List.mem_cons_of_mem _ hg))

/-! ## The last aggregation on a field -/

theorem mapGet_foldl_other (f : String) (l : List Aggregation) (acc : Fields)
    (h : ∀ c ∈ l, c.Field ≠ f) :
    mapGet f (l.foldl (fun aggs agg =>
      match convertAggregation agg with
      | some aggQuery => mapSet agg.Field (Json.obj aggQuery) aggs
      | none => aggs) acc) = mapGet f acc := by
  induction l generalizing acc with
  | nil => rfl
  | cons c rest ih =>
    rw [List.foldl_cons, ih _ (fun d hd => h d (List.mem_cons_of_mem _ hd))]
    cases hc : convertAggregation c with
    | none => rfl
    | some cl =>
      simp only []
      rw [mapGet_mapSet, if_neg (fun h2 => h c (by simp) h2.symm)]

theorem mapGet_collectAggs_last (as : List Aggregation) (j : Nat) (b : Aggregation)
    (f : String) (hj : as[j]? = some b) (hb : b.Field = f)
    (hlast : ∀ k c, j < k → as[k]? = some c → c.Field ≠ f)
    (hrec : b.Typ ∈ ["terms", "sum", "avg"]) :
    mapGet f (collectAggs as) = (convertAggregation b).map Json.obj := by
  obtain ⟨hlt, hget⟩ := List.getElem?_eq_some.1 hj
  have hsplit : as = as.take j ++ b :: as.drop (j + 1) := by
    rw [← hget, ← List.drop_eq_getElem_cons hlt, List.take_append_drop]
  have hrest : ∀ c ∈ as.drop (j + 1), c.Field ≠ f := by
    intro c hc
    obtain ⟨k, hk⟩ := List.mem_iff_getElem?.1 hc
    rw [List.getElem?_drop] at hk
    exact hlast (j + 1 + k) c (by omega) hk
  obtain ⟨cl, hcl⟩ := Option.isSome_iff_exists.1 ((convertAggregation_isSome_iff b).2 hrec)
  unfold collectAggs
  rw [hsplit, List.foldl_append, List.foldl_cons, mapGet_foldl_other f _ _ hrest, hcl]
  simp only [Option.map_some']
  rw [mapGet_mapSet, if_pos hb.symm]

/-! ## The cases of `to_elastic_test.go` -/

/-- The test "Query with filters": the assembled document is the expected map. -/
theorem test_query_with_filters :
    buildDocument ⟨⟨⟨1672531200, 0, 0⟩, ⟨1672617600, 0, 0⟩⟩,
        [⟨"status", "=", "active"⟩, ⟨"age", ">", "25"⟩], [], 10, 0⟩ =
      some [("from", Json.int 0),
        ("query", Json.obj [("bool", Json.obj [("must", Json.arr [
          Json.obj [("range", Json.obj [("@timestamp", Json.obj [
            ("gte", Json.str "2023-01-01T00:00:00Z"),
            ("lte", Json.str "2023-01-02T00:00:00Z")])])],
          Json.obj [("match", Json.obj [("status", Json.str "active")])],
          Json.obj [("range", Json.obj [("age", Json.obj [("gt", Json.str "25")])])]])])]),
        ("size", Json.int 10)] := by
  rfl

/-- The test "Query with aggregations": the assembled document is the expected map. -/
theorem test_query_with_aggregations :
    buildDocument ⟨⟨⟨1672531200, 0, 0⟩, ⟨1672617600, 0, 0⟩⟩, [],
        [⟨"status", "terms", 5⟩, ⟨"amount", "sum", 0⟩], 10, 0⟩ =
      some [("aggs", Json.obj [
          ("amount", Json.obj [("sum", Json.obj [("field", Json.str "amount")])]),
          ("status", Json.obj [("terms", Json.obj [("field", Json.str "status"),
            ("size", Json.int 5)])])]),
        ("from", Json.int 0),
        ("query", Json.obj [("bool", Json.obj [("must", Json.arr [
          Json.obj [("range", Json.obj [("@timestamp", Json.obj [
            ("gte", Json.str "2023-01-01T00:00:00Z"),
            ("lte", Json.str "2023-01-02T00:00:00Z")])])]])])]),
        ("size", Json.int 10)] := by
  rfl

/-! ## The claims -/

/-- C1: the `must` slice of the document that `ToElastic` emits is the date range clause
followed by exactly the clauses `convertFilter` gives for the filters whose operator is one
of `=`, `!=`, `>`, `<`, `>=`, `<=`, in the order of `Filters`; filters with any other
operator leave nothing behind. -/
theorem must_is_date_range_then_filter_clauses (q : SimpleQuery) :
    ∃ doc must, Emits q doc ∧ mustOf doc = some must ∧
      must.head? = some (dateRangeClause q.DateRange) ∧
      must.tail.map some =
        (q.Filters.filter
          (fun f => decide (f.Operator ∈ ["=", "!=", ">", "<", ">=", "<="]))).map
          (fun f => (convertFilter f).map Json.obj) := by
  obtain ⟨doc, hE⟩ := emits_buildDocument q
  refine ⟨doc, _, hE, mustOf_buildDocument q doc hE.1, rfl, ?_⟩
  exact filterMap_convertFilter q.Filters

/-- C2: the first element of `must` is the range clause on `@timestamp` whose `gte` is
`DateRange.From` and whose `lte` is `DateRange.To`, each formatted with the RFC 3339
layout, in that order; nothing is assumed about which of the two is later. -/
theorem must_head_is_date_range (q : SimpleQuery) :
    ∃ doc must, Emits q doc ∧ mustOf doc = some must ∧
      must.head? = some (Json.obj [("range", Json.obj [("@timestamp", Json.obj [
        ("gte", Json.str (formatRFC3339 q.DateRange.From)),
        ("lte", Json.str (formatRFC3339 q.DateRange.To))])])]) := by
  obtain ⟨doc, hE⟩ := emits_buildDocument q
  exact ⟨doc, _, hE, mustOf_buildDocument q doc hE.1, rfl⟩

/-- C4: the top-level `from` of the emitted document is `Offset` and the top-level `size` is
`Limit`, both present for every query and unchanged, whatever their sign. -/
theorem pagination_passed_through (q : SimpleQuery) :
    ∃ doc, Emits q doc ∧ mapGet "from" doc = some (Json.int q.Offset) ∧
      mapGet "size" doc = some (Json.int q.Limit) := by
  obtain ⟨doc, hE⟩ := emits_buildDocument q
  exact ⟨doc, hE, mapGet_pagination q doc hE.1⟩

/-- C5: the emitted document has the key `aggs` exactly when some aggregation has type
`terms`, `sum` or `avg`; a present `aggs` is a map with at least one entry. -/
theorem aggs_present_iff_recognized (q : SimpleQuery) :
    ∃ doc, Emits q doc ∧
      ((mapGet "aggs" doc).isSome = true ↔
        ∃ a ∈ q.Aggregations, a.Typ ∈ ["terms", "sum", "avg"]) ∧
      ((¬ ∃ a ∈ q.Aggregations, a.Typ ∈ ["terms", "sum", "avg"]) →
        "aggs" ∉ mapKeys doc) ∧
      (∀ v, mapGet "aggs" doc = some v → ∃ e rest, v = Json.obj (e :: rest)) := by
  obtain ⟨doc, hE⟩ := emits_buildDocument q
  have hg := mapGet_aggs q doc hE.1
  have hiff := collectAggs_length_pos_iff q.Aggregations
  refine ⟨doc, hE, ?_, ?_, ?_⟩
  · rw [hg, ← hiff]
    by_cases h2 : (collectAggs q.Aggregations).length > 0 <;> simp [h2]
  · intro hn hk
    have h2 : ¬ (collectAggs q.Aggregations).length > 0 := fun h3 => hn (hiff.1 h3)
    have h4 := (mapGet_isSome_iff "aggs" doc).2 hk
    rw [hg, if_neg h2] at h4
    simp at h4
  · intro v hv
    rw [hg] at hv
    by_cases h2 : (collectAggs q.Aggregations).length > 0
    · rw [if_pos h2] at hv
      injection hv with hv
      obtain ⟨e, rest, he⟩ := List.exists_cons_of_length_pos h2
      exact ⟨e, rest, by rw [← hv, he]⟩
    · rw [if_neg h2] at hv
      exact absurd hv (by simp)

/-- C8: the mapping table of `convertFilter`, with the keys of every map written out: a match
clause for `=`, the same match clause under `bool.must_not` for `!=`, a range clause with
the bound `gt`, `lt`, `gte`, `lte` for `>`, `<`, `>=`, `<=`; a clause is produced exactly
for these six operator strings. -/
theorem convertFilter_table (f v : String) :
    convertFilter ⟨f, "=", v⟩ = some [("match", Json.obj [(f, Json.str v)])] ∧
    convertFilter ⟨f, "!=", v⟩ =
      some [("bool", Json.obj [("must_not", Json.obj [("match", Json.obj [(f, Json.str v)])])])] ∧
    convertFilter ⟨f, "!=", v⟩ = (convertFilter ⟨f, "=", v⟩).map
      (fun m => [("bool", Json.obj [("must_not", Json.obj m)])]) ∧
    convertFilter ⟨f, ">", v⟩ = some [("range", Json.obj [(f, Json.obj [("gt", Json.str v)])])] ∧
    convertFilter ⟨f, "<", v⟩ = some [("range", Json.obj [(f, Json.obj [("lt", Json.str v)])])] ∧
    convertFilter ⟨f, ">=", v⟩ =
      some [("range", Json.obj [(f, Json.obj [("gte", Json.str v)])])] ∧
    convertFilter ⟨f, "<=", v⟩ =
      some [("range", Json.obj [(f, Json.obj [("lte", Json.str v)])])] ∧
    ∀ op : String, (convertFilter ⟨f, op, v⟩).isSome = true ↔
      op ∈ ["=", "!=", ">", "<", ">=", "<="] :=
  ⟨rfl, rfl, rfl, rfl, rfl, rfl, rfl, fun op => convertFilter_isSome_iff ⟨f, op, v⟩⟩

/-- C10: the mapping table of `convertAggregation`: `terms` gives the bucket clause with
`field` and the size as it is (zero and negative sizes too), `sum` and `avg` give the metric
clause with `field` only and no `size` key; a clause is produced exactly for these three
type strings. -/
theorem convertAggregation_table (f : String) (n : Int) :
    convertAggregation ⟨f, "terms", n⟩ =
      some [("terms", Json.obj [("field", Json.str f), ("size", Json.int n)])] ∧
    convertAggregation ⟨f, "sum", n⟩ = some [("sum", Json.obj [("field", Json.str f)])] ∧
    convertAggregation ⟨f, "avg", n⟩ = some [("avg", Json.obj [("field", Json.str f)])] ∧
    (∀ inner, convertAggregation ⟨f, "sum", n⟩ = some [("sum", Json.obj inner)] →
      mapGet "size" inner = none) ∧
    (∀ inner, convertAggregation ⟨f, "avg", n⟩ = some [("avg", Json.obj inner)] →
      mapGet "size" inner = none) ∧
    ∀ t : String, (convertAggregation ⟨f, t, n⟩).isSome = true ↔
      t ∈ ["terms", "sum", "avg"] := by
  have hs : convertAggregation ⟨f, "sum", n⟩ = some [("sum", Json.obj [("field", Json.str f)])] :=
    rfl
  have ha : convertAggregation ⟨f, "avg", n⟩ = some [("avg", Json.obj [("field", Json.str f)])] :=
    rfl
  refine ⟨rfl, hs, ha, ?_, ?_, fun t => convertAggregation_isSome_iff ⟨f, t, n⟩⟩
  · intro inner h
    rw [hs] at h
    simp only [Option.some.injEq, List.cons.injEq, Prod.mk.injEq, Json.obj.injEq, and_true,
      true_and] at h
    rw [← h]
    rfl
  · intro inner h
    rw [ha] at h
    simp only [Option.some.injEq, List.cons.injEq, Prod.mk.injEq, Json.obj.injEq, and_true,
      true_and] at h
    rw [← h]
    rfl

/-- C3 (amended): the first element of `must` is a range clause on `@timestamp`, and the
number of range clauses on `@timestamp` in `must` is one plus the number of filters whose
field is `@timestamp` and whose operator is `>`, `<`, `>=` or `<=`; it is exactly one when
the query has no such filter. -/
theorem timestamp_range_clause_count (q : SimpleQuery) :
    ∃ doc must, Emits q doc ∧ mustOf doc = some must ∧
      must.head?.map (isRangeOn "@timestamp") = some true ∧
      must.countP (isRangeOn "@timestamp") =
        1 + q.Filters.countP (fun f =>
          decide (f.Field = "@timestamp" ∧ f.Operator ∈ [">", "<", ">=", "<="])) := by
  obtain ⟨doc, hE⟩ := emits_buildDocument q
  refine ⟨doc, _, hE, mustOf_buildDocument q doc hE.1, rfl, ?_⟩
  rw [List.countP_cons, countP_filter_clauses]
  have : isRangeOn "@timestamp" (dateRangeClause q.DateRange) = true := rfl
  simp only [this, if_true]
  omega

/-- C3 (as stated) fails: with the one filter `@timestamp > 2024-01-01T00:00:00Z` the slice
`must` holds two range clauses on `@timestamp`. -/
theorem timestamp_filter_adds_range_clause :
    ((buildDocument ⟨⟨⟨0, 0, 0⟩, ⟨0, 0, 0⟩⟩,
        [⟨"@timestamp", ">", "2024-01-01T00:00:00Z"⟩], [], 10, 0⟩).bind mustOf).map
      (List.countP (isRangeOn "@timestamp")) = some 2 := by
  decide

/-- C9 (amended): when every filter has an operator outside `=`, `!=`, `>`, `<`, `>=`, `<=`,
`ToElastic` returns what it returns for the same query without filters, the text is that of
a document and not of the empty object, `must` holds the date range clause alone, and the
keys inside `must` are the four keys of that clause, so that an unsupported operator string
other than `range`, `@timestamp`, `gte` and `lte` is no key inside `must`. -/
theorem unsupported_filters_dropped (q : SimpleQuery)
    (h : ∀ f ∈ q.Filters, f.Operator ∉ ["=", "!=", ">", "<", ">=", "<="]) :
    ToElastic q = ToElastic { q with Filters := [] } ∧
    ∃ doc text must, buildDocument q = some doc ∧ marshal (Json.obj doc) = some text ∧
      ToElastic q = some text ∧ text ≠ "\x7b\x7d" ∧
      mustOf doc = some must ∧ must = [dateRangeClause q.DateRange] ∧
      elemsKeys must = ["range", "@timestamp", "gte", "lte"] ∧
      ∀ f ∈ q.Filters, f.Operator ∉ ["range", "@timestamp", "gte", "lte"] →
        f.Operator ∉ elemsKeys must := by
  have hnil := filterMap_convertFilter_nil q.Filters h
  have hdoc : buildDocument q = buildDocument { q with Filters := [] } := by
    rw [buildDocument_eq, buildDocument_eq, hnil]
    rfl
  refine ⟨?_, ?_⟩
  · unfold ToElastic
    rw [hdoc]
  · obtain ⟨doc, hE, text, ht, hT⟩ := emits_buildDocument q
    obtain ⟨e, rest, he⟩ := buildDocument_ne_nil q doc hE
    have hkeys : elemsKeys [dateRangeClause q.DateRange] =
        ["range", "@timestamp", "gte", "lte"] := rfl
    refine ⟨doc, text, [dateRangeClause q.DateRange], hE, ht, hT, ?_, ?_, rfl, hkeys, ?_⟩
    · rw [he] at ht
      exact marshal_obj_cons_ne e rest text ht
    · rw [mustOf_buildDocument q doc hE, hnil]
      rfl
    · intro f _ hf
      rw [hkeys]
      exact hf

/-- C9 (as stated) fails: the filter `age gte 5` has an operator outside the six, it is
dropped, and yet its operator string `gte` is a key inside `must`, the lower bound of the
date range clause. -/
theorem unsupported_operator_gte_is_a_key :
    convertFilter ⟨"age", "gte", "5"⟩ = none ∧
    "gte" ∉ ["=", "!=", ">", "<", ">=", "<="] ∧
    ((buildDocument ⟨⟨⟨0, 0, 0⟩, ⟨0, 0, 0⟩⟩, [⟨"age", "gte", "5"⟩], [], 10, 0⟩).bind
      mustOf).map (fun must => decide ("gte" ∈ elemsKeys must)) = some true := by
  refine ⟨rfl, by decide, by decide⟩

/-- The amended C9 at the query of scenario 4, one filter with the operator `~=`. -/
theorem unsupported_filters_dropped_witness :
    (∀ f ∈ [(⟨"status", "~=", "active"⟩ : Filter)],
      f.Operator ∉ ["=", "!=", ">", "<", ">=", "<="]) ∧
    ToElastic ⟨⟨⟨1672531200, 0, 0⟩, ⟨1672617600, 0, 0⟩⟩, [⟨"status", "~=", "active"⟩], [],
        10, 0⟩ =
      ToElastic ⟨⟨⟨1672531200, 0, 0⟩, ⟨1672617600, 0, 0⟩⟩, [], [], 10, 0⟩ :=
  ⟨by decide,
   (unsupported_filters_dropped
      ⟨⟨⟨1672531200, 0, 0⟩, ⟨1672617600, 0, 0⟩⟩, [⟨"status", "~=", "active"⟩], [], 10, 0⟩
      (by decide)).1⟩

/-- C6: when some aggregation has type `terms`, `sum` or `avg`, the emitted document has
the map `aggs`; its keys are the field names of the aggregations with such a type, each
once, and under a field name it holds the clause of `convertAggregation` for the last
aggregation with such a type and that field. -/
theorem aggs_keys_and_clauses (q : SimpleQuery)
    (h : ∃ a ∈ q.Aggregations, a.Typ ∈ ["terms", "sum", "avg"]) :
    ∃ doc m, Emits q doc ∧ mapGet "aggs" doc = some (Json.obj m) ∧
      (∀ f, f ∈ mapKeys m ↔
        ∃ a ∈ q.Aggregations, a.Typ ∈ ["terms", "sum", "avg"] ∧ a.Field = f) ∧
      (mapKeys m).Nodup ∧
      ∀ f, mapGet f m =
        ((q.Aggregations.filter
          (fun a => decide (a.Typ ∈ ["terms", "sum", "avg"] ∧ a.Field = f))).getLast?).bind
          (fun a => (convertAggregation a).map Json.obj) := by
  obtain ⟨doc, hE⟩ := emits_buildDocument q
  have hpos := (collectAggs_length_pos_iff q.Aggregations).2 h
  refine ⟨doc, collectAggs q.Aggregations, hE, ?_, ?_, ?_, ?_⟩
  · rw [mapGet_aggs q doc hE.1, if_pos hpos]
  · exact fun f => mem_mapKeys_collectAggs f q.Aggregations
  · exact sortedKeys_nodup _ (sortedKeys_collectAggs q.Aggregations)
  · exact fun f => mapGet_collectAggs f q.Aggregations

/-- C6 at the query of scenario 5, `sum` then `avg` on `amount`: `aggs` has the one key
`amount`, with the `avg` clause. -/
theorem aggs_keys_and_clauses_witness :
    (∃ a ∈ [(⟨"amount", "sum", 0⟩ : Aggregation), ⟨"amount", "avg", 0⟩],
      a.Typ ∈ ["terms", "sum", "avg"]) ∧
    ∃ doc m, Emits ⟨⟨⟨1672531200, 0, 0⟩, ⟨1672617600, 0, 0⟩⟩, [],
        [⟨"amount", "sum", 0⟩, ⟨"amount", "avg", 0⟩], 10, 0⟩ doc ∧
      mapGet "aggs" doc = some (Json.obj m) ∧ (mapKeys m).Nodup ∧
      mapGet "amount" m = some (Json.obj [("avg", Json.obj [("field", Json.str "amount")])]) := by
  have hyp : ∃ a ∈ [(⟨"amount", "sum", 0⟩ : Aggregation), ⟨"amount", "avg", 0⟩],
      a.Typ ∈ ["terms", "sum", "avg"] := ⟨⟨"amount", "sum", 0⟩, by simp, by decide⟩
  obtain ⟨doc, m, hE, hg, _, hnd, hval⟩ := aggs_keys_and_clauses
    ⟨⟨⟨1672531200, 0, 0⟩, ⟨1672617600, 0, 0⟩⟩, [],
      [⟨"amount", "sum", 0⟩, ⟨"amount", "avg", 0⟩], 10, 0⟩ hyp
  refine ⟨hyp, doc, m, hE, hg, hnd, ?_⟩
  rw [hval "amount"]
  rfl

/-- C7 (amended): for two aggregations at positions `i < j` with the same field `f`, where
`j` is the last position with field `f` and the aggregation at `j` has type `terms`, `sum`
or `avg`, the map `aggs` holds under `f` the clause of the aggregation at `j`; so it does
not hold the clause of the aggregation at `i`, unless the two clauses are the same. -/
theorem later_recognized_aggregation_wins (q : SimpleQuery) (i j : Nat) (a b : Aggregation)
    (f : String) (_hij : i < j) (_hi : q.Aggregations[i]? = some a)
    (hj : q.Aggregations[j]? = some b) (_ha : a.Field = f) (hb : b.Field = f)
    (hlast : ∀ k c, j < k → q.Aggregations[k]? = some c → c.Field ≠ f)
    (hrec : b.Typ ∈ ["terms", "sum", "avg"]) :
    ∃ doc, Emits q doc ∧
      (convertAggregation b).isSome = true ∧
      mapGet f (aggsOf doc) = (convertAggregation b).map Json.obj ∧
      (convertAggregation a ≠ convertAggregation b →
        mapGet f (aggsOf doc) ≠ (convertAggregation a).map Json.obj) := by
  obtain ⟨doc, hE⟩ := emits_buildDocument q
  have hval : mapGet f (aggsOf doc) = (convertAggregation b).map Json.obj := by
    rw [aggsOf_buildDocument q doc hE.1]
    exact mapGet_collectAggs_last q.Aggregations j b f hj hb hlast hrec
  refine ⟨doc, hE, (convertAggregation_isSome_iff b).2 hrec, hval, ?_⟩
  intro hne hc
  rw [hval] at hc
  apply hne
  cases h1 : convertAggregation a with
  | none =>
    cases h2 : convertAggregation b with
    | none => rfl
    | some cb => simp [h1, h2] at hc
  | some ca =>
    cases h2 : convertAggregation b with
    | none => simp [h1, h2] at hc
    | some cb =>
      simp only [h1, h2, Option.map_some', Option.some.injEq, Json.obj.injEq] at hc
      rw [hc]

/-- C7 (as stated) fails: with `sum` on `amount` at position 0 and the unrecognized type
`max` on `amount` at position 1, the last position with that field, `aggs` still holds the
clause of position 0 under `amount`. -/
theorem later_unrecognized_aggregation_overwrites_nothing :
    convertAggregation ⟨"amount", "max", 0⟩ = none ∧
    (buildDocument ⟨⟨⟨0, 0, 0⟩, ⟨0, 0, 0⟩⟩, [],
        [⟨"amount", "sum", 0⟩, ⟨"amount", "max", 0⟩], 10, 0⟩).map
      (fun doc => mapGet "amount" (aggsOf doc)) =
        some ((convertAggregation ⟨"amount", "sum", 0⟩).map Json.obj) ∧
    (convertAggregation ⟨"amount", "sum", 0⟩).isSome = true :=
  ⟨rfl, rfl, rfl⟩

/-- The amended C7 at the query of scenario 5: `avg` at position 1 replaces `sum` at
position 0 under `amount`. -/
theorem later_recognized_aggregation_wins_witness :
    ∃ doc, Emits ⟨⟨⟨0, 0, 0⟩, ⟨0, 0, 0⟩⟩, [],
        [⟨"amount", "sum", 0⟩, ⟨"amount", "avg", 0⟩], 10, 0⟩ doc ∧
      mapGet "amount" (aggsOf doc) =
        some (Json.obj [("avg", Json.obj [("field", Json.str "amount")])]) := by
  obtain ⟨doc, hE, _, hval, _⟩ := later_recognized_aggregation_wins
    ⟨⟨⟨0, 0, 0⟩, ⟨0, 0, 0⟩⟩, [], [⟨"amount", "sum", 0⟩, ⟨"amount", "avg", 0⟩], 10, 0⟩
    0 1 ⟨"amount", "sum", 0⟩ ⟨"amount", "avg", 0⟩ "amount" (by decide) rfl rfl rfl rfl
    (by
      intro k c hk hc
      have h2 : ([(⟨"amount", "sum", 0⟩ : Aggregation), ⟨"amount", "avg", 0⟩])[k]? = none :=
        List.getElem?_eq_none (by simp; omega)
      rw [h2] at hc
      exact absurd hc (by simp))
    (by decide)
  exact ⟨doc, hE, hval⟩

/-! ## Pagination keys, empty queries, nanoseconds -/

theorem mapGet_query_isSome (search : SimpleQuery) (doc : Fields)
    (h : buildDocument search = some doc) : (mapGet "query" doc).isSome = true := by
  rw [buildDocument_eq] at h
  injection h with h
  subst h
  by_cases h2 : (collectAggs search.Aggregations).length > 0
  · simp only [h2, if_true]
    rfl
  · simp only [h2, if_false]
    rfl

/-- C11: for every query `json.Marshal` accepts the assembled document, so `ToElastic`
returns its JSON text and never the text of the empty object; the document always has the
keys `query`, `from` and `size`. -/
theorem serialization_never_fails (q : SimpleQuery) :
    ∃ doc text, buildDocument q = some doc ∧ marshalable (Json.obj doc) = true ∧
      marshal (Json.obj doc) = some text ∧ ToElastic q = some text ∧
      text ≠ "\x7b\x7d" ∧
      (mapGet "query" doc).isSome = true ∧ (mapGet "from" doc).isSome = true ∧
      (mapGet "size" doc).isSome = true := by
  obtain ⟨doc, hE, text, ht, hT⟩ := emits_buildDocument q
  obtain ⟨e, rest, he⟩ := buildDocument_ne_nil q doc hE
  have hp := mapGet_pagination q doc hE
  refine ⟨doc, text, hE, marshalable_buildDocument q doc hE, ht, hT, ?_,
    mapGet_query_isSome q doc hE, ?_, ?_⟩
  · rw [he] at ht
    exact marshal_obj_cons_ne e rest text ht
  · rw [hp.1]
    rfl
  · rw [hp.2]
    rfl

/-- C12: with no filters and no aggregations the emitted document has exactly the keys
`from`, `query` and `size` and no `aggs`; `query` is `bool.must` with the date range clause
as its only element, `from` is `Offset` and `size` is `Limit`. -/
theorem empty_query_document (q : SimpleQuery) (hf : q.Filters = [])
    (ha : q.Aggregations = []) :
    ∃ doc, Emits q doc ∧
      doc = [("from", Json.int q.Offset),
        ("query", Json.obj [("bool", Json.obj [("must", Json.arr [
          Json.obj [("range", Json.obj [("@timestamp", Json.obj [
            ("gte", Json.str (formatRFC3339 q.DateRange.From)),
            ("lte", Json.str (formatRFC3339 q.DateRange.To))])])]])])]),
        ("size", Json.int q.Limit)] ∧
      mapKeys doc = ["from", "query", "size"] ∧ "aggs" ∉ mapKeys doc ∧
      (mustOf doc).map List.length = some 1 := by
  obtain ⟨doc, hE⟩ := emits_buildDocument q
  have hdoc := hE.1
  rw [buildDocument_eq, hf, ha] at hdoc
  have hd : doc = [("from", Json.int q.Offset),
        ("query", Json.obj [("bool", Json.obj [("must", Json.arr [
          Json.obj [("range", Json.obj [("@timestamp", Json.obj [
            ("gte", Json.str (formatRFC3339 q.DateRange.From)),
            ("lte", Json.str (formatRFC3339 q.DateRange.To))])])]])])]),
        ("size", Json.int q.Limit)] := by
    injection hdoc with hdoc
    rw [← hdoc]
    rfl
  have hk : mapKeys doc = ["from", "query", "size"] := by
    rw [hd]
    rfl
  refine ⟨doc, hE, hd, hk, ?_, ?_⟩
  · rw [hk]
    decide
  · rw [hd]
    rfl

/-- C12 at the query of scenario 1: date range only, limit 10, offset 0. -/
theorem empty_query_document_witness :
    ∃ doc, Emits ⟨⟨⟨1672531200, 0, 0⟩, ⟨1672617600, 0, 0⟩⟩, [], [], 10, 0⟩ doc ∧
      mapKeys doc = ["from", "query", "size"] ∧
      mapGet "from" doc = some (Json.int 0) ∧ mapGet "size" doc = some (Json.int 10) := by
  obtain ⟨doc, hE, hd, hk, _, _⟩ :=
    empty_query_document ⟨⟨⟨1672531200, 0, 0⟩, ⟨1672617600, 0, 0⟩⟩, [], [], 10, 0⟩ rfl rfl
  refine ⟨doc, hE, hk, ?_, ?_⟩
  · rw [hd]
    rfl
  · rw [hd]
    rfl

/-- C18: the nanoseconds of `From` and `To` do not enter the output: the formatted
timestamp is that of the whole second the instant lies in (the fraction is cut off, never
rounded up), and a query with other nanoseconds gives the same text. -/
theorem nanoseconds_ignored (q : SimpleQuery) (n1 n2 : Nat) :
    formatRFC3339 { q.DateRange.From with nsec := n1 } =
      formatRFC3339 { q.DateRange.From with nsec := 0 } ∧
    formatRFC3339 { q.DateRange.To with nsec := n2 } =
      formatRFC3339 { q.DateRange.To with nsec := 0 } ∧
    buildDocument { q with DateRange :=
      ⟨{ q.DateRange.From with nsec := n1 }, { q.DateRange.To with nsec := n2 }⟩ } =
      buildDocument q ∧
    ToElastic { q with DateRange :=
      ⟨{ q.DateRange.From with nsec := n1 }, { q.DateRange.To with nsec := n2 }⟩ } =
      ToElastic q := by
  have hd : buildDocument { q with DateRange :=
      ⟨{ q.DateRange.From with nsec := n1 }, { q.DateRange.To with nsec := n2 }⟩ } =
      buildDocument q := by
    rw [buildDocument_eq, buildDocument_eq]
    rfl
  refine ⟨rfl, rfl, hd, ?_⟩
  unfold ToElastic
  rw [hd]

/-! ## Aggregations: sizes of metric aggregations, order of distinct fields -/

theorem collectAggs_congr (as bs : List Aggregation) (acc : Fields)
    (h : List.Forall₂ (fun a b => a.Field = b.Field ∧
      convertAggregation a = convertAggregation b) as bs) :
    as.foldl (fun aggs agg =>
      match convertAggregation agg with
      | some aggQuery => mapSet agg.Field (Json.obj aggQuery) aggs
      | none => aggs) acc =
    bs.foldl (fun aggs agg =>
      match convertAggregation agg with
      | some aggQuery => mapSet agg.Field (Json.obj aggQuery) aggs
      | none => aggs) acc := by
  induction h generalizing acc with
  | nil => rfl
  | cons hab _ ih =>
    rw [List.foldl_cons, List.foldl_cons, hab.1, hab.2]
    exact ih _

theorem convertAggregation_metric_size (a b : Aggregation) (hf : a.Field = b.Field)
    (ht : a.Typ = b.Typ) (hs : a.Size = b.Size ∨ a.Typ = "sum" ∨ a.Typ = "avg") :
    convertAggregation a = convertAggregation b := by
  obtain ⟨fa, ta, sa⟩ := a
  obtain ⟨fb, tb, sb⟩ := b
  simp only at hf ht hs
  subst hf
  subst ht
  rcases hs with hs | hs | hs
  · rw [hs]
  · subst hs
    rfl
  · subst hs
    rfl

/-- C15: two queries that agree in everything but the `Size` of aggregations of type `sum`
or `avg` give the same assembled document and the same returned text. -/
theorem metric_size_ignored (q : SimpleQuery) (as : List Aggregation)
    (h : List.Forall₂ (fun a b => a.Field = b.Field ∧ a.Typ = b.Typ ∧
      (a.Size = b.Size ∨ a.Typ = "sum" ∨ a.Typ = "avg")) q.Aggregations as) :
    buildDocument { q with Aggregations := as } = buildDocument q ∧
      ToElastic { q with Aggregations := as } = ToElastic q := by
  have hc : collectAggs as = collectAggs q.Aggregations := by
    unfold collectAggs
    symm
    apply collectAggs_congr
    exact h.imp (fun a b hab =>
      ⟨hab.1, convertAggregation_metric_size a b hab.1 hab.2.1 hab.2.2⟩)
  have hd : buildDocument { q with Aggregations := as } = buildDocument q := by
    rw [buildDocument_eq, buildDocument_eq]
    simp only [hc]
  refine ⟨hd, ?_⟩
  unfold ToElastic
  rw [hd]

/-- C15 for a `sum` aggregation on `amount`, with size 0 in one query and 7 in the other. -/
theorem metric_size_ignored_witness :
    ToElastic ⟨⟨⟨0, 0, 0⟩, ⟨0, 0, 0⟩⟩, [], [⟨"amount", "sum", 7⟩], 10, 0⟩ =
      ToElastic ⟨⟨⟨0, 0, 0⟩, ⟨0, 0, 0⟩⟩, [], [⟨"amount", "sum", 0⟩], 10, 0⟩ :=
  (metric_size_ignored ⟨⟨⟨0, 0, 0⟩, ⟨0, 0, 0⟩⟩, [], [⟨"amount", "sum", 0⟩], 10, 0⟩
    [⟨"amount", "sum", 7⟩]
    (List.Forall₂.cons ⟨rfl, rfl, Or.inr (Or.inl rfl)⟩ List.Forall₂.nil)).2

theorem mapGet_eq_none_of_not_mem (k : String) (m : Fields) (h : k ∉ mapKeys m) :
    mapGet k m = none := by
  cases hg : mapGet k m with
  | none => rfl
  | some v => exact absurd ((mapGet_isSome_iff k m).1 (by simp [hg])) h

/-- Two maps in canonical form that hold the same value under every key are equal. -/
theorem sortedKeys_ext (m1 m2 : Fields) (h1 : SortedKeys m1) (h2 : SortedKeys m2)
    (h : ∀ k, mapGet k m1 = mapGet k m2) : m1 = m2 := by
  induction m1 generalizing m2 with
  | nil =>
    cases m2 with
    | nil => rfl
    | cons e r =>
      have := h e.1
      simp [mapGet] at this
  | cons e1 r1 ih =>
    obtain ⟨k1, v1⟩ := e1
    have hs1 : (∀ a ∈ mapKeys r1, k1 < a) ∧ SortedKeys r1 := by
      simpa [SortedKeys, mapKeys] using h1
    cases m2 with
    | nil =>
      have := h k1
      simp [mapGet] at this
    | cons e2 r2 =>
      obtain ⟨k2, v2⟩ := e2
      have hs2 : (∀ a ∈ mapKeys r2, k2 < a) ∧ SortedKeys r2 := by
        simpa [SortedKeys, mapKeys] using h2
      have hn1 : ∀ x, x ≤ k1 → mapGet x r1 = none := fun x hx =>
        mapGet_eq_none_of_not_mem x r1 (fun hm => absurd (hs1.1 x hm) (not_lt.2 hx))
      have hn2 : ∀ x, x ≤ k2 → mapGet x r2 = none := fun x hx =>
        mapGet_eq_none_of_not_mem x r2 (fun hm => absurd (hs2.1 x hm) (not_lt.2 hx))
      have hk : k1 = k2 := by
        rcases lt_trichotomy k1 k2 with hlt | heq | hgt
        · have := h k1
          rw [mapGet, if_pos rfl, mapGet, if_neg (ne_of_lt hlt), hn2 k1 (le_of_lt hlt)] at this
          exact absurd this (by simp)
        · exact heq
        · have := h k2
          rw [mapGet, if_neg (ne_of_lt hgt), hn1 k2 (le_of_lt hgt), mapGet, if_pos rfl] at this
          exact absurd this (by simp)
      subst hk
      have hv : v1 = v2 := by
        have := h k1
        simpa [mapGet] using this
      subst hv
      have hr : r1 = r2 := by
        apply ih r2 hs1.2 hs2.2
        intro x
        by_cases hx : x = k1
        · rw [hx, hn1 k1 le_rfl, hn2 k1 le_rfl]
        · have := h x
          simpa [mapGet, hx] using this
      rw [hr]

theorem mapGet_collectAggs_nodup (f : String) (v : Json) (as : List Aggregation)
    (hnd : (as.map Aggregation.Field).Nodup) :
    mapGet f (collectAggs as) = some v ↔
      ∃ a ∈ as, a.Field = f ∧ (convertAggregation a).map Json.obj = some v := by
  induction as using List.reverseRecOn with
  | nil => simp [collectAggs, mapGet]
  | append_singleton l a ih =>
    have hnd2 : (l.map Aggregation.Field).Nodup ∧ a.Field ∉ l.map Aggregation.Field := by
      rw [List.map_append, List.nodup_append] at hnd
      refine ⟨hnd.1, fun hm => hnd.2.2 hm (by simp)⟩
    have ih2 := ih hnd2.1
    have hnot : ∀ b ∈ l, b.Field ≠ a.Field := fun b hb hbf =>
      hnd2.2 (List.mem_map.2 ⟨b, hb, hbf⟩)
    rw [collectAggs_append]
    constructor
    · intro hg
      cases hc : convertAggregation a with
      | none =>
        rw [hc] at hg
        obtain ⟨b, hb, hb2⟩ := ih2.1 hg
        exact ⟨b, List.mem_append_left _ hb, hb2⟩
      | some c =>
        rw [hc] at hg
        simp only [] at hg
        rw [mapGet_mapSet] at hg
        by_cases hf : f = a.Field
        · rw [if_pos hf] at hg
          exact ⟨a, by simp, hf.symm, by rw [hc]; exact hg⟩
        · rw [if_neg hf] at hg
          obtain ⟨b, hb, hb2⟩ := ih2.1 hg
          exact ⟨b, List.mem_append_left _ hb, hb2⟩
    · rintro ⟨b, hb, hbf, hbv⟩
      rcases List.mem_append.1 hb with hb3 | hb3
      · have hfa : f ≠ a.Field := fun h2 => hnot b hb3 (hbf.trans h2)
        have hg := ih2.2 ⟨b, hb3, hbf, hbv⟩
        cases hc : convertAggregation a with
        | none => exact hg
        | some c =>
          simp only []
          rw [mapGet_mapSet, if_neg hfa]
          exact hg
      · have hba : b = a := by simpa using hb3
        subst hba
        cases hc : convertAggregation b with
        | none => simp [hc] at hbv
        | some c =>
          simp only []
          rw [mapGet_mapSet, if_pos hbf.symm]
          rw [hc] at hbv
          exact hbv

theorem collectAggs_perm (as bs : List Aggregation) (hp : bs.Perm as)
    (hnd : (as.map Aggregation.Field).Nodup) : collectAggs bs = collectAggs as := by
  have hnd2 : (bs.map Aggregation.Field).Nodup := (hp.map _).nodup_iff.2 hnd
  apply sortedKeys_ext _ _ (sortedKeys_collectAggs bs) (sortedKeys_collectAggs as)
  intro k
  apply Option.ext
  intro v
  rw [Option.mem_def, Option.mem_def, mapGet_collectAggs_nodup k v bs hnd2,
    mapGet_collectAggs_nodup k v as hnd]
  constructor
  · rintro ⟨a, ha, h2⟩
    exact ⟨a, hp.mem_iff.1 ha, h2⟩
  · rintro ⟨a, ha, h2⟩
    exact ⟨a, hp.mem_iff.2 ha, h2⟩

/-- C19: when the aggregations have pairwise distinct field names, a query with the same
aggregations in another order gives the same assembled document and the same returned
text; the order of the filters does show: the two orders of the filters `a = 1` and `b = 2`
give different texts. -/
theorem aggregation_order_irrelevant (q : SimpleQuery) (as : List Aggregation)
    (hp : as.Perm q.Aggregations)
    (hnd : (q.Aggregations.map Aggregation.Field).Nodup) :
    buildDocument { q with Aggregations := as } = buildDocument q ∧
      ToElastic { q with Aggregations := as } = ToElastic q ∧
      ToElastic ⟨⟨⟨0, 0, 0⟩, ⟨0, 0, 0⟩⟩, [⟨"a", "=", "1"⟩, ⟨"b", "=", "2"⟩], [], 10, 0⟩ ≠
        ToElastic ⟨⟨⟨0, 0, 0⟩, ⟨0, 0, 0⟩⟩, [⟨"b", "=", "2"⟩, ⟨"a", "=", "1"⟩], [], 10, 0⟩ := by
  have hc := collectAggs_perm q.Aggregations as hp hnd
  have hd : buildDocument { q with Aggregations := as } = buildDocument q := by
    rw [buildDocument_eq, buildDocument_eq]
    simp only [hc]
  refine ⟨hd, ?_, by decide⟩
  unfold ToElastic
  rw [hd]

/-- C19 at the query of scenario 3 with its two aggregations swapped. -/
theorem aggregation_order_irrelevant_witness :
    ToElastic ⟨⟨⟨0, 0, 0⟩, ⟨0, 0, 0⟩⟩, [],
        [⟨"amount", "sum", 0⟩, ⟨"status", "terms", 5⟩], 10, 0⟩ =
      ToElastic ⟨⟨⟨0, 0, 0⟩, ⟨0, 0, 0⟩⟩, [],
        [⟨"status", "terms", 5⟩, ⟨"amount", "sum", 0⟩], 10, 0⟩ :=
  (aggregation_order_irrelevant
    ⟨⟨⟨0, 0, 0⟩, ⟨0, 0, 0⟩⟩, [], [⟨"status", "terms", 5⟩, ⟨"amount", "sum", 0⟩], 10, 0⟩
    [⟨"amount", "sum", 0⟩, ⟨"status", "terms", 5⟩]
    (List.Perm.swap _ _ _) (by decide)).2.1

/-! ## UTF-8: decoding and encoding a rune -/

theorem char_eq_of_toNat (c : Char) (n : Nat) (h : n = c.toNat) : Char.ofNat n = c := by
  rw [h, Char.ofNat_toNat]

theorem decodeRune_two (c c1 : Char) (rest : List Char)
    (h : 194 ≤ c.toNat ∧ c.toNat < 224) (h1 : 128 ≤ c1.toNat ∧ c1.toNat ≤ 191) :
    decodeRune (c :: c1 :: rest) = (c.toNat % 32 * 64 + c1.toNat % 64, 2) := by
  have a1 : ¬ c.toNat < 128 := by omega
  have a2 : ¬ (c.toNat < 194 ∨ 244 < c.toNat) := by omega
  have a3 : c.toNat < 224 := h.2
  have a4 : ¬ c.toNat = 224 := by omega
  have a5 : ¬ c.toNat = 240 := by omega
  have a6 : ¬ c.toNat = 237 := by omega
  have a7 : ¬ c.toNat = 244 := by omega
  have a8 : ¬ (c1.toNat < 128 ∨ 191 < c1.toNat) := by omega
  simp [decodeRune, a1, a2, a3, a4, a5, a6, a7, a8]

theorem decodeRune_three (c c1 c2 : Char) (rest : List Char)
    (h : 224 ≤ c.toNat ∧ c.toNat < 240)
    (h1 : (if c.toNat = 224 then 160 else 128) ≤ c1.toNat ∧
      c1.toNat ≤ (if c.toNat = 237 then 159 else 191))
    (h2 : 128 ≤ c2.toNat ∧ c2.toNat ≤ 191) :
    decodeRune (c :: c1 :: c2 :: rest) =
      (c.toNat % 16 * 4096 + c1.toNat % 64 * 64 + c2.toNat % 64, 3) := by
  have a1 : ¬ c.toNat < 128 := by omega
  have a2 : ¬ (c.toNat < 194 ∨ 244 < c.toNat) := by omega
  have a3 : ¬ c.toNat < 224 := by omega
  have a3' : c.toNat < 240 := h.2
  have a5 : ¬ c.toNat = 240 := by omega
  have a7 : ¬ c.toNat = 244 := by omega
  have a9 : ¬ (c2.toNat < 128 ∨ 191 < c2.toNat) := by omega
  by_cases a4 : c.toNat = 224
  · have a6 : ¬ c.toNat = 237 := by omega
    rw [if_pos a4, if_neg a6] at h1
    have a8 : ¬ (c1.toNat < 160 ∨ 191 < c1.toNat) := by omega
    simp [decodeRune, a1, a2, a3, a3', a4, a5, a6, a7, a8, a9]
  · by_cases a6 : c.toNat = 237
    · rw [if_neg a4, if_pos a6] at h1
      have a8 : ¬ (c1.toNat < 128 ∨ 159 < c1.toNat) := by omega
      simp [decodeRune, a1, a2, a3, a3', a4, a5, a6, a7, a8, a9]
    · rw [if_neg a4, if_neg a6] at h1
      have a8 : ¬ (c1.toNat < 128 ∨ 191 < c1.toNat) := by omega
      simp [decodeRune, a1, a2, a3, a3', a4, a5, a6, a7, a8, a9]

theorem decodeRune_four (c c1 c2 c3 : Char) (rest : List Char)
    (h : 240 ≤ c.toNat ∧ c.toNat ≤ 244)
    (h1 : (if c.toNat = 240 then 144 else 128) ≤ c1.toNat ∧
      c1.toNat ≤ (if c.toNat = 244 then 143 else 191))
    (h2 : 128 ≤ c2.toNat ∧ c2.toNat ≤ 191) (h3 : 128 ≤ c3.toNat ∧ c3.toNat ≤ 191) :
    decodeRune (c :: c1 :: c2 :: c3 :: rest) =
      (c.toNat % 8 * 262144 + c1.toNat % 64 * 4096 + c2.toNat % 64 * 64 + c3.toNat % 64, 4) := by
  have a1 : ¬ c.toNat < 128 := by omega
  have a2 : ¬ (c.toNat < 194 ∨ 244 < c.toNat) := by omega
  have a3 : ¬ c.toNat < 224 := by omega
  have a3' : ¬ c.toNat < 240 := by omega
  have a4 : ¬ c.toNat = 224 := by omega
  have a6 : ¬ c.toNat = 237 := by omega
  have a9 : ¬ (c2.toNat < 128 ∨ 191 < c2.toNat) := by omega
  have a10 : ¬ (c3.toNat < 128 ∨ 191 < c3.toNat) := by omega
  by_cases a5 : c.toNat = 240
  · have a7 : ¬ c.toNat = 244 := by omega
    rw [if_pos a5, if_neg a7] at h1
    have a8 : ¬ (c1.toNat < 144 ∨ 191 < c1.toNat) := by omega
    simp [decodeRune, a1, a2, a3, a3', a4, a5, a6, a7, a8, a9, a10]
  · by_cases a7 : c.toNat = 244
    · rw [if_neg a5, if_pos a7] at h1
      have a8 : ¬ (c1.toNat < 128 ∨ 143 < c1.toNat) := by omega
      simp [decodeRune, a1, a2, a3, a3', a4, a5, a6, a7, a8, a9, a10]
    · rw [if_neg a5, if_neg a7] at h1
      have a8 : ¬ (c1.toNat < 128 ∨ 191 < c1.toNat) := by omega
      simp [decodeRune, a1, a2, a3, a3', a4, a5, a6, a7, a8, a9, a10]

/-- The shapes of a string on which `decodeRune` accepts a rune of more than one byte. -/
theorem decodeRune_cases (c : Char) (rest : List Char) (hc : 128 ≤ c.toNat) :
    decodeRune (c :: rest) = (RuneError, 1) ∨
    (∃ c1 r, rest = c1 :: r ∧ (194 ≤ c.toNat ∧ c.toNat < 224) ∧
      (128 ≤ c1.toNat ∧ c1.toNat ≤ 191)) ∨
    (∃ c1 c2 r, rest = c1 :: c2 :: r ∧ (224 ≤ c.toNat ∧ c.toNat < 240) ∧
      ((if c.toNat = 224 then 160 else 128) ≤ c1.toNat ∧
        c1.toNat ≤ (if c.toNat = 237 then 159 else 191)) ∧
      (128 ≤ c2.toNat ∧ c2.toNat ≤ 191)) ∨
    (∃ c1 c2 c3 r, rest = c1 :: c2 :: c3 :: r ∧ (240 ≤ c.toNat ∧ c.toNat ≤ 244) ∧
      ((if c.toNat = 240 then 144 else 128) ≤ c1.toNat ∧
        c1.toNat ≤ (if c.toNat = 244 then 143 else 191)) ∧
      (128 ≤ c2.toNat ∧ c2.toNat ≤ 191) ∧ (128 ≤ c3.toNat ∧ c3.toNat ≤ 191)) := by
  have a1 : ¬ c.toNat < 128 := by omega
  by_cases a2 : c.toNat < 194 ∨ 244 < c.toNat
  · left
    simp [decodeRune, a1, a2]
  cases rest with
  | nil =>
    left
    simp only [decodeRune, a1, a2, if_false, List.length_nil]
    split_ifs <;> rfl
  | cons c1 r1 =>
    by_cases b1 : (if c.toNat = 224 then 160 else if c.toNat = 240 then 144 else 128) ≤ c1.toNat ∧
        c1.toNat ≤ (if c.toNat = 237 then 159 else if c.toNat = 244 then 143 else 191)
    swap
    · left
      have b2 : c1.toNat < (if c.toNat = 224 then 160 else if c.toNat = 240 then 144 else 128) ∨
          (if c.toNat = 237 then 159 else if c.toNat = 244 then 143 else 191) < c1.toNat := by
        omega
      simp only [decodeRune, a1, a2, if_false, b2, if_true]
      split_ifs <;> rfl
    by_cases a3 : c.toNat < 224
    · right; left
      refine ⟨c1, r1, rfl, by omega, ?_⟩
      have e1 : ¬ c.toNat = 224 := by omega
      have e2 : ¬ c.toNat = 240 := by omega
      have e3 : ¬ c.toNat = 237 := by omega
      have e4 : ¬ c.toNat = 244 := by omega
      simpa [e1, e2, e3, e4] using b1
    cases r1 with
    | nil =>
      left
      have b3 : ¬ (c1.toNat < (if c.toNat = 224 then 160 else if c.toNat = 240 then 144 else 128) ∨
          (if c.toNat = 237 then 159 else if c.toNat = 244 then 143 else 191) < c1.toNat) := by
        omega
      simp only [decodeRune, a1, a2, a3, if_false, b3, List.length_cons, List.length_nil]
      split_ifs <;> first | rfl | omega
    | cons c2 r2 =>
      by_cases b4 : c2.toNat < 128 ∨ 191 < c2.toNat
      · left
        have b3 : ¬ (c1.toNat < (if c.toNat = 224 then 160 else if c.toNat = 240 then 144
            else 128) ∨
            (if c.toNat = 237 then 159 else if c.toNat = 244 then 143 else 191) < c1.toNat) := by
          omega
        simp only [decodeRune, a1, a2, a3, if_false, b3, b4, if_true]
        split_ifs <;> first | rfl | omega
      by_cases a4 : c.toNat < 240
      · right; right; left
        refine ⟨c1, c2, r2, rfl, by omega, ?_, by omega⟩
        have e2 : ¬ c.toNat = 240 := by omega
        have e4 : ¬ c.toNat = 244 := by omega
        simpa [e2, e4] using b1
      cases r2 with
      | nil =>
        left
        have b3 : ¬ (c1.toNat < (if c.toNat = 224 then 160 else if c.toNat = 240 then 144
            else 128) ∨
            (if c.toNat = 237 then 159 else if c.toNat = 244 then 143 else 191) < c1.toNat) := by
          omega
        simp only [decodeRune, a1, a2, a3, a4, if_false, b3, b4, List.length_cons,
          List.length_nil]
        split_ifs <;> first | rfl | omega
      | cons c3 r3 =>
        by_cases b5 : c3.toNat < 128 ∨ 191 < c3.toNat
        · left
          have b3 : ¬ (c1.toNat < (if c.toNat = 224 then 160 else if c.toNat = 240 then 144
              else 128) ∨
              (if c.toNat = 237 then 159 else if c.toNat = 244 then 143 else 191) < c1.toNat) := by
            omega
          simp only [decodeRune, a1, a2, a3, a4, if_false, b3, b4, b5, if_true]
          split_ifs <;> first | rfl | omega
        right; right; right
        refine ⟨c1, c2, c3, r3, rfl, by omega, ?_, by omega, by omega⟩
        have e1 : ¬ c.toNat = 224 := by omega
        have e3 : ¬ c.toNat = 237 := by omega
        simpa [e1, e3] using b1

/-- A rune that `decodeRune` accepts at the start of a string is encoded by the bytes it was
read from, and is read from these bytes whatever follows them. -/
theorem decodeRune_valid (c : Char) (rest : List Char) (hc : 128 ≤ c.toNat)
    (hv : ¬ ((decodeRune (c :: rest)).1 = RuneError ∧ (decodeRune (c :: rest)).2 = 1)) :
    ∃ pre suf, c :: rest = c :: (pre ++ suf) ∧  pre.length + 1 = (decodeRune (c :: rest)).2 ∧
      1 ≤ pre.length ∧ encodeRune (decodeRune (c :: rest)).1 = c :: pre ∧
      128 ≤ (decodeRune (c :: rest)).1 ∧
      ∀ tail, decodeRune (c :: (pre ++ tail)) = decodeRune (c :: rest) := by
  rcases decodeRune_cases c rest hc with h | ⟨c1, r, hr, h0, h1⟩ | ⟨c1, c2, r, hr, h0, h1, h2⟩ |
      ⟨c1, c2, c3, r, hr, h0, h1, h2, h3⟩
  · exact absurd (by rw [h]; exact ⟨rfl, rfl⟩) hv
  · subst hr
    have e := decodeRune_two c c1 r h0 h1
    refine ⟨[c1], r, rfl, by rw [e]; rfl, by simp, ?_, ?_, ?_⟩
    · rw [e]
      have b1 : ¬ c.toNat % 32 * 64 + c1.toNat % 64 < 128 := by omega
      have b2 : c.toNat % 32 * 64 + c1.toNat % 64 < 2048 := by omega
      simp only [encodeRune, b1, b2, if_true, if_false]
      rw [char_eq_of_toNat c _ (by omega), char_eq_of_toNat c1 _ (by omega)]
    · rw [e]
      show 128 ≤ c.toNat % 32 * 64 + c1.toNat % 64
      omega
    · intro tail
      rw [e]
      exact decodeRune_two c c1 tail h0 h1
  · subst hr
    have e := decodeRune_three c c1 c2 r h0 h1 h2
    have hb : 2048 ≤ c.toNat % 16 * 4096 + c1.toNat % 64 * 64 + c2.toNat % 64 ∧
        c.toNat % 16 * 4096 + c1.toNat % 64 * 64 + c2.toNat % 64 < 65536 ∧
        ¬ (55296 ≤ c.toNat % 16 * 4096 + c1.toNat % 64 * 64 + c2.toNat % 64 ∧
          c.toNat % 16 * 4096 + c1.toNat % 64 * 64 + c2.toNat % 64 ≤ 57343) := by
      split_ifs at h1 <;> omega
    have hc1 : 128 ≤ c1.toNat ∧ c1.toNat ≤ 191 := by
      split_ifs at h1 <;> omega
    refine ⟨[c1, c2], r, rfl, by rw [e]; rfl, by simp, ?_, ?_, ?_⟩
    · rw [e]
      have b1 : ¬ c.toNat % 16 * 4096 + c1.toNat % 64 * 64 + c2.toNat % 64 < 128 := by omega
      have b2 : ¬ c.toNat % 16 * 4096 + c1.toNat % 64 * 64 + c2.toNat % 64 < 2048 := by omega
      have b3 : ¬ (1114111 < c.toNat % 16 * 4096 + c1.toNat % 64 * 64 + c2.toNat % 64 ∨
          (55296 ≤ c.toNat % 16 * 4096 + c1.toNat % 64 * 64 + c2.toNat % 64 ∧
          c.toNat % 16 * 4096 + c1.toNat % 64 * 64 + c2.toNat % 64 ≤ 57343)) := by
        intro hx
        rcases hx with hx | hx
        · omega
        · exact hb.2.2 hx
      simp only [encodeRune, b1, b2, b3, hb.2.1, if_true, if_false]
      rw [char_eq_of_toNat c _ (by omega), char_eq_of_toNat c1 _ (by omega),
        char_eq_of_toNat c2 _ (by omega)]
    · rw [e]
      show 128 ≤ c.toNat % 16 * 4096 + c1.toNat % 64 * 64 + c2.toNat % 64
      omega
    · intro tail
      rw [e]
      exact decodeRune_three c c1 c2 tail h0 h1 h2
  · subst hr
    have e := decodeRune_four c c1 c2 c3 r h0 h1 h2 h3
    have hb : 65536 ≤ c.toNat % 8 * 262144 + c1.toNat % 64 * 4096 + c2.toNat % 64 * 64 +
          c3.toNat % 64 ∧
        c.toNat % 8 * 262144 + c1.toNat % 64 * 4096 + c2.toNat % 64 * 64 + c3.toNat % 64 ≤
          1114111 := by
      split_ifs at h1 <;> omega
    have hc1 : 128 ≤ c1.toNat ∧ c1.toNat ≤ 191 := by
      split_ifs at h1 <;> omega
    refine ⟨[c1, c2, c3], r, rfl, by rw [e]; rfl, by simp, ?_, ?_, ?_⟩
    · rw [e]
      have b1 : ¬ c.toNat % 8 * 262144 + c1.toNat % 64 * 4096 + c2.toNat % 64 * 64 +
          c3.toNat % 64 < 128 := by omega
      have b2 : ¬ c.toNat % 8 * 262144 + c1.toNat % 64 * 4096 + c2.toNat % 64 * 64 +
          c3.toNat % 64 < 2048 := by omega
      have b3 : ¬ (1114111 < c.toNat % 8 * 262144 + c1.toNat % 64 * 4096 + c2.toNat % 64 * 64 +
            c3.toNat % 64 ∨
          (55296 ≤ c.toNat % 8 * 262144 + c1.toNat % 64 * 4096 + c2.toNat % 64 * 64 +
            c3.toNat % 64 ∧
          c.toNat % 8 * 262144 + c1.toNat % 64 * 4096 + c2.toNat % 64 * 64 + c3.toNat % 64 ≤
            57343)) := by omega
      have b4 : ¬ c.toNat % 8 * 262144 + c1.toNat % 64 * 4096 + c2.toNat % 64 * 64 +
          c3.toNat % 64 < 65536 := by omega
      simp only [encodeRune, b1, b2, b3, b4, if_false]
      rw [char_eq_of_toNat c _ (by omega), char_eq_of_toNat c1 _ (by omega),
        char_eq_of_toNat c2 _ (by omega), char_eq_of_toNat c3 _ (by omega)]
    · rw [e]
      show 128 ≤ c.toNat % 8 * 262144 + c1.toNat % 64 * 4096 + c2.toNat % 64 * 64 +
        c3.toNat % 64
      omega
    · intro tail
      rw [e]
      exact decodeRune_four c c1 c2 c3 tail h0 h1 h2 h3

/-! ## Strings: reading back what `appendString` wrote -/

theorem hexVal_hexDigit (d : Nat) (h : d < 16) : hexVal (hexDigit d) = some d := by
  interval_cases d <;> rfl

theorem getu4_escape (a b c d : Nat) (ha : a < 16) (hb : b < 16) (hc : c < 16) (hd : d < 16)
    (X : List Char) :
    getu4 (Char.ofNat 92 :: 'u' :: hexDigit a :: hexDigit b :: hexDigit c :: hexDigit d :: X) =
      some (((a * 16 + b) * 16 + c) * 16 + d, X) := by
  have h1 : (Char.ofNat 92).toNat = 92 ∧ ('u' : Char).toNat = 117 := ⟨rfl, rfl⟩
  simp only [getu4, h1, and_self, if_true, hexVal_hexDigit a ha, hexVal_hexDigit b hb,
    hexVal_hexDigit c hc, hexVal_hexDigit d hd]

theorem parseStringBody_quote (pf : Nat) (q : Char) (X : List Char) (hq : q.toNat = 34) :
    parseStringBody (pf + 1) (q :: X) = some ([], X) := by
  simp only [parseStringBody, hq, if_true]

theorem parseStringBody_plain (pf : Nat) (c : Char) (X : List Char)
    (h : 32 ≤ c.toNat ∧ c.toNat < 128 ∧ c.toNat ≠ 34 ∧ c.toNat ≠ 92) :
    parseStringBody (pf + 1) (c :: X) =
      (parseStringBody pf X).map (fun p => (c :: p.1, p.2)) := by
  have e1 : ¬ c.toNat < 32 := by omega
  simp only [parseStringBody, h.2.2.1, h.2.2.2, h.2.1, e1, if_true, if_false]

theorem parseStringBody_rune (pf : Nat) (c : Char) (X : List Char) (h : 128 ≤ c.toNat) :
    parseStringBody (pf + 1) (c :: X) =
      (parseStringBody pf (X.drop ((decodeRune (c :: X)).2 - 1))).map
        (fun p => (encodeRune (decodeRune (c :: X)).1 ++ p.1, p.2)) := by
  have e1 : ¬ c.toNat < 32 := by omega
  have e2 : ¬ c.toNat < 128 := by omega
  have e3 : ¬ c.toNat = 34 := by omega
  have e4 : ¬ c.toNat = 92 := by omega
  simp only [parseStringBody, e1, e2, e3, e4, if_false]

theorem parseStringBody_escape (pf : Nat) (b e : Char) (X : List Char) (hb : b.toNat = 92)
    (he : e.toNat = 34 ∨ e.toNat = 92 ∨ e.toNat = 47) :
    parseStringBody (pf + 1) (b :: e :: X) =
      (parseStringBody pf X).map (fun p => (e :: p.1, p.2)) := by
  have e1 : ¬ b.toNat = 34 := by omega
  simp only [parseStringBody, hb, he, if_true]
  simp

theorem parseStringBody_short (pf : Nat) (b e : Char) (X : List Char) (hb : b.toNat = 92)
    (n : Nat)
    (he : (e.toNat = 98 ∧ n = 8) ∨ (e.toNat = 102 ∧ n = 12) ∨ (e.toNat = 110 ∧ n = 10) ∨
      (e.toNat = 114 ∧ n = 13) ∨ (e.toNat = 116 ∧ n = 9)) :
    parseStringBody (pf + 1) (b :: e :: X) =
      (parseStringBody pf X).map (fun p => (Char.ofNat n :: p.1, p.2)) := by
  have e1 : ¬ b.toNat = 34 := by omega
  rcases he with h | h | h | h | h <;> obtain ⟨h1, h2⟩ := h <;> subst h2
  · simp only [parseStringBody, hb, e1, h1, if_true, if_false]
    simp
  · simp only [parseStringBody, hb, e1, h1, if_true, if_false]
    simp
  · simp only [parseStringBody, hb, e1, h1, if_true, if_false]
    simp
  · simp only [parseStringBody, hb, e1, h1, if_true, if_false]
    simp
  · simp only [parseStringBody, hb, e1, h1, if_true, if_false]
    simp

theorem parseStringBody_u (pf : Nat) (b u : Char) (X X' : List Char) (rr : Nat)
    (hb : b.toNat = 92) (hu : u.toNat = 117) (hg : getu4 (b :: u :: X) = some (rr, X'))
    (hr : ¬ (55296 ≤ rr ∧ rr < 57344)) :
    parseStringBody (pf + 1) (b :: u :: X) =
      (parseStringBody pf X').map (fun p => (encodeRune rr ++ p.1, p.2)) := by
  have e1 : ¬ b.toNat = 34 := by omega
  have e2 : ¬ (u.toNat = 34 ∨ u.toNat = 92 ∨ u.toNat = 47) := by omega
  have e3 : ¬ u.toNat = 98 := by omega
  have e4 : ¬ u.toNat = 102 := by omega
  have e5 : ¬ u.toNat = 110 := by omega
  have e6 : ¬ u.toNat = 114 := by omega
  have e7 : ¬ u.toNat = 116 := by omega
  simp only [parseStringBody, hb, hu, hg, hr, if_false]
  simp

/-- One ASCII byte, written by `escapeChar`, is read back in one step. -/
theorem parseStringBody_escapeChar (c : Char) (hc : c.toNat < 128) (pf : Nat)
    (X : List Char) :
    parseStringBody (pf + 1) (escapeChar c ++ X) =
      (parseStringBody pf X).map (fun p => (c :: p.1, p.2)) := by
  have hbs : (Char.ofNat 92).toNat = 92 := rfl
  unfold escapeChar
  simp only []
  split_ifs with h1 h2 h3 h4 h5 h6 h7
  · exact parseStringBody_escape pf _ c X hbs (by omega)
  · rw [show [Char.ofNat 92, 'b'] ++ X = Char.ofNat 92 :: 'b' :: X from rfl,
      parseStringBody_short pf _ 'b' X hbs 8 (Or.inl ⟨rfl, rfl⟩),
      char_eq_of_toNat c 8 h2.symm]
  · rw [show [Char.ofNat 92, 'f'] ++ X = Char.ofNat 92 :: 'f' :: X from rfl,
      parseStringBody_short pf _ 'f' X hbs 12 (Or.inr (Or.inl ⟨rfl, rfl⟩)),
      char_eq_of_toNat c 12 h3.symm]
  · rw [show [Char.ofNat 92, 'n'] ++ X = Char.ofNat 92 :: 'n' :: X from rfl,
      parseStringBody_short pf _ 'n' X hbs 10 (Or.inr (Or.inr (Or.inl ⟨rfl, rfl⟩))),
      char_eq_of_toNat c 10 h4.symm]
  · rw [show [Char.ofNat 92, 'r'] ++ X = Char.ofNat 92 :: 'r' :: X from rfl,
      parseStringBody_short pf _ 'r' X hbs 13 (Or.inr (Or.inr (Or.inr (Or.inl ⟨rfl, rfl⟩)))),
      char_eq_of_toNat c 13 h5.symm]
  · rw [show [Char.ofNat 92, 't'] ++ X = Char.ofNat 92 :: 't' :: X from rfl,
      parseStringBody_short pf _ 't' X hbs 9 (Or.inr (Or.inr (Or.inr (Or.inr ⟨rfl, rfl⟩)))),
      char_eq_of_toNat c 9 h6.symm]
  · have hg := getu4_escape 0 0 (c.toNat / 16) (c.toNat % 16) (by omega) (by omega) (by omega)
      (by omega) X
    have hz : hexDigit 0 = '0' := rfl
    rw [hz] at hg
    have hv : ((0 * 16 + 0) * 16 + c.toNat / 16) * 16 + c.toNat % 16 = c.toNat := by omega
    rw [hv] at hg
    rw [show [Char.ofNat 92, 'u', '0', '0', hexDigit (c.toNat / 16), hexDigit (c.toNat % 16)] ++ X
        = Char.ofNat 92 :: 'u' :: ('0' :: '0' :: hexDigit (c.toNat / 16) ::
          hexDigit (c.toNat % 16) :: X) from rfl,
      parseStringBody_u pf _ 'u' _ X c.toNat hbs rfl hg (by omega)]
    have he : encodeRune c.toNat = [c] := by
      simp only [encodeRune, hc, if_true]
      rw [Char.ofNat_toNat]
    rw [he]
    rfl
  · exact parseStringBody_plain pf c X ⟨by omega, hc, by omega, by omega⟩

theorem escapeChar_length_pos (c : Char) : 1 ≤ (escapeChar c).length := by
  unfold escapeChar
  simp only []
  split_ifs <;> simp

/-- A string that is valid UTF-8 is read back from the text `appendString` writes for it:
the decoder stops at the closing quote with the bytes of the string. -/
theorem parseStringBody_appendStringLoop (fuel : Nat) :
    ∀ (s : List Char), validLoop fuel s = true →
      ∀ (pf : Nat) (rest : List Char), (appendStringLoop fuel s).length + 1 ≤ pf →
        parseStringBody pf (appendStringLoop fuel s ++ Char.ofNat 34 :: rest) =
          some (s, rest) := by
  induction fuel with
  | zero =>
    intro s hv pf rest hpf
    have hs : s = [] := by
      cases s with
      | nil => rfl
      | cons c r => simp [validLoop] at hv
    subst hs
    obtain ⟨pf', rfl⟩ : ∃ pf', pf = pf' + 1 := ⟨pf - 1, by omega⟩
    exact parseStringBody_quote pf' _ rest rfl
  | succ fuel ih =>
    intro s hv pf rest hpf
    cases s with
    | nil =>
      obtain ⟨pf', rfl⟩ : ∃ pf', pf = pf' + 1 := ⟨pf - 1, by omega⟩
      exact parseStringBody_quote pf' _ rest rfl
    | cons c r =>
      obtain ⟨pf', rfl⟩ : ∃ pf', pf = pf' + 1 := ⟨pf - 1, by omega⟩
      by_cases hc : c.toNat < 128
      · -- an ASCII byte
        have hd : decodeRune (c :: r) = (c.toNat, 1) := by simp [decodeRune, hc]
        have hne : ¬ (c.toNat = RuneError ∧ 1 = 1) := by
          unfold RuneError
          omega
        have hv2 : validLoop fuel r = true := by
          have hv' := hv
          simp [validLoop, hd] at hv'
          exact hv'.2
        have hl := escapeChar_length_pos c
        have ha : appendStringLoop (fuel + 1) (c :: r) =
            escapeChar c ++ appendStringLoop fuel r := by
          simp [appendStringLoop, hc]
        rw [ha] at hpf ⊢
        rw [List.length_append] at hpf
        rw [List.append_assoc, parseStringBody_escapeChar c hc, ih r hv2 pf' rest (by omega)]
        rfl
      · -- the first byte of a rune of several bytes
        have hc2 : 128 ≤ c.toNat := by omega
        have hvalid : ¬ ((decodeRune (c :: r)).1 = RuneError ∧ (decodeRune (c :: r)).2 = 1) := by
          intro hbad
          simp [validLoop, hbad] at hv
        have hv2 : validLoop fuel (r.drop ((decodeRune (c :: r)).2 - 1)) = true := by
          have hv' := hv
          simp only [validLoop, hvalid, if_false] at hv'
          exact hv'
        obtain ⟨pre, suf, hsplit, hlen, hpos, henc, hge, htail⟩ := decodeRune_valid c r hc2 hvalid
        have hr : r = pre ++ suf := by
          injection hsplit
        have hdrop : r.drop ((decodeRune (c :: r)).2 - 1) = suf := by
          rw [← hlen, hr]
          simp
        rw [hdrop] at hv2
        by_cases h28 : (decodeRune (c :: r)).1 = 8232 ∨ (decodeRune (c :: r)).1 = 8233
        · have ha : appendStringLoop (fuel + 1) (c :: r) =
              [Char.ofNat 92, 'u', '2', '0', '2', hexDigit ((decodeRune (c :: r)).1 % 16)] ++
                appendStringLoop fuel suf := by
            simp only [appendStringLoop, hc, hvalid, h28, if_true, if_false, hdrop]
          rw [ha] at hpf ⊢
          rw [List.length_append] at hpf
          have hg := getu4_escape 2 0 2 ((decodeRune (c :: r)).1 % 16) (by omega) (by omega)
            (by omega) (by omega) (appendStringLoop fuel suf ++ Char.ofNat 34 :: rest)
          have h2 : hexDigit 2 = '2' := rfl
          have h0 : hexDigit 0 = '0' := rfl
          rw [h2, h0] at hg
          have hval : ((2 * 16 + 0) * 16 + 2) * 16 + (decodeRune (c :: r)).1 % 16 =
              (decodeRune (c :: r)).1 := by omega
          rw [hval] at hg
          rw [List.append_assoc,
            show [Char.ofNat 92, 'u', '2', '0', '2', hexDigit ((decodeRune (c :: r)).1 % 16)] ++
              (appendStringLoop fuel suf ++ Char.ofNat 34 :: rest) =
              Char.ofNat 92 :: 'u' :: ('2' :: '0' :: '2' ::
                hexDigit ((decodeRune (c :: r)).1 % 16) ::
                (appendStringLoop fuel suf ++ Char.ofNat 34 :: rest)) from rfl,
            parseStringBody_u pf' (Char.ofNat 92) 'u' _ _ _ rfl rfl hg (by omega),
            ih suf hv2 pf' rest (by simp at hpf; omega), henc, hr]
          rfl
        · have ha : appendStringLoop (fuel + 1) (c :: r) =
              (c :: pre) ++ appendStringLoop fuel suf := by
            simp only [appendStringLoop, hc, hvalid, h28, if_false, hdrop]
            rw [← hlen, hr]
            simp
          rw [ha] at hpf ⊢
          rw [List.length_append] at hpf
          rw [List.append_assoc, List.cons_append, parseStringBody_rune pf' c _ hc2,
            htail, ← hlen]
          simp only [Nat.add_sub_cancel, List.drop_left]
          rw [ih suf hv2 pf' rest (by simp at hpf; omega), henc, hr]
          rfl

/-! ## Integers: reading back what `formatInt` wrote -/

theorem digitChar_toNat (k : Nat) (h : k < 10) : (Nat.digitChar k).toNat = 48 + k := by
  interval_cases k <;> rfl

theorem digitsValue_append (l : List Char) (d : Char) :
    digitsValue (l ++ [d]) = digitsValue l * 10 + (d.toNat - 48) := by
  simp [digitsValue, List.foldl_append]

/-- The digits that `Nat.toDigitsCore` puts before `ds`: all of them are decimal digits,
they denote `n`, and they start with a zero for `n = 0` only. -/
theorem toDigitsCore_spec (fuel : Nat) :
    ∀ (n : Nat) (ds : List Char), n < fuel →
      ∃ X, Nat.toDigitsCore 10 fuel n ds = X ++ ds ∧
        (∀ c ∈ X, 48 ≤ c.toNat ∧ c.toNat ≤ 57) ∧ digitsValue X = n ∧
        (∃ c0 X', X = c0 :: X' ∧ (n = 0 → X' = []) ∧ (n ≠ 0 → c0.toNat ≠ 48)) := by
  induction fuel with
  | zero => intro n ds h; omega
  | succ fuel ih =>
    intro n ds h
    have hd := digitChar_toNat (n % 10) (Nat.mod_lt _ (by decide))
    by_cases h0 : n / 10 = 0
    · have hn : n < 10 := by omega
      refine ⟨[Nat.digitChar (n % 10)], ?_, ?_, ?_, ?_⟩
      · simp [Nat.toDigitsCore, h0]
      · intro c hc
        simp only [List.mem_singleton] at hc
        rw [hc, hd]
        omega
      · simp only [digitsValue, List.foldl_cons, List.foldl_nil, hd]
        omega
      · refine ⟨_, [], rfl, fun _ => rfl, fun hne => ?_⟩
        rw [hd]
        omega
    · obtain ⟨X, hX, hall, hval, c0, X', hc0, _, hnz⟩ :=
        ih (n / 10) (Nat.digitChar (n % 10) :: ds) (by omega)
      refine ⟨X ++ [Nat.digitChar (n % 10)], ?_, ?_, ?_, ?_⟩
      · simp only [Nat.toDigitsCore, h0, if_false]
        rw [hX]
        simp
      · intro c hc
        rcases List.mem_append.1 hc with hc | hc
        · exact hall c hc
        · simp only [List.mem_singleton] at hc
          rw [hc, hd]
          omega
      · rw [digitsValue_append, hval, hd]
        omega
      · refine ⟨c0, X' ++ [Nat.digitChar (n % 10)], by rw [hc0]; rfl, fun hz => ?_,
          fun _ => hnz h0⟩
        omega

theorem readDigits_digits (X : List Char) (hall : ∀ c ∈ X, 48 ≤ c.toNat ∧ c.toNat ≤ 57)
    (rest : List Char) (hrest : EndsNumber rest) (acc : Nat) :
    readDigits (X ++ rest) acc =
      (X.foldl (fun a c => a * 10 + (c.toNat - 48)) acc, rest) := by
  induction X generalizing acc with
  | nil =>
    cases rest with
    | nil => rfl
    | cons d r =>
      have hd := hrest d (by simp)
      have hnd : ¬ (48 ≤ d.toNat ∧ d.toNat ≤ 57) := fun h => hd (Or.inl h)
      simp [readDigits, hnd]
  | cons c X ih =>
    have hc := hall c (by simp)
    simp only [List.cons_append, readDigits, hc, and_self, if_true, List.foldl_cons]
    exact ih (fun d hd => hall d (List.mem_cons_of_mem _ hd)) _

theorem parseNat_toDigits (n : Nat) (rest : List Char) (hrest : EndsNumber rest) :
    parseNat (Nat.toDigits 10 n ++ rest) = some (n, rest) := by
  obtain ⟨X, hX, hall, hval, c0, X', hc0, hz, hnz⟩ := toDigitsCore_spec (n + 1) n [] (by omega)
  have hT : Nat.toDigits 10 n = X := by
    unfold Nat.toDigits
    rw [hX, List.append_nil]
  rw [hT, hc0]
  have hc := hall c0 (by rw [hc0]; simp)
  have hfinal : ∀ m : Nat, (match (some (m, rest) : Option (Nat × List Char)) with
      | none => none
      | some (n, []) => some (n, [])
      | some (n, d :: rest2) =>
        if (48 ≤ d.toNat ∧ d.toNat ≤ 57) ∨ d.toNat = 46 ∨ d.toNat = 101 ∨ d.toNat = 69 then none
        else some (n, d :: rest2)) = some (m, rest) := by
    intro m
    cases rest with
    | nil => rfl
    | cons d r =>
      have hd := hrest d (by simp)
      simp only [hd, if_false]
  by_cases h0 : n = 0
  · have hX' := hz h0
    subst hX'
    have hc48 : c0.toNat = 48 := by
      have : digitsValue [c0] = n := by rw [← hc0]; exact hval
      simp only [digitsValue, List.foldl_cons, List.foldl_nil] at this
      omega
    simp only [List.cons_append, List.nil_append, parseNat, hc48, if_true]
    rw [h0]
    exact hfinal 0
  · have hne := hnz h0
    have h49 : 49 ≤ c0.toNat ∧ c0.toNat ≤ 57 := by omega
    have hval2 : X'.foldl (fun a c => a * 10 + (c.toNat - 48)) (c0.toNat - 48) = n := by
      have : digitsValue (c0 :: X') = n := by rw [← hc0]; exact hval
      simpa [digitsValue] using this
    simp only [List.cons_append, parseNat, hne, h49, and_self, if_true, if_false]
    rw [readDigits_digits X' (fun d hd => hall d (by rw [hc0]; exact List.mem_cons_of_mem _ hd))
      rest hrest, hval2]
    exact hfinal n

theorem toDigits_head (n : Nat) :
    ∃ c0 X', Nat.toDigits 10 n = c0 :: X' ∧ 48 ≤ c0.toNat ∧ c0.toNat ≤ 57 := by
  obtain ⟨X, hX, hall, _, c0, X', hc0, _, _⟩ := toDigitsCore_spec (n + 1) n [] (by omega)
  refine ⟨c0, X', ?_, hall c0 (by rw [hc0]; simp)⟩
  unfold Nat.toDigits
  rw [hX, List.append_nil, hc0]

/-- An integer up to 2^53 in size is the value of a `float64`. -/
theorem roundFloat64_small (n : Int) (h : n.natAbs < 9007199254740992) :
    roundFloat64 n = some n := by
  have he : floatShift n.natAbs n.natAbs = 0 := by
    cases hk : n.natAbs with
    | zero => rfl
    | succ k =>
      rw [hk] at h
      simp only [floatShift, h, if_true]
  have hbig : ¬ (971 < 0 ∨ (0 = 971 ∧ n.natAbs / 2 ^ 0 = 9007199254740992)) := by
    omega
  have hq : ¬ ((2 : Nat) ^ 0 < 2 * (n.natAbs % 2 ^ 0) ∨
      (2 * (n.natAbs % 2 ^ 0) = 2 ^ 0 ∧ n.natAbs / 2 ^ 0 % 2 = 1)) := by
    simp [Nat.mod_one]
  have hm : n.natAbs / 2 ^ 0 * 2 ^ 0 = n.natAbs := by simp
  unfold roundFloat64
  simp only [he, hq, if_false, hbig, hm]
  by_cases hn : n < 0
  · rw [if_pos hn]
    exact congrArg some (by omega)
  · rw [if_neg hn]
    exact congrArg some (by omega)

/-- An integer that is the value of a `float64` is read back from the text `json.Marshal`
writes for it. -/
theorem parseNumber_formatInt (n : Int) (rest : List Char) (hrest : EndsNumber rest)
    (hfloat : roundFloat64 n = some n) :
    parseNumber ((formatInt n).data ++ rest) = some (n, rest) := by
  unfold formatInt
  by_cases hn : n < 0
  · simp only [hn, if_true, List.cons_append]
    have hm : ('-' : Char).toNat = 45 := rfl
    have hneg : -((n.natAbs : Nat) : Int) = n := by omega
    simp only [parseNumber, hm, if_true, parseNat_toDigits n.natAbs rest hrest,
      Option.some_bind, hneg, hfloat, Option.map_some']
  · obtain ⟨c0, X', hT, hc⟩ := toDigits_head n.natAbs
    have h45 : ¬ c0.toNat = 45 := by omega
    simp only [hn, if_false]
    have hp := parseNat_toDigits n.natAbs rest hrest
    have hpos : ((n.natAbs : Nat) : Int) = n := by omega
    rw [hT] at hp ⊢
    simp only [List.cons_append, parseNumber, h45, if_false] at hp ⊢
    rw [hp]
    simp only [Option.some_bind, hpos, hfloat, Option.map_some']

/-! ## Values: reading back what `json.Marshal` wrote -/

theorem skipWs_cons (c : Char) (X : List Char)
    (h : ¬ (c.toNat = 32 ∨ c.toNat = 9 ∨ c.toNat = 10 ∨ c.toNat = 13)) :
    skipWs (c :: X) = c :: X := by
  simp only [skipWs, h, if_false]

theorem parseValue_string (f : Nat) (c : Char) (X : List Char) (hc : c.toNat = 34) :
    parseValue (f + 1) (c :: X) =
      (parseStringBody (f + 1) X).map (fun p => (Json.str (String.mk p.1), p.2)) := by
  rw [parseValue, skipWs_cons c X (by omega)]
  simp only [hc, if_true]

theorem parseValue_number (f : Nat) (c : Char) (X : List Char)
    (hc : c.toNat = 45 ∨ (48 ≤ c.toNat ∧ c.toNat ≤ 57)) :
    parseValue (f + 1) (c :: X) =
      (parseNumber (c :: X)).map (fun p => (Json.int p.1, p.2)) := by
  rw [parseValue, skipWs_cons c X (by omega)]
  have e1 : ¬ c.toNat = 34 := by omega
  have e2 : ¬ c.toNat = 91 := by omega
  have e3 : ¬ c.toNat = 123 := by omega
  simp only [e1, e2, e3, if_false]

theorem parseValue_array_nil (f : Nat) (c d : Char) (X : List Char) (hc : c.toNat = 91)
    (hd : d.toNat = 93) :
    parseValue (f + 1) (c :: d :: X) = some (Json.arr [], X) := by
  rw [parseValue, skipWs_cons c _ (by omega)]
  have e1 : ¬ c.toNat = 34 := by omega
  simp [e1, hc, if_true, if_false]
  rw [skipWs_cons d X (by omega)]
  simp [hd, if_true]

theorem parseValue_array (f : Nat) (c d : Char) (X : List Char) (hc : c.toNat = 91)
    (hd : d.toNat ≠ 93 ∧ ¬ (d.toNat = 32 ∨ d.toNat = 9 ∨ d.toNat = 10 ∨ d.toNat = 13)) :
    parseValue (f + 1) (c :: d :: X) =
      (parseElems f (d :: X)).map (fun p => (Json.arr p.1, p.2)) := by
  rw [parseValue, skipWs_cons c _ (by omega)]
  have e1 : ¬ c.toNat = 34 := by omega
  simp [e1, hc, if_true, if_false]
  rw [skipWs_cons d X hd.2]
  simp [hd.1, if_false]

theorem parseValue_object_nil (f : Nat) (c d : Char) (X : List Char) (hc : c.toNat = 123)
    (hd : d.toNat = 125) :
    parseValue (f + 1) (c :: d :: X) = some (Json.obj [], X) := by
  rw [parseValue, skipWs_cons c _ (by omega)]
  have e1 : ¬ c.toNat = 34 := by omega
  have e2 : ¬ c.toNat = 91 := by omega
  simp [e1, e2, hc, if_true, if_false]
  rw [skipWs_cons d X (by omega)]
  simp [hd, if_true]

theorem parseValue_object (f : Nat) (c d : Char) (X : List Char) (hc : c.toNat = 123)
    (hd : d.toNat ≠ 125 ∧ ¬ (d.toNat = 32 ∨ d.toNat = 9 ∨ d.toNat = 10 ∨ d.toNat = 13)) :
    parseValue (f + 1) (c :: d :: X) =
      (parseFields f (d :: X)).map (fun p => (Json.obj (mapLit p.1), p.2)) := by
  rw [parseValue, skipWs_cons c _ (by omega)]
  have e1 : ¬ c.toNat = 34 := by omega
  have e2 : ¬ c.toNat = 91 := by omega
  simp [e1, e2, hc, if_true, if_false]
  rw [skipWs_cons d X hd.2]
  simp [hd.1, if_false]

/-- One element of an array, then a comma and more elements. -/
theorem parseElems_comma (f : Nat) (cs : List Char) (v : Json) (d : Char) (X : List Char)
    (hv : parseValue f cs = some (v, d :: X)) (hd : d.toNat = 44) :
    parseElems (f + 1) cs = (parseElems f X).map (fun p => (v :: p.1, p.2)) := by
  rw [parseElems, hv]
  simp [skipWs_cons d X (by omega), hd, if_true]

/-- The last element of an array, then the closing bracket. -/
theorem parseElems_close (f : Nat) (cs : List Char) (v : Json) (d : Char) (X : List Char)
    (hv : parseValue f cs = some (v, d :: X)) (hd : d.toNat = 93) :
    parseElems (f + 1) cs = some ([v], X) := by
  rw [parseElems, hv]
  have e1 : ¬ d.toNat = 44 := by omega
  simp [skipWs_cons d X (by omega), hd, e1, if_true, if_false]

/-- One entry of an object, then a comma and more entries. -/
theorem parseFields_comma (f : Nat) (q : Char) (r0 k : List Char) (colon : Char)
    (r2 : List Char) (v : Json) (d : Char) (X : List Char) (hq : q.toNat = 34)
    (hk : parseStringBody (f + 1) r0 = some (k, colon :: r2)) (hcolon : colon.toNat = 58)
    (hv : parseValue f r2 = some (v, d :: X)) (hd : d.toNat = 44) :
    parseFields (f + 1) (q :: r0) =
      (parseFields f X).map (fun p => ((String.mk k, v) :: p.1, p.2)) := by
  rw [parseFields, skipWs_cons q r0 (by omega)]
  simp [hq, if_true, hk, skipWs_cons colon r2 (by omega), hcolon, hv,
    skipWs_cons d X (by omega), hd]

/-- The last entry of an object, then the closing brace. -/
theorem parseFields_close (f : Nat) (q : Char) (r0 k : List Char) (colon : Char)
    (r2 : List Char) (v : Json) (d : Char) (X : List Char) (hq : q.toNat = 34)
    (hk : parseStringBody (f + 1) r0 = some (k, colon :: r2)) (hcolon : colon.toNat = 58)
    (hv : parseValue f r2 = some (v, d :: X)) (hd : d.toNat = 125) :
    parseFields (f + 1) (q :: r0) = some ([(String.mk k, v)], X) := by
  rw [parseFields, skipWs_cons q r0 (by omega)]
  have e1 : ¬ d.toNat = 44 := by omega
  simp [hq, if_true, hk, skipWs_cons colon r2 (by omega), hcolon, hv,
    skipWs_cons d X (by omega), hd, e1, if_false]

theorem endsNumber_nil : EndsNumber [] := by
  intro d hd
  simp at hd

theorem endsNumber_cons (c : Char) (X : List Char)
    (h : c.toNat = 44 ∨ c.toNat = 93 ∨ c.toNat = 125) : EndsNumber (c :: X) := by
  intro d hd
  simp only [List.head?_cons, Option.mem_def, Option.some.injEq] at hd
  subst hd
  omega

theorem formatInt_head (n : Int) :
    ∃ c tl, (formatInt n).data = c :: tl ∧ (c.toNat = 45 ∨ (48 ≤ c.toNat ∧ c.toNat ≤ 57)) := by
  unfold formatInt
  by_cases hn : n < 0
  · simp only [hn, if_true]
    exact ⟨_, _, rfl, Or.inl rfl⟩
  · simp only [hn, if_false]
    obtain ⟨c0, X', hT, hc⟩ := toDigits_head n.natAbs
    exact ⟨c0, X', hT, Or.inr hc⟩

/-- The text of a canonical value starts with a quote, a minus sign, a digit, a bracket or
a brace. -/
theorem encode_head (v : Json) (hc : Canonical v) :
    ∃ c tl, encode v = c :: tl ∧
      (c.toNat = 34 ∨ c.toNat = 45 ∨ (48 ≤ c.toNat ∧ c.toNat ≤ 57) ∨ c.toNat = 91 ∨
        c.toNat = 123) := by
  cases v with
  | str s => exact ⟨_, _, rfl, Or.inl rfl⟩
  | int n =>
    obtain ⟨c, tl, h1, h2⟩ := formatInt_head n
    refine ⟨c, tl, h1, ?_⟩
    rcases h2 with h2 | h2
    · exact Or.inr (Or.inl h2)
    · exact Or.inr (Or.inr (Or.inl h2))
  | arr xs => exact ⟨_, _, rfl, Or.inr (Or.inr (Or.inr (Or.inl rfl)))⟩
  | obj kvs => exact ⟨_, _, rfl, Or.inr (Or.inr (Or.inr (Or.inr rfl)))⟩
  | unsupported => exact absurd hc (by simp [Canonical])

theorem encodeElems_single (v : Json) : encodeElems [v] = encode v := by
  rw [encodeElems]
  rfl

theorem encodeElems_cons (v w : Json) (ws : List Json) :
    encodeElems (v :: w :: ws) = encode v ++ Char.ofNat 44 :: encodeElems (w :: ws) := by
  rw [encodeElems]
  rfl

theorem encodeFields_single (k : String) (v : Json) :
    encodeFields [(k, v)] =
      Char.ofNat 34 :: (appendStringLoop k.length k.data ++
        Char.ofNat 34 :: Char.ofNat 58 :: encode v) := by
  rw [encodeFields]
  simp [quoteString]

theorem encodeFields_cons (k : String) (v : Json) (e : String × Json)
    (es : List (String × Json)) :
    encodeFields ((k, v) :: e :: es) =
      Char.ofNat 34 :: (appendStringLoop k.length k.data ++
        Char.ofNat 34 :: Char.ofNat 58 :: (encode v ++ Char.ofNat 44 :: encodeFields (e :: es))) := by
  rw [encodeFields]
  simp [quoteString]

theorem encodeElems_head (v : Json) (vs : List Json) (hc : Canonical v) :
    ∃ c tl, encodeElems (v :: vs) = c :: tl ∧
      (c.toNat = 34 ∨ c.toNat = 45 ∨ (48 ≤ c.toNat ∧ c.toNat ≤ 57) ∨ c.toNat = 91 ∨
        c.toNat = 123) := by
  obtain ⟨c, tl, h1, h2⟩ := encode_head v hc
  cases vs with
  | nil => exact ⟨c, tl, by rw [encodeElems_single, h1], h2⟩
  | cons w ws =>
    exact ⟨c, tl ++ Char.ofNat 44 :: encodeElems (w :: ws),
      by rw [encodeElems_cons, h1]; rfl, h2⟩

theorem mapSet_append_last (k : String) (v : Json) (m : Fields)
    (h : ∀ a ∈ mapKeys m, a < k) : mapSet k v m = m ++ [(k, v)] := by
  induction m with
  | nil => rfl
  | cons e rest ih =>
    obtain ⟨k0, v0⟩ := e
    have h0 : k0 < k := h k0 (by simp [mapKeys])
    have h1 : ¬ k = k0 := fun heq => absurd h0 (by rw [heq]; exact lt_irrefl _)
    have h3 : ¬ keyLt k k0 = true := fun hlt =>
      absurd (lt_trans h0 ((keyLt_iff k k0).1 hlt)) (lt_irrefl _)
    have ih2 := ih (fun a ha => h a (by
      simp only [mapKeys, List.map_cons, List.mem_cons] at ha ⊢
      exact Or.inr ha))
    simp [mapSet, h1, h3, ih2]

/-- A map literal whose keys are written in increasing order is the list of its entries. -/
theorem mapLit_sorted (kvs : Fields) (h : SortedKeys kvs) : mapLit kvs = kvs := by
  unfold mapLit
  induction kvs using List.reverseRecOn with
  | nil => rfl
  | append_singleton l e ih =>
    obtain ⟨k, v⟩ := e
    have hs : SortedKeys l ∧ ∀ a ∈ mapKeys l, a < k := by
      unfold SortedKeys mapKeys at h
      rw [List.map_append, List.pairwise_append] at h
      refine ⟨h.1, fun a ha => h.2.2 a ha k (by simp)⟩
    rw [List.foldl_append, ih hs.1]
    exact mapSet_append_last k v l hs.2

mutual
/-- A canonical value is read back from its text, whatever text follows that ends a
number. -/
theorem parseValue_encode : (v : Json) → Canonical v → ∀ (fuel : Nat) (rest : List Char),
    (encode v).length + 1 ≤ fuel → EndsNumber rest →
      parseValue fuel (encode v ++ rest) = some (v, rest)
  | Json.str s, hc, fuel, rest, hfuel, _ => by
    obtain ⟨f, rfl⟩ : ∃ f, fuel = f + 1 := ⟨fuel - 1, by omega⟩
    have he : encode (Json.str s) ++ rest =
        Char.ofNat 34 :: (appendStringLoop s.length s.data ++ Char.ofNat 34 :: rest) := by
      simp [encode, quoteString]
    have hl : (encode (Json.str s)).length = (appendStringLoop s.length s.data).length + 2 := by
      simp [encode, quoteString]
    rw [he, parseValue_string f (Char.ofNat 34) _ rfl,
      parseStringBody_appendStringLoop s.length s.data hc (f + 1) rest (by omega)]
    rfl
  | Json.int n, hc, fuel, rest, hfuel, hrest => by
    obtain ⟨f, rfl⟩ : ∃ f, fuel = f + 1 := ⟨fuel - 1, by omega⟩
    obtain ⟨c, tl, h1, h2⟩ := formatInt_head n
    have hp := parseNumber_formatInt n rest hrest hc
    have he : encode (Json.int n) = (formatInt n).data := rfl
    rw [he]
    rw [h1] at hp ⊢
    rw [List.cons_append] at hp ⊢
    rw [parseValue_number f c _ h2, hp]
    rfl
  | Json.arr xs, hc, fuel, rest, hfuel, _ => by
    obtain ⟨f, rfl⟩ : ∃ f, fuel = f + 1 := ⟨fuel - 1, by omega⟩
    have ih := parseElems_encode xs
    cases xs with
    | nil => exact parseValue_array_nil f (Char.ofNat 91) (Char.ofNat 93) rest rfl rfl
    | cons v vs =>
      have hcv : Canonical v ∧ CanonicalElems vs := hc
      obtain ⟨c, tl, h1, h2⟩ := encodeElems_head v vs hcv.1
      have hl : (encode (Json.arr (v :: vs))).length = (encodeElems (v :: vs)).length + 2 := by
        simp [encode]
      have hp := ih (by simp) hc f rest (by omega)
      have he : encode (Json.arr (v :: vs)) ++ rest =
          Char.ofNat 91 :: (encodeElems (v :: vs) ++ Char.ofNat 93 :: rest) := by
        simp [encode]
      rw [he]
      rw [h1] at hp ⊢
      rw [List.cons_append] at hp ⊢
      rw [parseValue_array f (Char.ofNat 91) c _ rfl ⟨by omega, by omega⟩, hp]
      rfl
  | Json.obj kvs, hc, fuel, rest, hfuel, _ => by
    obtain ⟨f, rfl⟩ : ∃ f, fuel = f + 1 := ⟨fuel - 1, by omega⟩
    have ih := parseFields_encode kvs
    have hck : SortedKeys kvs ∧ CanonicalFields kvs := hc
    cases kvs with
    | nil => exact parseValue_object_nil f (Char.ofNat 123) (Char.ofNat 125) rest rfl rfl
    | cons e es =>
      obtain ⟨k, v⟩ := e
      have hl : (encode (Json.obj ((k, v) :: es))).length =
          (encodeFields ((k, v) :: es)).length + 2 := by
        simp [encode]
      have hp := ih (by simp) hck.2 f rest (by omega)
      have he : encode (Json.obj ((k, v) :: es)) ++ rest =
          Char.ofNat 123 :: (encodeFields ((k, v) :: es) ++ Char.ofNat 125 :: rest) := by
        simp [encode]
      have hh : ∃ tl, encodeFields ((k, v) :: es) = Char.ofNat 34 :: tl := by
        cases es with
        | nil => exact ⟨_, encodeFields_single k v⟩
        | cons e2 es2 => exact ⟨_, encodeFields_cons k v e2 es2⟩
      obtain ⟨tl, h1⟩ := hh
      rw [he]
      rw [h1] at hp ⊢
      rw [List.cons_append] at hp ⊢
      rw [parseValue_object f (Char.ofNat 123) (Char.ofNat 34) _ rfl ⟨by decide, by decide⟩, hp]
      simp only [Option.map_some']
      rw [mapLit_sorted _ hck.1]
  | Json.unsupported, hc, _, _, _, _ => absurd hc (by simp [Canonical])

/-- The elements of a slice are read back up to the closing bracket. -/
theorem parseElems_encode : (xs : List Json) → xs ≠ [] → CanonicalElems xs →
    ∀ (fuel : Nat) (rest : List Char), (encodeElems xs).length + 2 ≤ fuel →
      parseElems fuel (encodeElems xs ++ Char.ofNat 93 :: rest) = some (xs, rest)
  | [], h, _, _, _, _ => absurd rfl h
  | v :: vs, _, hc, fuel, rest, hfuel => by
    obtain ⟨f, rfl⟩ : ∃ f, fuel = f + 1 := ⟨fuel - 1, by omega⟩
    have hcv : Canonical v ∧ CanonicalElems vs := hc
    have ihv := parseValue_encode v hcv.1
    have ihs := parseElems_encode vs
    obtain ⟨c, tl, h1, _⟩ := encode_head v hcv.1
    have hpos : 1 ≤ (encode v).length := by rw [h1]; simp
    cases vs with
    | nil =>
      rw [encodeElems_single] at hfuel ⊢
      have hv := ihv f (Char.ofNat 93 :: rest) (by omega) (endsNumber_cons _ _ (Or.inr (Or.inl rfl)))
      exact parseElems_close f _ v _ rest hv rfl
    | cons w ws =>
      rw [encodeElems_cons] at hfuel ⊢
      rw [List.length_append, List.length_cons] at hfuel
      have hv := ihv f (Char.ofNat 44 :: (encodeElems (w :: ws) ++ Char.ofNat 93 :: rest))
        (by omega) (endsNumber_cons _ _ (Or.inl rfl))
      rw [List.append_assoc, List.cons_append, parseElems_comma f _ v _ _ hv rfl,
        ihs (by simp) hcv.2 f rest (by omega)]
      rfl

/-- The entries of a map are read back up to the closing brace. -/
theorem parseFields_encode : (kvs : List (String × Json)) → kvs ≠ [] → CanonicalFields kvs →
    ∀ (fuel : Nat) (rest : List Char), (encodeFields kvs).length + 2 ≤ fuel →
      parseFields fuel (encodeFields kvs ++ Char.ofNat 125 :: rest) = some (kvs, rest)
  | [], h, _, _, _, _ => absurd rfl h
  | (k, v) :: es, _, hc, fuel, rest, hfuel => by
    obtain ⟨f, rfl⟩ : ∃ f, fuel = f + 1 := ⟨fuel - 1, by omega⟩
    have hcv : validUTF8 k = true ∧ Canonical v ∧ CanonicalFields es := hc
    have ihv := parseValue_encode v hcv.2.1
    have ihs := parseFields_encode es
    obtain ⟨c, tl, h1, _⟩ := encode_head v hcv.2.1
    have hpos : 1 ≤ (encode v).length := by rw [h1]; simp
    cases es with
    | nil =>
      rw [encodeFields_single] at hfuel ⊢
      simp only [List.length_cons, List.length_append] at hfuel
      have hk := parseStringBody_appendStringLoop k.length k.data hcv.1 (f + 1)
        (Char.ofNat 58 :: (encode v ++ Char.ofNat 125 :: rest)) (by omega)
      have hv := ihv f (Char.ofNat 125 :: rest) (by omega)
        (endsNumber_cons _ _ (Or.inr (Or.inr rfl)))
      have hgoal := parseFields_close f (Char.ofNat 34) _ k.data (Char.ofNat 58) _ v
        (Char.ofNat 125) rest rfl hk rfl hv rfl
      simpa using hgoal
    | cons e2 es2 =>
      rw [encodeFields_cons] at hfuel ⊢
      simp only [List.length_cons, List.length_append] at hfuel
      have hk := parseStringBody_appendStringLoop k.length k.data hcv.1 (f + 1)
        (Char.ofNat 58 :: (encode v ++ Char.ofNat 44 ::
          (encodeFields (e2 :: es2) ++ Char.ofNat 125 :: rest))) (by omega)
      have hv := ihv f (Char.ofNat 44 :: (encodeFields (e2 :: es2) ++ Char.ofNat 125 :: rest))
        (by omega) (endsNumber_cons _ _ (Or.inl rfl))
      have hgoal := parseFields_comma f (Char.ofNat 34) _ k.data (Char.ofNat 58) _ v
        (Char.ofNat 44) _ rfl hk rfl hv rfl
      rw [ihs (by simp) hcv.2.2 f rest (by omega)] at hgoal
      simpa using hgoal
end

/-! ## The text of `json.Marshal` and its bytes -/

theorem joinComma_single (p : String) : joinComma [p] = p := rfl

theorem joinComma_cons (p q : String) (ps : List String) :
    joinComma (p :: q :: ps) = p ++ "," ++ joinComma (q :: ps) := rfl

mutual
/-- The text that `json.Marshal` returns for a canonical value has the bytes `encode`. -/
theorem marshal_eq_encode : (v : Json) → Canonical v →
    marshal v = some (String.mk (encode v))
  | Json.str s, _ => rfl
  | Json.int n, _ => rfl
  | Json.arr xs, hc => by
    obtain ⟨ps, hps, hj, _⟩ := marshalElems_eq_encode xs hc
    simp only [marshal, hps, Option.map_some', Option.some.injEq]
    apply String.ext
    simp only [String.data_append, hj, encode]
    rfl
  | Json.obj kvs, hc => by
    have hck : SortedKeys kvs ∧ CanonicalFields kvs := hc
    obtain ⟨ps, hps, hj, _⟩ := marshalFields_eq_encode kvs hck.2
    simp only [marshal, hps, Option.map_some', Option.some.injEq]
    apply String.ext
    simp only [String.data_append, hj, encode]
    rfl
  | Json.unsupported, hc => absurd hc (by simp [Canonical])

/-- The texts of the elements of a slice, joined by commas. -/
theorem marshalElems_eq_encode : (xs : List Json) → CanonicalElems xs →
    ∃ ps, marshalElems xs = some ps ∧ (joinComma ps).data = encodeElems xs ∧
      ps.length = xs.length
  | [], _ => ⟨[], rfl, rfl, rfl⟩
  | v :: vs, hc => by
    have hcv : Canonical v ∧ CanonicalElems vs := hc
    have hv := marshal_eq_encode v hcv.1
    obtain ⟨ps, hps, hj, hl⟩ := marshalElems_eq_encode vs hcv.2
    refine ⟨String.mk (encode v) :: ps, ?_, ?_, by simp [hl]⟩
    · simp only [marshalElems, hv, hps]
    · cases vs with
      | nil =>
        have : ps = [] := List.length_eq_zero.1 hl
        subst this
        rw [joinComma_single, encodeElems_single]
      | cons w ws =>
        obtain ⟨q, qs, hq⟩ : ∃ q qs, ps = q :: qs := by
          cases ps with
          | nil => simp at hl
          | cons q qs => exact ⟨q, qs, rfl⟩
        subst hq
        rw [joinComma_cons, encodeElems_cons]
        simp only [String.data_append, hj, List.append_assoc]
        rfl

/-- The texts of the entries of a map, joined by commas. -/
theorem marshalFields_eq_encode : (kvs : List (String × Json)) → CanonicalFields kvs →
    ∃ ps, marshalFields kvs = some ps ∧ (joinComma ps).data = encodeFields kvs ∧
      ps.length = kvs.length
  | [], _ => ⟨[], rfl, rfl, rfl⟩
  | (k, v) :: es, hc => by
    have hcv : validUTF8 k = true ∧ Canonical v ∧ CanonicalFields es := hc
    have hv := marshal_eq_encode v hcv.2.1
    obtain ⟨ps, hps, hj, hl⟩ := marshalFields_eq_encode es hcv.2.2
    refine ⟨(quoteString k ++ ":" ++ String.mk (encode v)) :: ps, ?_, ?_, by simp [hl]⟩
    · simp only [marshalFields, hv, hps]
    · cases es with
      | nil =>
        have : ps = [] := List.length_eq_zero.1 hl
        subst this
        rw [joinComma_single, encodeFields_single]
        simp only [String.data_append, quoteString]
        simp
      | cons e2 es2 =>
        obtain ⟨q, qs, hq⟩ : ∃ q qs, ps = q :: qs := by
          cases ps with
          | nil => simp at hl
          | cons q qs => exact ⟨q, qs, rfl⟩
        subst hq
        rw [joinComma_cons, encodeFields_cons]
        simp only [String.data_append, hj, quoteString]
        simp
end

/-- A canonical value is what `json.Unmarshal` reads from the text that `json.Marshal`
wrote for it. -/
theorem unmarshal_marshal (v : Json) (hc : Canonical v) :
    ∃ text, marshal v = some text ∧ unmarshal text = some v := by
  refine ⟨String.mk (encode v), marshal_eq_encode v hc, ?_⟩
  have hp := parseValue_encode v hc ((encode v).length + 1) [] (le_refl _) endsNumber_nil
  rw [List.append_nil] at hp
  simp only [unmarshal, String.length, hp]
  rfl

/-! ## The assembled document is canonical -/

theorem validLoop_ascii (fuel : Nat) :
    ∀ l : List Char, l.length ≤ fuel → (∀ c ∈ l, c.toNat < 128) → validLoop fuel l = true := by
  induction fuel with
  | zero =>
    intro l hl _
    have : l = [] := List.length_eq_zero.1 (by omega)
    subst this
    rfl
  | succ fuel ih =>
    intro l hl ha
    cases l with
    | nil => rfl
    | cons c r =>
      have hc : c.toNat < 128 := ha c (by simp)
      have hd : decodeRune (c :: r) = (c.toNat, 1) := by simp [decodeRune, hc]
      have hne : ¬ c.toNat = RuneError := by
        unfold RuneError
        omega
      have hr := ih r (by simpa using hl) (fun d hd => ha d (List.mem_cons_of_mem _ hd))
      simp [validLoop, hd, hne, hr]

theorem validUTF8_of_ascii (s : String) (h : Ascii s) : validUTF8 s = true :=
  validLoop_ascii s.length s.data (le_refl _) h

theorem ascii_append (a b : String) (ha : Ascii a) (hb : Ascii b) : Ascii (a ++ b) := by
  intro c hc
  rw [String.data_append] at hc
  rcases List.mem_append.1 hc with h | h
  · exact ha c h
  · exact hb c h

theorem ascii_appendInt (x : Int) (w : Nat) : Ascii (appendInt x w) := by
  obtain ⟨X, hX, hall, _⟩ := toDigitsCore_spec (x.natAbs + 1) x.natAbs [] (by omega)
  have hT : Nat.toDigits 10 x.natAbs = X := by
    unfold Nat.toDigits
    rw [hX, List.append_nil]
  have hbody : ∀ c ∈ List.replicate (w - X.length) '0' ++ X, c.toNat < 128 := by
    intro c hc
    rcases List.mem_append.1 hc with h | h
    · rw [(List.mem_replicate.1 h).2]
      decide
    · have := hall c h
      omega
  intro c hc
  unfold appendInt at hc
  simp only [hT] at hc
  split_ifs at hc
  · rcases List.mem_cons.1 hc with h | h
    · rw [h]
      decide
    · exact hbody c h
  · exact hbody c hc

theorem ascii_formatRFC3339 (t : Time) : Ascii (formatRFC3339 t) := by
  unfold formatRFC3339
  simp only []
  have hlit : ∀ s : String, s = "-" ∨ s = "T" ∨ s = ":" ∨ s = "Z" ∨ s = "+" → Ascii s := by
    intro s hs
    rcases hs with h | h | h | h | h <;> subst h <;> intro c hc <;> simp at hc <;>
      subst hc <;> decide
  have hzone : Ascii (if t.offset = 0 then "Z"
      else (if Int.tdiv t.offset 60 < 0 then "-" else "+") ++
        appendInt (((Int.tdiv t.offset 60).natAbs / 60 : Nat) : Int) 2 ++ ":" ++
          appendInt (((Int.tdiv t.offset 60).natAbs % 60 : Nat) : Int) 2) := by
    split_ifs
    · exact hlit _ (by simp)
    · exact ascii_append _ _ (ascii_append _ _ (ascii_append _ _ (hlit _ (by simp))
        (ascii_appendInt _ _)) (hlit _ (by simp))) (ascii_appendInt _ _)
    · exact ascii_append _ _ (ascii_append _ _ (ascii_append _ _ (hlit _ (by simp))
        (ascii_appendInt _ _)) (hlit _ (by simp))) (ascii_appendInt _ _)
  refine ascii_append _ _ (ascii_append _ _ (ascii_append _ _ ?_ (hlit _ (by simp))) ?_) hzone
  · exact ascii_append _ _ (ascii_append _ _ (ascii_append _ _ (ascii_append _ _
      (ascii_appendInt _ _) (hlit _ (by simp))) (ascii_appendInt _ _)) (hlit _ (by simp)))
      (ascii_appendInt _ _)
  · exact ascii_append _ _ (ascii_append _ _ (ascii_append _ _ (ascii_append _ _
      (ascii_appendInt _ _) (hlit _ (by simp))) (ascii_appendInt _ _)) (hlit _ (by simp)))
      (ascii_appendInt _ _)

theorem sortedKeys_single (k : String) (v : Json) : SortedKeys [(k, v)] := by
  simp [SortedKeys, mapKeys]

theorem canonicalFields_mapSet (k : String) (v : Json) (m : Fields)
    (hk : validUTF8 k = true) (hv : Canonical v) (hm : CanonicalFields m) :
    CanonicalFields (mapSet k v m) := by
  induction m with
  | nil => exact ⟨hk, hv, trivial⟩
  | cons e rest ih =>
    obtain ⟨k0, v0⟩ := e
    have h0 : validUTF8 k0 = true ∧ Canonical v0 ∧ CanonicalFields rest := hm
    by_cases h1 : k = k0
    · simp only [mapSet, h1, if_true]
      exact ⟨h0.1, hv, h0.2.2⟩
    · by_cases h3 : keyLt k k0 = true
      · simp only [mapSet, h1, h3, if_true, if_false]
        exact ⟨hk, hv, hm⟩
      · simp only [mapSet, h1, h3, if_false]
        exact ⟨h0.1, h0.2.1, ih h0.2.2⟩

theorem canonical_dateRangeClause (dr : DataRange) : Canonical (dateRangeClause dr) := by
  have h1 : validUTF8 "range" = true := by decide
  have h2 : validUTF8 "@timestamp" = true := by decide
  have h3 : validUTF8 "gte" = true := by decide
  have h4 : validUTF8 "lte" = true := by decide
  have h5 : ("gte" : String) < "lte" := (keyLt_iff _ _).1 (by decide)
  have hf := validUTF8_of_ascii _ (ascii_formatRFC3339 dr.From)
  have ht := validUTF8_of_ascii _ (ascii_formatRFC3339 dr.To)
  refine ⟨sortedKeys_single _ _, h1, ⟨sortedKeys_single _ _, h2, ⟨?_, h3, hf, h4, ht, trivial⟩,
    trivial⟩, trivial⟩
  simp only [SortedKeys, mapKeys, List.map_cons, List.map_nil]
  exact List.pairwise_pair.2 h5

theorem canonical_convertFilter (f : Filter) (c : Fields) (h : convertFilter f = some c)
    (hfield : validUTF8 f.Field = true) (hvalue : validUTF8 f.Value = true) :
    Canonical (Json.obj c) := by
  have h1 : validUTF8 "match" = true := by decide
  have h2 : validUTF8 "bool" = true := by decide
  have h3 : validUTF8 "must_not" = true := by decide
  have h4 : validUTF8 "range" = true := by decide
  have h5 : validUTF8 "gt" = true := by decide
  have h6 : validUTF8 "lt" = true := by decide
  have h7 : validUTF8 "gte" = true := by decide
  have h8 : validUTF8 "lte" = true := by decide
  have hleaf : Canonical (Json.str f.Value) := hvalue
  unfold convertFilter at h
  split_ifs at h <;> injection h with h <;> subst h
  · exact ⟨sortedKeys_single _ _, h1, ⟨sortedKeys_single _ _, hfield, hleaf, trivial⟩, trivial⟩
  · exact ⟨sortedKeys_single _ _, h2, ⟨sortedKeys_single _ _, h3,
      ⟨sortedKeys_single _ _, h1, ⟨sortedKeys_single _ _, hfield, hleaf, trivial⟩, trivial⟩,
      trivial⟩, trivial⟩
  · exact ⟨sortedKeys_single _ _, h4, ⟨sortedKeys_single _ _, hfield,
      ⟨sortedKeys_single _ _, h5, hleaf, trivial⟩, trivial⟩, trivial⟩
  · exact ⟨sortedKeys_single _ _, h4, ⟨sortedKeys_single _ _, hfield,
      ⟨sortedKeys_single _ _, h6, hleaf, trivial⟩, trivial⟩, trivial⟩
  · exact ⟨sortedKeys_single _ _, h4, ⟨sortedKeys_single _ _, hfield,
      ⟨sortedKeys_single _ _, h7, hleaf, trivial⟩, trivial⟩, trivial⟩
  · exact ⟨sortedKeys_single _ _, h4, ⟨sortedKeys_single _ _, hfield,
      ⟨sortedKeys_single _ _, h8, hleaf, trivial⟩, trivial⟩, trivial⟩

theorem canonical_convertAggregation (a : Aggregation) (c : Fields)
    (h : convertAggregation a = some c) (hfield : validUTF8 a.Field = true)
    (hsize : a.Typ = "terms" → roundFloat64 a.Size = some a.Size) :
    Canonical (Json.obj c) := by
  have h1 : validUTF8 "terms" = true := by decide
  have h2 : validUTF8 "sum" = true := by decide
  have h3 : validUTF8 "avg" = true := by decide
  have h4 : validUTF8 "field" = true := by decide
  have h5 : validUTF8 "size" = true := by decide
  have h6 : ("field" : String) < "size" := (keyLt_iff _ _).1 (by decide)
  have hleaf : Canonical (Json.str a.Field) := hfield
  unfold convertAggregation at h
  split_ifs at h with ht <;> injection h with h <;> subst h
  · have hnum : Canonical (Json.int a.Size) := hsize ht
    refine ⟨sortedKeys_single _ _, h1, ⟨?_, h4, hleaf, h5, hnum, trivial⟩, trivial⟩
    show SortedKeys [("field", Json.str a.Field), ("size", Json.int a.Size)]
    simp only [SortedKeys, mapKeys, List.map_cons, List.map_nil]
    exact List.pairwise_pair.2 h6
  · exact ⟨sortedKeys_single _ _, h2, ⟨sortedKeys_single _ _, h4, hleaf, trivial⟩, trivial⟩
  · exact ⟨sortedKeys_single _ _, h3, ⟨sortedKeys_single _ _, h4, hleaf, trivial⟩, trivial⟩

theorem canonicalElems_filters (fs : List Filter)
    (hv : ∀ f ∈ fs, f.Operator ∈ ["=", "!=", ">", "<", ">=", "<="] →
      validUTF8 f.Field = true ∧ validUTF8 f.Value = true) :
    CanonicalElems ((fs.filterMap convertFilter).map Json.obj) := by
  induction fs with
  | nil => trivial
  | cons f rest ih =>
    have ih2 := ih (fun g hg => hv g (List.mem_cons_of_mem _ hg))
    cases h : convertFilter f with
    | none => simpa [List.filterMap_cons, h] using ih2
    | some c =>
      have hop := (convertFilter_isSome_iff f).1 (by simp [h])
      have hval := hv f (by simp) hop
      rw [List.filterMap_cons, h]
      exact ⟨canonical_convertFilter f c h hval.1 hval.2, ih2⟩

theorem canonicalFields_collectAggs (as : List Aggregation)
    (hv : ∀ a ∈ as, a.Typ ∈ ["terms", "sum", "avg"] → validUTF8 a.Field = true)
    (hs : ∀ a ∈ as, a.Typ = "terms" → roundFloat64 a.Size = some a.Size) :
    CanonicalFields (collectAggs as) := by
  induction as using List.reverseRecOn with
  | nil => trivial
  | append_singleton l a ih =>
    have ih2 := ih (fun b hb => hv b (List.mem_append_left _ hb))
      (fun b hb => hs b (List.mem_append_left _ hb))
    rw [collectAggs_append]
    cases h : convertAggregation a with
    | none => exact ih2
    | some c =>
      have hop := (convertAggregation_isSome_iff a).1 (by simp [h])
      have hval := hv a (by simp) hop
      exact canonicalFields_mapSet _ _ _ hval
        (canonical_convertAggregation a c h hval (hs a (by simp))) ih2

/-- The document that `ToElastic` assembles is canonical when the strings that enter it are
valid UTF-8 and the numbers that enter it are values of a `float64`. -/
theorem canonical_buildDocument (q : SimpleQuery) (doc : Fields)
    (h : buildDocument q = some doc)
    (hf : ∀ f ∈ q.Filters, f.Operator ∈ ["=", "!=", ">", "<", ">=", "<="] →
      validUTF8 f.Field = true ∧ validUTF8 f.Value = true)
    (ha : ∀ a ∈ q.Aggregations, a.Typ ∈ ["terms", "sum", "avg"] →
      validUTF8 a.Field = true)
    (hs : ∀ a ∈ q.Aggregations, a.Typ = "terms" → roundFloat64 a.Size = some a.Size)
    (hlimit : roundFloat64 q.Limit = some q.Limit)
    (hoffset : roundFloat64 q.Offset = some q.Offset) :
    Canonical (Json.obj doc) := by
  rw [buildDocument_eq] at h
  injection h with h
  subst h
  have k1 : validUTF8 "aggs" = true := by decide
  have k2 : validUTF8 "from" = true := by decide
  have k3 : validUTF8 "query" = true := by decide
  have k4 : validUTF8 "size" = true := by decide
  have k5 : validUTF8 "bool" = true := by decide
  have k6 : validUTF8 "must" = true := by decide
  have o1 : ("aggs" : String) < "from" := (keyLt_iff _ _).1 (by decide)
  have o2 : ("aggs" : String) < "query" := (keyLt_iff _ _).1 (by decide)
  have o3 : ("aggs" : String) < "size" := (keyLt_iff _ _).1 (by decide)
  have o4 : ("from" : String) < "query" := (keyLt_iff _ _).1 (by decide)
  have o5 : ("from" : String) < "size" := (keyLt_iff _ _).1 (by decide)
  have o6 : ("query" : String) < "size" := (keyLt_iff _ _).1 (by decide)
  have hmust : Canonical (Json.arr (dateRangeClause q.DateRange ::
      (q.Filters.filterMap convertFilter).map Json.obj)) :=
    ⟨canonical_dateRangeClause q.DateRange, canonicalElems_filters q.Filters hf⟩
  have hquery : Canonical (Json.obj [("bool", Json.obj [("must",
      Json.arr (dateRangeClause q.DateRange ::
        (q.Filters.filterMap convertFilter).map Json.obj))])]) :=
    ⟨sortedKeys_single _ _, k5, ⟨sortedKeys_single _ _, k6, hmust, trivial⟩, trivial⟩
  have s3 : SortedKeys [("from", Json.int q.Offset),
      ("query", Json.obj [("bool", Json.obj [("must",
        Json.arr (dateRangeClause q.DateRange ::
          (q.Filters.filterMap convertFilter).map Json.obj))])]),
      ("size", Json.int q.Limit)] := by
    unfold SortedKeys mapKeys
    refine List.pairwise_cons.2 ⟨?_, List.pairwise_pair.2 o6⟩
    intro a ha
    simp only [List.map_cons, List.map_nil, List.mem_cons, List.mem_singleton,
      List.not_mem_nil, or_false] at ha
    rcases ha with h | h <;> subst h <;> assumption
  by_cases h2 : (collectAggs q.Aggregations).length > 0
  · simp only [h2, if_true]
    refine ⟨?_, k1, ⟨sortedKeys_collectAggs _, canonicalFields_collectAggs _ ha hs⟩, k2,
      hoffset, k3, hquery, k4, hlimit, trivial⟩
    simp only [List.cons_append, List.nil_append]
    unfold SortedKeys mapKeys
    refine List.pairwise_cons.2 ⟨?_, s3⟩
    intro a ha
    simp only [List.map_cons, List.map_nil, List.mem_cons, List.mem_singleton,
      List.not_mem_nil, or_false] at ha
    rcases ha with h | h | h <;> subst h <;> assumption
  · simp only [h2, if_false, List.nil_append]
    exact ⟨s3, k2, hoffset, k3, hquery, k4, hlimit, trivial⟩

/-- C14 (amended): when the field names and values of the filters with a supported operator
and the field names of the aggregations with a recognized type are valid UTF-8, and
`Limit`, `Offset` and the sizes of the terms aggregations are values of a `float64` (as
every integer up to 2^53 in size is), the text that `ToElastic` returns is a JSON text, and
decoding it with `json.Unmarshal` gives back exactly the document that `ToElastic`
assembled; quotes, backslashes and control characters in the strings are escaped and read
back. -/
theorem text_decodes_to_document (q : SimpleQuery)
    (hf : ∀ f ∈ q.Filters, f.Operator ∈ ["=", "!=", ">", "<", ">=", "<="] →
      validUTF8 f.Field = true ∧ validUTF8 f.Value = true)
    (ha : ∀ a ∈ q.Aggregations, a.Typ ∈ ["terms", "sum", "avg"] →
      validUTF8 a.Field = true)
    (hs : ∀ a ∈ q.Aggregations, a.Typ = "terms" → roundFloat64 a.Size = some a.Size)
    (hlimit : roundFloat64 q.Limit = some q.Limit)
    (hoffset : roundFloat64 q.Offset = some q.Offset) :
    ∃ doc text, buildDocument q = some doc ∧ marshal (Json.obj doc) = some text ∧
      ToElastic q = some text ∧ unmarshal text = some (Json.obj doc) := by
  obtain ⟨doc, hE, text, ht, hT⟩ := emits_buildDocument q
  obtain ⟨text2, hm, hu⟩ := unmarshal_marshal (Json.obj doc)
    (canonical_buildDocument q doc hE hf ha hs hlimit hoffset)
  rw [ht] at hm
  injection hm with hm
  subst hm
  exact ⟨doc, text, hE, ht, hT, hu⟩

set_option maxRecDepth 100000 in
/-- C14 (as stated) fails in two ways.  For the filter `f = v` whose value `v` is the one
byte 0xFF, no valid UTF-8, the text holds the escape of U+FFFD in its place, and decoding
gives the three bytes of U+FFFD and not the byte that `ToElastic` put into the document.
For the limit 2^53 + 1 the text holds that number, and decoding gives the nearest
`float64`, which is 2^53, and not the number that `ToElastic` put into the document. -/
theorem decoding_changes_invalid_utf8_and_large_numbers :
    (((ToElastic ⟨⟨⟨0, 0, 0⟩, ⟨0, 0, 0⟩⟩, [⟨"f", "=", String.mk [Char.ofNat 255]⟩], [], 10,
        0⟩).bind unmarshal).bind (fun v => asMap (some v))).bind mustOf =
      some [dateRangeClause ⟨⟨0, 0, 0⟩, ⟨0, 0, 0⟩⟩,
        Json.obj [("match", Json.obj [("f",
          Json.str (String.mk [Char.ofNat 239, Char.ofNat 191, Char.ofNat 189]))])]] ∧
    (buildDocument ⟨⟨⟨0, 0, 0⟩, ⟨0, 0, 0⟩⟩, [⟨"f", "=", String.mk [Char.ofNat 255]⟩], [], 10,
        0⟩).bind mustOf =
      some [dateRangeClause ⟨⟨0, 0, 0⟩, ⟨0, 0, 0⟩⟩,
        Json.obj [("match", Json.obj [("f", Json.str (String.mk [Char.ofNat 255]))])]] ∧
    String.mk [Char.ofNat 239, Char.ofNat 191, Char.ofNat 189] ≠ String.mk [Char.ofNat 255] ∧
    validUTF8 (String.mk [Char.ofNat 255]) = false ∧
    (((ToElastic ⟨⟨⟨0, 0, 0⟩, ⟨0, 0, 0⟩⟩, [], [], 9007199254740993, 0⟩).bind unmarshal).bind
        (fun v => asMap (some v))).bind (mapGet "size") =
      some (Json.int 9007199254740992) ∧
    (buildDocument ⟨⟨⟨0, 0, 0⟩, ⟨0, 0, 0⟩⟩, [], [], 9007199254740993, 0⟩).bind
        (mapGet "size") = some (Json.int 9007199254740993) ∧
    (9007199254740992 : Int) ≠ 9007199254740993 ∧
    roundFloat64 9007199254740993 = some 9007199254740992 := by
  refine ⟨by rfl, by rfl, by decide, by decide, by rfl, by rfl, by decide, by rfl⟩

/-- The amended C14 at a query whose filter value has a quote, a backslash, a line feed,
an angle bracket and the two bytes of U+00E9, with a terms aggregation of size 5. -/
theorem text_decodes_to_document_witness :
    ∃ doc text,
      buildDocument ⟨⟨⟨1672531200, 0, 0⟩, ⟨1672617600, 0, 0⟩⟩,
        [⟨"status", "=", String.mk [Char.ofNat 34, Char.ofNat 92, Char.ofNat 10, '<',
          Char.ofNat 195, Char.ofNat 169]⟩],
        [⟨"status", "terms", 5⟩], 10, 0⟩ = some doc ∧
      ToElastic ⟨⟨⟨1672531200, 0, 0⟩, ⟨1672617600, 0, 0⟩⟩,
        [⟨"status", "=", String.mk [Char.ofNat 34, Char.ofNat 92, Char.ofNat 10, '<',
          Char.ofNat 195, Char.ofNat 169]⟩],
        [⟨"status", "terms", 5⟩], 10, 0⟩ = some text ∧
      unmarshal text = some (Json.obj doc) := by
  obtain ⟨doc, text, h1, _, h3, h4⟩ := text_decodes_to_document
    ⟨⟨⟨1672531200, 0, 0⟩, ⟨1672617600, 0, 0⟩⟩,
      [⟨"status", "=", String.mk [Char.ofNat 34, Char.ofNat 92, Char.ofNat 10, '<',
        Char.ofNat 195, Char.ofNat 169]⟩],
      [⟨"status", "terms", 5⟩], 10, 0⟩
    (by decide) (by decide) (by decide) (by decide) (by decide)
  exact ⟨doc, text, h1, h3, h4⟩

/-! ## The text of a value inside the text of the value that holds it -/

theorem joinComma_contains (ps : List String) (p : String) (h : p ∈ ps) :
    ∃ pre post : List Char, (joinComma ps).data = pre ++ (p.data ++ post) := by
  induction ps with
  | nil => simp at h
  | cons q qs ih =>
    cases qs with
    | nil =>
      simp only [List.mem_singleton] at h
      subst h
      exact ⟨[], [], by simp [joinComma]⟩
    | cons r rs =>
      rcases List.mem_cons.1 h with h | h
      · subst h
        exact ⟨[], (",".data ++ (joinComma (r :: rs)).data), by
          simp [joinComma, String.data_append]⟩
      · obtain ⟨pre, post, hp⟩ := ih h
        exact ⟨q.data ++ ",".data ++ pre, post, by
          simp [joinComma, String.data_append, hp]⟩

theorem marshalElems_mem : ∀ (xs : List Json) (ps : List String),
    marshalElems xs = some ps → ∀ x ∈ xs, ∃ p, marshal x = some p ∧ p ∈ ps
  | [], _, _, x, hx => by simp at hx
  | v :: vs, ps, h, x, hx => by
    cases hv : marshal v with
    | none => simp [marshalElems, hv] at h
    | some s =>
      cases hvs : marshalElems vs with
      | none => simp [marshalElems, hv, hvs] at h
      | some ss =>
        simp only [marshalElems, hv, hvs, Option.some.injEq] at h
        subst h
        rcases List.mem_cons.1 hx with hx | hx
        · subst hx
          exact ⟨s, hv, by simp⟩
        · obtain ⟨p, hp, hmem⟩ := marshalElems_mem vs ss hvs x hx
          exact ⟨p, hp, List.mem_cons_of_mem _ hmem⟩

theorem marshalFields_mem : ∀ (kvs : List (String × Json)) (ps : List String),
    marshalFields kvs = some ps → ∀ k v, (k, v) ∈ kvs →
      ∃ tv, marshal v = some tv ∧ (quoteString k ++ ":" ++ tv) ∈ ps
  | [], _, _, k, v, hx => by simp at hx
  | (k0, v0) :: es, ps, h, k, v, hx => by
    cases hv : marshal v0 with
    | none => simp [marshalFields, hv] at h
    | some s =>
      cases hvs : marshalFields es with
      | none => simp [marshalFields, hv, hvs] at h
      | some ss =>
        simp only [marshalFields, hv, hvs, Option.some.injEq] at h
        subst h
        rcases List.mem_cons.1 hx with hx | hx
        · injection hx with h1 h2
          subst h1 h2
          exact ⟨s, hv, by simp⟩
        · obtain ⟨tv, hp, hmem⟩ := marshalFields_mem es ss hvs k v hx
          exact ⟨tv, hp, List.mem_cons_of_mem _ hmem⟩

/-- The text of a slice holds the text of each of its elements. -/
theorem marshal_arr_contains (xs : List Json) (T : String) (h : marshal (Json.arr xs) = some T)
    (x : Json) (hx : x ∈ xs) :
    ∃ (tx : String) (pre post : List Char), marshal x = some tx ∧
      T.data = pre ++ (tx.data ++ post) := by
  cases hps : marshalElems xs with
  | none => simp [marshal, hps] at h
  | some ps =>
    simp only [marshal, hps, Option.map_some', Option.some.injEq] at h
    subst h
    obtain ⟨p, hp, hmem⟩ := marshalElems_mem xs ps hps x hx
    obtain ⟨pre, post, hj⟩ := joinComma_contains ps p hmem
    exact ⟨p, "[".data ++ pre, post ++ "]".data, hp, by
      simp [String.data_append, hj]⟩

/-- The text of a map holds the text of each of its values. -/
theorem marshal_obj_contains (kvs : List (String × Json)) (T : String)
    (h : marshal (Json.obj kvs) = some T) (k : String) (v : Json) (hx : (k, v) ∈ kvs) :
    ∃ (tv : String) (pre post : List Char), marshal v = some tv ∧
      T.data = pre ++ (tv.data ++ post) := by
  cases hps : marshalFields kvs with
  | none => simp [marshal, hps] at h
  | some ps =>
    simp only [marshal, hps, Option.map_some', Option.some.injEq] at h
    subst h
    obtain ⟨tv, hp, hmem⟩ := marshalFields_mem kvs ps hps k v hx
    obtain ⟨pre, post, hj⟩ := joinComma_contains ps _ hmem
    exact ⟨tv, "\x7b".data ++ pre ++ (quoteString k).data ++ ":".data, post ++ "\x7d".data, hp,
      by simp [String.data_append, hj]⟩

theorem contains_trans (A B C p1 q1 p2 q2 : List Char) (h1 : A = p1 ++ (B ++ q1))
    (h2 : B = p2 ++ (C ++ q2)) : A = (p1 ++ p2) ++ (C ++ (q2 ++ q1)) := by
  rw [h1, h2]
  simp
mutual
/-- The text of a value holds the text of each scalar inside it. -/
theorem marshal_contains_scalar : (j : Json) → ∀ T : String, marshal j = some T →
    ∀ s ∈ scalars j, ∃ (ts : String) (pre post : List Char), marshal s = some ts ∧
      T.data = pre ++ (ts.data ++ post)
  | Json.str x, T, h, s, hs => by
    simp only [scalars, List.mem_singleton] at hs
    subst hs
    exact ⟨T, [], [], h, by simp⟩
  | Json.int n, T, h, s, hs => by
    simp only [scalars, List.mem_singleton] at hs
    subst hs
    exact ⟨T, [], [], h, by simp⟩
  | Json.unsupported, T, h, s, hs => by
    simp [marshal] at h
  | Json.arr xs, T, h, s, hs => by
    obtain ⟨x, hx, hrec⟩ := elems_contains_scalar xs s hs
    obtain ⟨tx, p1, q1, htx, h1⟩ := marshal_arr_contains xs T h x hx
    obtain ⟨ts, p2, q2, hts, h2⟩ := hrec tx htx
    exact ⟨ts, p1 ++ p2, q2 ++ q1, hts, contains_trans _ _ _ _ _ _ _ h1 h2⟩
  | Json.obj kvs, T, h, s, hs => by
    obtain ⟨k, v, hx, hrec⟩ := fields_contains_scalar kvs s hs
    obtain ⟨tv, p1, q1, htv, h1⟩ := marshal_obj_contains kvs T h k v hx
    obtain ⟨ts, p2, q2, hts, h2⟩ := hrec tv htv
    exact ⟨ts, p1 ++ p2, q2 ++ q1, hts, contains_trans _ _ _ _ _ _ _ h1 h2⟩

/-- A scalar inside a slice lies inside one of its elements. -/
theorem elems_contains_scalar : (xs : List Json) → ∀ s ∈ scalarsElems xs,
    ∃ x ∈ xs, ∀ T : String, marshal x = some T →
      ∃ (ts : String) (pre post : List Char), marshal s = some ts ∧
        T.data = pre ++ (ts.data ++ post)
  | [], s, hs => by simp [scalarsElems] at hs
  | v :: vs, s, hs => by
    simp only [scalarsElems, List.mem_append] at hs
    rcases hs with hs | hs
    · exact ⟨v, by simp, fun T hT => marshal_contains_scalar v T hT s hs⟩
    · obtain ⟨x, hx, hrec⟩ := elems_contains_scalar vs s hs
      exact ⟨x, List.mem_cons_of_mem _ hx, hrec⟩

/-- A scalar inside a map lies inside one of its values. -/
theorem fields_contains_scalar : (kvs : List (String × Json)) → ∀ s ∈ scalarsFields kvs,
    ∃ k v, (k, v) ∈ kvs ∧ ∀ T : String, marshal v = some T →
      ∃ (ts : String) (pre post : List Char), marshal s = some ts ∧
        T.data = pre ++ (ts.data ++ post)
  | [], s, hs => by simp [scalarsFields] at hs
  | (k, v) :: es, s, hs => by
    simp only [scalarsFields, List.mem_append] at hs
    rcases hs with hs | hs
    · exact ⟨k, v, by simp, fun T hT => marshal_contains_scalar v T hT s hs⟩
    · obtain ⟨k2, v2, hx, hrec⟩ := fields_contains_scalar es s hs
      exact ⟨k2, v2, List.mem_cons_of_mem _ hx, hrec⟩
end

/-- The text that `ToElastic` returns holds the text of every element of `must`. -/
theorem text_contains_clause (q : SimpleQuery) (doc : Fields) (text : String)
    (hdoc : buildDocument q = some doc) (ht : marshal (Json.obj doc) = some text)
    (must : List Json) (hmust : mustOf doc = some must) (c : Json) (hc : c ∈ must) :
    ∃ (ct : String) (pre post : List Char), marshal c = some ct ∧
      text.data = pre ++ (ct.data ++ post) := by
  have hm := mustOf_buildDocument q doc hdoc
  rw [hmust] at hm
  injection hm with hm
  have hq : (("query", Json.obj [("bool", Json.obj [("must", Json.arr must)])]) :
      String × Json) ∈ doc := by
    rw [buildDocument_eq] at hdoc
    injection hdoc with hdoc
    rw [← hdoc, hm]
    simp
  obtain ⟨t1, p1, q1, h1, e1⟩ := marshal_obj_contains doc text ht _ _ hq
  obtain ⟨t2, p2, q2, h2, e2⟩ := marshal_obj_contains _ t1 h1 "bool"
    (Json.obj [("must", Json.arr must)]) (by simp)
  obtain ⟨t3, p3, q3, h3, e3⟩ := marshal_obj_contains _ t2 h2 "must" (Json.arr must) (by simp)
  obtain ⟨ct, p4, q4, h4, e4⟩ := marshal_arr_contains must t3 h3 c hc
  have e12 := contains_trans _ _ _ _ _ _ _ e1 e2
  have e123 := contains_trans _ _ _ _ _ _ _ e12 e3
  have e1234 := contains_trans _ _ _ _ _ _ _ e123 e4
  exact ⟨ct, _, _, h4, e1234⟩

/-! ## Filter values stay strings -/

/-- C13 (amended): for each of the six operators and every value `v` that is valid UTF-8,
the clause of `convertFilter` holds `v` as its one scalar, a string and no number;
`json.Marshal` writes it as a string literal that `json.Unmarshal` reads as the string `v`
again; and for every query with that filter the clause is an element of `must`, the text
that `ToElastic` returns holds the text of the clause, and that holds the literal. -/
theorem filter_value_is_string (f op v : String)
    (hop : op ∈ ["=", "!=", ">", "<", ">=", "<="]) (hv : validUTF8 v = true) :
    ∃ c, convertFilter ⟨f, op, v⟩ = some c ∧ scalars (Json.obj c) = [Json.str v] ∧
      marshal (Json.str v) = some (quoteString v) ∧
      unmarshal (quoteString v) = some (Json.str v) ∧
      ∀ q : SimpleQuery, (⟨f, op, v⟩ : Filter) ∈ q.Filters →
        ∃ (doc : Fields) (must : List Json) (text ctext : String)
          (pre post pre2 post2 : List Char),
          Emits q doc ∧ mustOf doc = some must ∧ Json.obj c ∈ must ∧
          ToElastic q = some text ∧ marshal (Json.obj c) = some ctext ∧
          text.data = pre ++ (ctext.data ++ post) ∧
          ctext.data = pre2 ++ ((quoteString v).data ++ post2) := by
  have hc : ∃ c, convertFilter ⟨f, op, v⟩ = some c ∧ scalars (Json.obj c) = [Json.str v] := by
    simp only [List.mem_cons, List.mem_singleton, List.mem_nil_iff, or_false] at hop
    rcases hop with h | h | h | h | h | h <;> subst h <;> exact ⟨_, rfl, rfl⟩
  obtain ⟨c, hc1, hc2⟩ := hc
  have hdec : unmarshal (quoteString v) = some (Json.str v) := by
    obtain ⟨t, ht, hu⟩ := unmarshal_marshal (Json.str v) hv
    have ht2 : marshal (Json.str v) = some (quoteString v) := rfl
    rw [ht2] at ht
    injection ht with ht
    rw [ht]
    exact hu
  refine ⟨c, hc1, hc2, rfl, hdec, ?_⟩
  intro q hq
  obtain ⟨doc, hE, text, ht, hT⟩ := emits_buildDocument q
  have hmust := mustOf_buildDocument q doc hE
  have hmem : Json.obj c ∈ dateRangeClause q.DateRange ::
      (q.Filters.filterMap convertFilter).map Json.obj := by
    apply List.mem_cons_of_mem
    exact List.mem_map.2 ⟨c, List.mem_filterMap.2 ⟨_, hq, hc1⟩, rfl⟩
  obtain ⟨ctext, pre, post, hct, h1⟩ := text_contains_clause q doc text hE ht _ hmust _ hmem
  obtain ⟨ts, pre2, post2, hts, h2⟩ := marshal_contains_scalar (Json.obj c) ctext hct
    (Json.str v) (by rw [hc2]; simp)
  have hts2 : marshal (Json.str v) = some (quoteString v) := rfl
  rw [hts2] at hts
  injection hts with hts
  subst hts
  exact ⟨doc, _, text, ctext, pre, post, pre2, post2, ⟨hE, text, ht, hT⟩, hmust, hmem, hT,
    hct, h1, h2⟩

set_option maxRecDepth 100000 in
/-- C13 (as stated) fails for a value that is no valid UTF-8: for the filter `f > v` whose
value `v` is the one byte 0xFF the clause holds `v`, but the text that `ToElastic` returns
holds the literal `"\ufffd"` at its place, which is read as the three bytes of U+FFFD and
not as `v`. -/
theorem invalid_utf8_filter_value_is_not_kept :
    convertFilter ⟨"f", ">", String.mk [Char.ofNat 255]⟩ =
      some [("range", Json.obj [("f", Json.obj [("gt",
        Json.str (String.mk [Char.ofNat 255]))])])] ∧
    ToElastic ⟨⟨⟨0, 0, 0⟩, ⟨0, 0, 0⟩⟩, [⟨"f", ">", String.mk [Char.ofNat 255]⟩], [], 10, 0⟩ =
      some ("\x7b\"from\":0,\"query\":\x7b\"bool\":\x7b\"must\":[\x7b\"range\":" ++
        "\x7b\"@timestamp\":\x7b\"gte\":\"1970-01-01T00:00:00Z\"," ++
        "\"lte\":\"1970-01-01T00:00:00Z\"\x7d\x7d\x7d,\x7b\"range\":\x7b\"f\":" ++
        "\x7b\"gt\":\"\\ufffd\"\x7d\x7d\x7d]\x7d\x7d,\"size\":10\x7d") ∧
    marshal (Json.str (String.mk [Char.ofNat 255])) = some "\"\\ufffd\"" ∧
    unmarshal "\"\\ufffd\"" =
      some (Json.str (String.mk [Char.ofNat 239, Char.ofNat 191, Char.ofNat 189])) ∧
    String.mk [Char.ofNat 239, Char.ofNat 191, Char.ofNat 189] ≠ String.mk [Char.ofNat 255] ∧
    validUTF8 (String.mk [Char.ofNat 255]) = false := by
  refine ⟨by rfl, by rfl, by rfl, by rfl, by decide, by decide⟩

/-- The amended C13 for the filter `age > 25` of the test: the value is written as the
string literal `"25"`, which is read as the string `25`, and not as the number 25. -/
theorem filter_value_is_string_witness :
    validUTF8 "25" = true ∧
    convertFilter ⟨"age", ">", "25"⟩ =
      some [("range", Json.obj [("age", Json.obj [("gt", Json.str "25")])])] ∧
    marshal (Json.str "25") = some "\"25\"" ∧ unmarshal "\"25\"" = some (Json.str "25") ∧
    marshal (Json.int 25) = some "25" := by
  obtain ⟨c, hc, _, hm, hu, _⟩ := filter_value_is_string "age" ">" "25" (by decide)
    (by decide)
  have hq : quoteString "25" = "\"25\"" := by decide
  rw [hq] at hm hu
  exact ⟨by decide, rfl, hm, hu, by decide⟩

/-! ## The calendar: from a day number to a date and back -/

theorem isLeap_iff (y : Int) :
    isLeap y = true ↔ y % 4 = 0 ∧ (y % 100 ≠ 0 ∨ y % 400 = 0) := by
  simp [isLeap]

/-- The year that `absDate` finds and the day within it. -/
theorem absDate_year (d0 : Int) :
    ∃ a b c e yd : Int, 0 ≤ b ∧ b ≤ 3 ∧ 0 ≤ c ∧ c ≤ 24 ∧ 0 ≤ e ∧ e ≤ 3 ∧ 0 ≤ yd ∧
      (yd ≤ 364 ∨ (yd = 365 ∧ e = 3 ∧ (c ≠ 24 ∨ b = 3))) ∧
      d0 = 146097 * a + 36524 * b + 1461 * c + 365 * e + yd ∧
      absDate d0 = monthDayOf (400 * a + 100 * b + 4 * c + e + absoluteZeroYear) yd := by
  refine ⟨d0 / 146097,
    (d0 - 146097 * (d0 / 146097)) / 36524 - (d0 - 146097 * (d0 / 146097)) / 36524 / 4,
    (d0 - 146097 * (d0 / 146097) - 36524 * ((d0 - 146097 * (d0 / 146097)) / 36524 -
      (d0 - 146097 * (d0 / 146097)) / 36524 / 4)) / 1461,
    (d0 - 146097 * (d0 / 146097) - 36524 * ((d0 - 146097 * (d0 / 146097)) / 36524 -
      (d0 - 146097 * (d0 / 146097)) / 36524 / 4) -
      1461 * ((d0 - 146097 * (d0 / 146097) - 36524 * ((d0 - 146097 * (d0 / 146097)) / 36524 -
      (d0 - 146097 * (d0 / 146097)) / 36524 / 4)) / 1461)) / 365 -
      (d0 - 146097 * (d0 / 146097) - 36524 * ((d0 - 146097 * (d0 / 146097)) / 36524 -
      (d0 - 146097 * (d0 / 146097)) / 36524 / 4) -
      1461 * ((d0 - 146097 * (d0 / 146097) - 36524 * ((d0 - 146097 * (d0 / 146097)) / 36524 -
      (d0 - 146097 * (d0 / 146097)) / 36524 / 4)) / 1461)) / 365 / 4,
    _, ?_, ?_, ?_, ?_, ?_, ?_, ?_, ?_, ?_, rfl⟩
  all_goals omega

theorem monthDayOf_eq (year yd day : Int) (k : Nat)
    (hday : day = if (isLeap year && decide (yd > 59)) = true then yd - 1 else yd)
    (hnl : (isLeap year && yd == 59) = false) (hk : (day / 31).toNat = k) :
    monthDayOf year yd =
      if day ≥ daysBefore (k + 1) then (year, (k : Int) + 2, day - daysBefore (k + 1) + 1)
      else (year, (k : Int) + 1, day - daysBefore k + 1) := by
  unfold monthDayOf
  simp only [hnl, Bool.false_eq_true, if_false]
  rw [← hday, hk]

/-- A day `day` of a year without its leap day that lies in month `m`, and the day `yd` of
the year it stands for: the day of the month is within the month, and the days before the
month, the leap day and the day of the month give `yd` back. -/
theorem monthDay_back (year yd day : Int) (m : Nat) (hm : 1 ≤ m ∧ m ≤ 12)
    (hlo : daysBefore (m - 1) ≤ day) (hhi : day < daysBefore m)
    (hcase : (isLeap year = true ∧ yd > 59 ∧ day = yd - 1) ∨
      (isLeap year = true ∧ yd < 59 ∧ day = yd) ∨ (isLeap year = false ∧ day = yd)) :
    1 ≤ day - daysBefore (m - 1) + 1 ∧
    day - daysBefore (m - 1) + 1 ≤ daysIn m year ∧
    daysBefore (m - 1) + (if isLeap year = true ∧ 3 ≤ m then 1 else 0) +
      (day - daysBefore (m - 1) + 1 - 1) = yd := by
  obtain ⟨hm1, hm12⟩ := hm
  rcases hcase with ⟨hl, h1, h2⟩ | ⟨hl, h1, h2⟩ | ⟨hl, h2⟩
  · interval_cases m <;> simp only [daysBefore, daysIn, hl] at hlo hhi ⊢ <;>
      simp at hlo hhi ⊢ <;> omega
  · interval_cases m <;> simp only [daysBefore, daysIn, hl] at hlo hhi ⊢ <;>
      simp at hlo hhi ⊢ <;> omega
  · interval_cases m <;> simp only [daysBefore, daysIn, hl] at hlo hhi ⊢ <;>
      simp at hlo hhi ⊢ <;> omega

/-- Month and day of a day of the year: they lie within the calendar, and the days before
the month together with the day give the day of the year back. -/
theorem monthDayOf_spec (year yd : Int) (h0 : 0 ≤ yd)
    (h1 : yd ≤ 364 ∨ (yd = 365 ∧ isLeap year = true)) :
    ∃ (m : Nat) (dd : Int), monthDayOf year yd = (year, (m : Int), dd) ∧
      1 ≤ m ∧ m ≤ 12 ∧ 1 ≤ dd ∧ dd ≤ daysIn m year ∧
      daysBefore (m - 1) + (if isLeap year = true ∧ 3 ≤ m then 1 else 0) + (dd - 1) = yd := by
  by_cases h59 : isLeap year = true ∧ yd = 59
  · obtain ⟨hl, h59⟩ := h59
    subst h59
    refine ⟨2, 29, by simp [monthDayOf, hl], by omega, by omega, by omega, ?_, ?_⟩
    · simp [daysIn, hl]
    · simp [daysBefore, hl]
  · have hnl : (isLeap year && yd == 59) = false := by
      cases hl : isLeap year
      · rfl
      · simp only [Bool.true_and, beq_eq_false_iff_ne, ne_eq]
        exact fun h => h59 ⟨hl, h⟩
    obtain ⟨day, hday⟩ : ∃ day : Int,
        day = if (isLeap year && decide (yd > 59)) = true then yd - 1 else yd := ⟨_, rfl⟩
    have hrange : 0 ≤ day ∧ day ≤ 364 ∧
        ((isLeap year = true ∧ yd > 59 ∧ day = yd - 1) ∨
         (isLeap year = true ∧ yd < 59 ∧ day = yd) ∨
         (isLeap year = false ∧ day = yd)) := by
      cases hl : isLeap year
      · simp only [hl, Bool.false_and, Bool.false_eq_true, if_false] at hday
        rcases h1 with h1 | h1
        · exact ⟨by omega, by omega, Or.inr (Or.inr ⟨rfl, hday⟩)⟩
        · rw [hl] at h1
          exact absurd h1.2 (by simp)
      · by_cases hgt : yd > 59
        · simp only [hl, Bool.true_and, decide_eq_true_eq, hgt, if_true] at hday
          exact ⟨by omega, by omega, Or.inl ⟨rfl, hgt, hday⟩⟩
        · simp only [hl, Bool.true_and, decide_eq_true_eq, hgt, if_false] at hday
          have : yd ≠ 59 := fun h => h59 ⟨hl, h⟩
          exact ⟨by omega, by omega, Or.inr (Or.inl ⟨rfl, by omega, hday⟩)⟩
    obtain ⟨hd0, hd1, hcase⟩ := hrange
    obtain ⟨k, hk, hk11⟩ : ∃ k : Nat, (day / 31).toNat = k ∧ k ≤ 11 := ⟨_, rfl, by omega⟩
    have hkd : 31 * (k : Int) ≤ day ∧ day < 31 * (k : Int) + 31 := by omega
    rw [monthDayOf_eq year yd day k hday hnl hk]
    by_cases hge : day ≥ daysBefore (k + 1)
    · rw [if_pos hge]
      have hb : k ≤ 10 ∧ day < daysBefore (k + 2) := by
        interval_cases k <;> simp only [daysBefore] at hge ⊢ <;> omega
      have hfin := monthDay_back year yd day (k + 2) ⟨by omega, by omega⟩
        (by simpa using hge) hb.2 hcase
      refine ⟨k + 2, day - daysBefore (k + 1) + 1, ?_, by omega, by omega, ?_⟩
      · push_cast
        rfl
      · simpa using hfin
    · rw [if_neg hge]
      have hb : daysBefore k ≤ day := by
        interval_cases k <;> simp only [daysBefore] at hge ⊢ <;> omega
      have hfin := monthDay_back year yd day (k + 1) ⟨by omega, by omega⟩
        (by simpa using hb) (by omega) hcase
      refine ⟨k + 1, day - daysBefore k + 1, ?_, by omega, by omega, ?_⟩
      · push_cast
        rfl
      · simpa using hfin

theorem daysSinceEpoch_eq (a b c e : Int) (hb0 : 0 ≤ b) (hb : b ≤ 3) (hc0 : 0 ≤ c)
    (hc : c ≤ 24) (he0 : 0 ≤ e) (he : e ≤ 3) :
    daysSinceEpoch (400 * a + 100 * b + 4 * c + e + 1) =
      146097 * a + 36524 * b + 1461 * c + 365 * e := by
  unfold daysSinceEpoch
  simp only []
  omega

theorem isLeap_year_iff (a b c e : Int) (hb0 : 0 ≤ b) (hb : b ≤ 3) (hc0 : 0 ≤ c)
    (hc : c ≤ 24) (he0 : 0 ≤ e) (he : e ≤ 3) :
    isLeap (400 * a + 100 * b + 4 * c + e + 1) = true ↔ e = 3 ∧ (c ≠ 24 ∨ b = 3) := by
  rw [isLeap_iff]
  omega

/-- The date that `absDate` finds lies within the calendar, and the days before its year,
before its month and before its day add up to the day number, counted from 0001-01-01 (the
first day of `absoluteZeroYear` is the day 106751990353932 before it); the year is from 0 to
9999 for the day numbers from the first day of the year 0 to the last day of the year
9999. -/
theorem absDate_spec (d0 : Int) :
    ∃ (year : Int) (m : Nat) (dd : Int), absDate d0 = (year, (m : Int), dd) ∧
      1 ≤ m ∧ m ≤ 12 ∧ 1 ≤ dd ∧ dd ≤ daysIn m year ∧
      daysSinceEpoch year + daysBefore (m - 1) +
        (if isLeap year = true ∧ 3 ≤ m then 1 else 0) + (dd - 1) = d0 - 106751990353932 ∧
      (106751990353932 - 366 ≤ d0 → d0 < 106751990353932 + 3652059 →
        0 ≤ year ∧ year ≤ 9999) := by
  obtain ⟨a0, b, c, e, yd, hb0, hb, hc0, hc, he0, he, hyd0, hyd, hd0, habs0⟩ := absDate_year d0
  obtain ⟨a, ha⟩ : ∃ a : Int, a = a0 - 730692556 := ⟨_, rfl⟩
  have hy : 400 * a0 + 100 * b + 4 * c + e + absoluteZeroYear =
      400 * a + 100 * b + 4 * c + e + 1 := by
    unfold absoluteZeroYear
    omega
  have habs : absDate d0 = monthDayOf (400 * a + 100 * b + 4 * c + e + 1) yd := by
    rw [← hy]
    exact habs0
  have hd1 : d0 - 106751990353932 = 146097 * a + 36524 * b + 1461 * c + 365 * e + yd := by
    omega
  have hleap := isLeap_year_iff a b c e hb0 hb hc0 hc he0 he
  have hdays := daysSinceEpoch_eq a b c e hb0 hb hc0 hc he0 he
  obtain ⟨m, dd, hmd, hm1, hm12, hdd1, hdd, hsum⟩ :=
    monthDayOf_spec (400 * a + 100 * b + 4 * c + e + 1) yd hyd0
      (by
        rcases hyd with h | h
        · exact Or.inl h
        · exact Or.inr ⟨h.1, hleap.2 h.2⟩)
  refine ⟨_, m, dd, habs.trans hmd, hm1, hm12, hdd1, hdd, ?_, ?_⟩
  · rw [hdays]
    omega
  · intro h1 h2
    clear hsum hmd habs habs0 hy hdd hleap hdays hd0 ha
    have ha1 : -1 ≤ a := by omega
    have ha2 : a ≤ 24 := by omega
    constructor
    · by_cases ha : a = -1
      · subst ha
        have hb3 : b = 3 := by omega
        subst hb3
        have hc24 : c = 24 := by omega
        subst hc24
        omega
      · omega
    · by_cases ha : a = 24
      · subst ha
        by_cases hb3 : b = 3
        · subst hb3
          by_cases hc24 : c = 24
          · subst hc24
            omega
          · omega
        · omega
      · omega

/-! ## The digits that `appendInt` writes -/

theorem digitsValue_replicate_zero (k : Nat) (X : List Char) :
    digitsValue (List.replicate k '0' ++ X) = digitsValue X := by
  have h : ∀ k : Nat, List.foldl (fun a c => a * 10 + (c.toNat - 48)) 0
      (List.replicate k '0') = 0 := by
    intro k
    induction k with
    | zero => rfl
    | succ k ih =>
      rw [List.replicate_succ, List.foldl_cons]
      exact ih
  unfold digitsValue
  rw [List.foldl_append, h]

/-- The text of `appendInt`: a minus sign for a negative number, then digits, `width` of
them at least and exactly `width` when the number has no more, that denote the size of the
number. -/
theorem appendInt_data (x : Int) (w : Nat) :
    ∃ body : List Char,
      (appendInt x w).data = (if x < 0 then Char.ofNat 45 :: body else body) ∧
      (∀ c ∈ body, 48 ≤ c.toNat ∧ c.toNat ≤ 57) ∧ digitsValue body = x.natAbs ∧
      (x.natAbs < 10 ^ w → 0 < w → body.length = w) := by
  obtain ⟨X, hX, hall, hval, _⟩ := toDigitsCore_spec (x.natAbs + 1) x.natAbs [] (by omega)
  have hT : Nat.toDigits 10 x.natAbs = X := by
    unfold Nat.toDigits
    rw [hX, List.append_nil]
  refine ⟨List.replicate (w - X.length) '0' ++ X, ?_, ?_, ?_, ?_⟩
  · unfold appendInt
    simp only [hT]
  · intro c hc
    rcases List.mem_append.1 hc with h | h
    · rw [(List.mem_replicate.1 h).2]
      decide
    · exact hall c h
  · rw [digitsValue_replicate_zero, hval]
  · intro hlt hw
    have hlen := Nat.toDigitsCore_length 10 (by decide) (x.natAbs + 1) x.natAbs w hlt hw
    have hT2 : Nat.toDigitsCore 10 (x.natAbs + 1) x.natAbs [] = X := by
      rw [hX, List.append_nil]
    rw [hT2] at hlen
    rw [List.length_append, List.length_replicate]
    omega

/-- The text of `appendInt` for a number from 0 that has no more than `width` digits:
exactly `width` digits that denote it. -/
theorem appendInt_nat (n w : Nat) (h : n < 10 ^ w) (hw : 0 < w) :
    ∃ body : List Char, (appendInt (n : Int) w).data = body ∧ body.length = w ∧
      (∀ c ∈ body, 48 ≤ c.toNat ∧ c.toNat ≤ 57) ∧ digitsValue body = n := by
  obtain ⟨body, hd, hall, hval, hlen⟩ := appendInt_data (n : Int) w
  have hneg : ¬ ((n : Int) < 0) := by omega
  rw [if_neg hneg] at hd
  exact ⟨body, hd, hlen (by simpa using h) hw, hall, by simpa using hval⟩

/-- Two numbers with the same text are the same number. -/
theorem appendInt_inj (x y : Int) (w : Nat) (h : appendInt x w = appendInt y w) : x = y := by
  obtain ⟨bx, hx, hallx, hvx, _⟩ := appendInt_data x w
  obtain ⟨by1, hy, hally, hvy, _⟩ := appendInt_data y w
  rw [h, hy] at hx
  have hminus : ∀ b : List Char, (∀ c ∈ b, 48 ≤ c.toNat ∧ c.toNat ≤ 57) →
      Char.ofNat 45 ∉ b := by
    intro b hb hmem
    have := hb _ hmem
    revert this
    decide
  by_cases h1 : x < 0 <;> by_cases h2 : y < 0
  · rw [if_pos h1, if_pos h2] at hx
    have hb : by1 = bx := (List.cons.inj hx).2
    rw [hb, hvx] at hvy
    omega
  · rw [if_pos h1, if_neg h2] at hx
    exact absurd (by rw [hx]; simp) (hminus by1 hally)
  · rw [if_neg h1, if_pos h2] at hx
    exact absurd (by rw [← hx]; simp) (hminus bx hallx)
  · rw [if_neg h1, if_neg h2] at hx
    rw [hx, hvx] at hvy
    omega

theorem parseUint_digits (cs : List Char) (lo hi : Nat)
    (hall : ∀ c ∈ cs, 48 ≤ c.toNat ∧ c.toNat ≤ 57) (hlo : lo ≤ digitsValue cs)
    (hhi : digitsValue cs ≤ hi) : parseUint cs lo hi = some (digitsValue cs) := by
  have h : cs.all (fun c => decide (48 ≤ c.toNat ∧ c.toNat ≤ 57)) = true := by
    rw [List.all_eq_true]
    intro c hc
    exact decide_eq_true (hall c hc)
  unfold parseUint
  rw [if_pos h, if_pos ⟨hlo, hhi⟩]

/-! ## The text of a timestamp, piece by piece -/

theorem formatRFC3339_eq (t : Time) (year month day : Int)
    (h : absDate (t.abs / 86400) = (year, month, day)) :
    formatRFC3339 t =
      appendInt year 4 ++ "-" ++ appendInt month 2 ++ "-" ++ appendInt day 2 ++ "T" ++
        (appendInt (t.abs % 86400 / 3600) 2 ++ ":" ++
          appendInt (t.abs % 86400 % 3600 / 60) 2 ++ ":" ++
          appendInt (t.abs % 86400 % 60) 2) ++
        (if t.offset = 0 then "Z"
          else (if Int.tdiv t.offset 60 < 0 then "-" else "+") ++
            appendInt (((Int.tdiv t.offset 60).natAbs : Int) / 60) 2 ++ ":" ++
              appendInt (((Int.tdiv t.offset 60).natAbs : Int) % 60) 2) := by
  unfold formatRFC3339
  simp only [h]

theorem natAbs_tdiv_sixty (a : Int) : (Int.tdiv a 60).natAbs = a.natAbs / 60 := by
  rw [Int.natAbs_tdiv]
  rfl

theorem tdiv_sixty_neg_iff (a : Int) (h : a % 60 = 0) : Int.tdiv a 60 < 0 ↔ a < 0 := by
  by_cases h0 : 0 ≤ a
  · rw [Int.tdiv_eq_ediv h0 (by decide)]
    omega
  · have h1 : a = -(-a) := by omega
    rw [h1, Int.neg_tdiv, Int.tdiv_eq_ediv (by omega) (by decide)]
    omega

theorem appendInt_two (x : Int) (h0 : 0 ≤ x) (h : x < 100) :
    ∃ a b : Char, (appendInt x 2).data = [a, b] ∧ (48 ≤ a.toNat ∧ a.toNat ≤ 57) ∧
      (48 ≤ b.toNat ∧ b.toNat ≤ 57) ∧ ((digitsValue [a, b] : Nat) : Int) = x := by
  obtain ⟨n, hn⟩ : ∃ n : Nat, x = (n : Int) := ⟨x.toNat, (Int.toNat_of_nonneg h0).symm⟩
  subst hn
  obtain ⟨body, hd, hlen, hall, hval⟩ := appendInt_nat n 2 (by omega) (by decide)
  obtain ⟨a, b, hab⟩ := List.length_eq_two.1 hlen
  subst hab
  exact ⟨a, b, hd, hall a (by simp), hall b (by simp), by rw [hval]⟩

theorem appendInt_four (x : Int) (h0 : 0 ≤ x) (h : x < 10000) :
    ∃ a b c d : Char, (appendInt x 4).data = [a, b, c, d] ∧
      (∀ e ∈ [a, b, c, d], 48 ≤ e.toNat ∧ e.toNat ≤ 57) ∧
      ((digitsValue [a, b, c, d] : Nat) : Int) = x := by
  obtain ⟨n, hn⟩ : ∃ n : Nat, x = (n : Int) := ⟨x.toNat, (Int.toNat_of_nonneg h0).symm⟩
  subst hn
  obtain ⟨body, hd, hlen, hall, hval⟩ := appendInt_nat n 4 (by omega) (by decide)
  match body, hlen with
  | [a, b, c, d], _ => exact ⟨a, b, c, d, hd, hall, by rw [hval]⟩

theorem digitsValue_two (a b : Char) :
    digitsValue [a, b] = (a.toNat - 48) * 10 + (b.toNat - 48) := by
  simp [digitsValue]

theorem getnum_two (a b : Char) (rest : List Char) ( fixed : Bool)
    (ha : 48 ≤ a.toNat ∧ a.toNat ≤ 57) (hb : 48 ≤ b.toNat ∧ b.toNat ≤ 57) :
    getnum (a :: b :: rest) fixed = some (digitsValue [a, b], rest) := by
  rw [digitsValue_two]
  simp only [getnum, ha, hb, and_self, if_true]

theorem parseLongYear_four (a b c d : Char) (rest : List Char)
    (hall : ∀ e ∈ [a, b, c, d], 48 ≤ e.toNat ∧ e.toNat ≤ 57) :
    parseLongYear (a :: b :: c :: d :: rest) = some (digitsValue [a, b, c, d], rest) := by
  have h : [a, b, c, d].all (fun c => decide (48 ≤ c.toNat ∧ c.toNat ≤ 57)) = true := by
    rw [List.all_eq_true]
    intro e he
    exact decide_eq_true (hall e he)
  show (if ([a, b, c, d].all fun c => decide (48 ≤ c.toNat ∧ c.toNat ≤ 57)) = true then
      some (digitsValue [a, b, c, d], rest) else none) = _
  rw [if_pos h]

theorem skip_cons (b : Nat) (rest : List Char) (hb : b < 256) :
    Smpsearch.skip (Char.ofNat b :: rest) b = some rest := by
  have h : (Char.ofNat b).toNat = b := by
    interval_cases b <;> rfl
  simp only [Smpsearch.skip, h, if_true]

/-! ## The two parsers on a text of the fixed shape -/

/-- The result of `parseRFC3339` on a text whose date and clock have the fixed shape, with
digits at the places of the numbers and every number within its range. -/
theorem parseRFC3339_pieces (y1 y2 y3 y4 m1 m2 d1 d2 h1 h2 n1 n2 c1 c2 : Char)
    (rest : List Char)
    (hy : ∀ e ∈ [y1, y2, y3, y4], 48 ≤ e.toNat ∧ e.toNat ≤ 57)
    (hm : ∀ e ∈ [m1, m2], 48 ≤ e.toNat ∧ e.toNat ≤ 57)
    (hd : ∀ e ∈ [d1, d2], 48 ≤ e.toNat ∧ e.toNat ≤ 57)
    (hh : ∀ e ∈ [h1, h2], 48 ≤ e.toNat ∧ e.toNat ≤ 57)
    (hn : ∀ e ∈ [n1, n2], 48 ≤ e.toNat ∧ e.toNat ≤ 57)
    (hc : ∀ e ∈ [c1, c2], 48 ≤ e.toNat ∧ e.toNat ≤ 57)
    (hY : digitsValue [y1, y2, y3, y4] ≤ 9999)
    (hM : 1 ≤ digitsValue [m1, m2] ∧ digitsValue [m1, m2] ≤ 12)
    (hD : 1 ≤ digitsValue [d1, d2] ∧
      digitsValue [d1, d2] ≤ daysIn (digitsValue [m1, m2]) (digitsValue [y1, y2, y3, y4]))
    (hH : digitsValue [h1, h2] ≤ 23) (hN : digitsValue [n1, n2] ≤ 59)
    (hC : digitsValue [c1, c2] ≤ 59) :
    parseRFC3339 (String.mk (y1 :: y2 :: y3 :: y4 :: Char.ofNat 45 :: m1 :: m2 ::
        Char.ofNat 45 :: d1 :: d2 :: Char.ofNat 84 :: h1 :: h2 :: Char.ofNat 58 :: n1 :: n2 ::
        Char.ofNat 58 :: c1 :: c2 :: rest)) =
      match parseZone (parseFraction rest).2 with
      | some zoneOffset =>
        some ⟨dateUnix (digitsValue [y1, y2, y3, y4]) (digitsValue [m1, m2])
          (digitsValue [d1, d2]) (digitsValue [h1, h2]) (digitsValue [n1, n2])
          (digitsValue [c1, c2]) - zoneOffset, (parseFraction rest).1, zoneOffset⟩
      | none => none := by
  have e1 := parseUint_digits [y1, y2, y3, y4] 0 9999 hy (Nat.zero_le _) hY
  have e2 := parseUint_digits [m1, m2] 1 12 hm hM.1 hM.2
  have e3 := parseUint_digits [d1, d2] 1 _ hd hD.1 hD.2
  have e4 := parseUint_digits [h1, h2] 0 23 hh (Nat.zero_le _) hH
  have e5 := parseUint_digits [n1, n2] 0 59 hn (Nat.zero_le _) hN
  have e6 := parseUint_digits [c1, c2] 0 59 hc (Nat.zero_le _) hC
  have k1 : (Char.ofNat 45).toNat = 45 := rfl
  have k2 : (Char.ofNat 84).toNat = 84 := rfl
  have k3 : (Char.ofNat 58).toNat = 58 := rfl
  simp only [parseRFC3339, e1, e2, e3, e4, e5, e6, k1, k2, k3, and_self, if_true]
  try rfl

/-- The result of the general parser on such a text. -/
theorem parse_pieces (y1 y2 y3 y4 m1 m2 d1 d2 h1 h2 n1 n2 c1 c2 : Char)
    (rest : List Char)
    (hy : ∀ e ∈ [y1, y2, y3, y4], 48 ≤ e.toNat ∧ e.toNat ≤ 57)
    (hm : ∀ e ∈ [m1, m2], 48 ≤ e.toNat ∧ e.toNat ≤ 57)
    (hd : ∀ e ∈ [d1, d2], 48 ≤ e.toNat ∧ e.toNat ≤ 57)
    (hh : ∀ e ∈ [h1, h2], 48 ≤ e.toNat ∧ e.toNat ≤ 57)
    (hn : ∀ e ∈ [n1, n2], 48 ≤ e.toNat ∧ e.toNat ≤ 57)
    (hc : ∀ e ∈ [c1, c2], 48 ≤ e.toNat ∧ e.toNat ≤ 57)
    (hM : 1 ≤ digitsValue [m1, m2] ∧ digitsValue [m1, m2] ≤ 12)
    (hD : 1 ≤ digitsValue [d1, d2] ∧
      digitsValue [d1, d2] ≤ daysIn (digitsValue [m1, m2]) (digitsValue [y1, y2, y3, y4]))
    (hH : digitsValue [h1, h2] ≤ 23) (hN : digitsValue [n1, n2] ≤ 59)
    (hC : digitsValue [c1, c2] ≤ 59) :
    parse (String.mk (y1 :: y2 :: y3 :: y4 :: Char.ofNat 45 :: m1 :: m2 ::
        Char.ofNat 45 :: d1 :: d2 :: Char.ofNat 84 :: h1 :: h2 :: Char.ofNat 58 :: n1 :: n2 ::
        Char.ofNat 58 :: c1 :: c2 :: rest)) =
      match parseColonTZ (parseFractionGeneral rest).2 with
      | some (zoneOffset, v) =>
        if v.length ≠ 0 then none
        else some ⟨dateUnix (digitsValue [y1, y2, y3, y4]) (digitsValue [m1, m2])
          (digitsValue [d1, d2]) (digitsValue [h1, h2]) (digitsValue [n1, n2])
          (digitsValue [c1, c2]) - zoneOffset, (parseFractionGeneral rest).1, zoneOffset⟩
      | none => none := by
  have e1 := parseLongYear_four y1 y2 y3 y4 (Char.ofNat 45 :: m1 :: m2 ::
        Char.ofNat 45 :: d1 :: d2 :: Char.ofNat 84 :: h1 :: h2 :: Char.ofNat 58 :: n1 :: n2 ::
        Char.ofNat 58 :: c1 :: c2 :: rest) hy
  have e2 := fun r => getnum_two m1 m2 r true (hm m1 (by simp)) (hm m2 (by simp))
  have e3 := fun r => getnum_two d1 d2 r true (hd d1 (by simp)) (hd d2 (by simp))
  have e4 := fun r => getnum_two h1 h2 r false (hh h1 (by simp)) (hh h2 (by simp))
  have e5 := fun r => getnum_two n1 n2 r true (hn n1 (by simp)) (hn n2 (by simp))
  have e6 := fun r => getnum_two c1 c2 r true (hc c1 (by simp)) (hc c2 (by simp))
  have k1 := fun r => skip_cons 45 r (by decide)
  have k2 := fun r => skip_cons 84 r (by decide)
  have k3 := fun r => skip_cons 58 r (by decide)
  have g1 : ¬ (digitsValue [m1, m2] = 0 ∨ 12 < digitsValue [m1, m2]) := by omega
  have g2 : ¬ (24 ≤ digitsValue [h1, h2]) := by omega
  have g3 : ¬ (60 ≤ digitsValue [n1, n2]) := by omega
  have g4 : ¬ (60 ≤ digitsValue [c1, c2]) := by omega
  have g5 : ¬ (digitsValue [d1, d2] < 1 ∨
      daysIn (digitsValue [m1, m2]) (digitsValue [y1, y2, y3, y4]) < digitsValue [d1, d2]) := by
    omega
  simp only [parse, e1, e2, e3, e4, e5, e6, k1, k2, k3, Option.bind_some, Option.some_bind,
    g1, g2, g3, g4, g5, if_false]
  cases parseColonTZ (parseFractionGeneral rest).2 with
  | none => rfl
  | some p =>
    obtain ⟨zoneOffset, v⟩ := p
    rfl

/-! ## The zone of a timestamp -/

/-- The text of the zone for an offset of whole minutes: the sign, two
digits of hours, a colon and two digits of minutes. -/
theorem zone_pieces (o : Int) (h60 : o % 60 = 0) (hb : o.natAbs ≤ 359940) :
    ∃ a b c d : Char,
      ((if Int.tdiv o 60 < 0 then "-" else "+") ++
          appendInt (((Int.tdiv o 60).natAbs : Int) / 60) 2 ++ ":" ++
            appendInt (((Int.tdiv o 60).natAbs : Int) % 60) 2).data =
        [Char.ofNat (if o < 0 then 45 else 43), a, b, Char.ofNat 58, c, d] ∧
      (∀ e ∈ [a, b], 48 ≤ e.toNat ∧ e.toNat ≤ 57) ∧
      (∀ e ∈ [c, d], 48 ≤ e.toNat ∧ e.toNat ≤ 57) ∧
      digitsValue [a, b] = o.natAbs / 3600 ∧ digitsValue [c, d] = o.natAbs / 60 % 60 := by
  obtain ⟨a, b, hab, ha, hb2, hvab⟩ := appendInt_two (((Int.tdiv o 60).natAbs : Int) / 60)
    (by rw [natAbs_tdiv_sixty]; omega) (by rw [natAbs_tdiv_sixty]; omega)
  obtain ⟨c, d, hcd, hc, hd, hvcd⟩ := appendInt_two (((Int.tdiv o 60).natAbs : Int) % 60)
    (by omega) (by omega)
  rw [natAbs_tdiv_sixty] at hvab hvcd
  refine ⟨a, b, c, d, ?_, ?_, ?_, by omega, by omega⟩
  · simp only [String.data_append, hab, hcd]
    by_cases hneg : o < 0
    · rw [if_pos ((tdiv_sixty_neg_iff o h60).2 hneg), if_pos hneg]
      rfl
    · rw [if_neg (fun h => hneg ((tdiv_sixty_neg_iff o h60).1 h)), if_neg hneg]
      rfl
  · intro e he
    simp only [List.mem_cons, List.mem_singleton, List.not_mem_nil, or_false] at he
    rcases he with h | h <;> subst h <;> assumption
  · intro e he
    simp only [List.mem_cons, List.mem_singleton, List.not_mem_nil, or_false] at he
    rcases he with h | h <;> subst h <;> assumption

/-- The two parsers on the text of a zone with a sign: `parseRFC3339` reads hours up to
23, the general parser hours up to 24. -/
theorem parseZone_signed (s a b c d : Char) (hs : s.toNat = 45 ∨ s.toNat = 43)
    (hab : ∀ e ∈ [a, b], 48 ≤ e.toNat ∧ e.toNat ≤ 57)
    (hcd : ∀ e ∈ [c, d], 48 ≤ e.toNat ∧ e.toNat ≤ 57)
    (hmm : digitsValue [c, d] ≤ 59) :
    parseFraction [s, a, b, Char.ofNat 58, c, d] = (0, [s, a, b, Char.ofNat 58, c, d]) ∧
    parseFractionGeneral [s, a, b, Char.ofNat 58, c, d] =
      (0, [s, a, b, Char.ofNat 58, c, d]) ∧
    parseZone [s, a, b, Char.ofNat 58, c, d] =
      (if digitsValue [a, b] ≤ 23 then
        some (if s.toNat = 45 then
            -((((digitsValue [a, b]) * 60 + digitsValue [c, d]) * 60 : Nat) : Int)
          else ((((digitsValue [a, b]) * 60 + digitsValue [c, d]) * 60 : Nat) : Int))
      else none) ∧
    (digitsValue [a, b] ≤ 24 →
      parseColonTZ [s, a, b, Char.ofNat 58, c, d] =
        some (if s.toNat = 45 then
            -((((digitsValue [a, b]) * 60 + digitsValue [c, d]) * 60 : Nat) : Int)
          else ((((digitsValue [a, b]) * 60 + digitsValue [c, d]) * 60 : Nat) : Int), [])) := by
  have k3 : (Char.ofNat 58).toNat = 58 := rfl
  have hs46 : ¬ s.toNat = 46 := by omega
  have hs44 : ¬ s.toNat = 44 := by omega
  have hs90 : ¬ s.toNat = 90 := by omega
  refine ⟨?_, ?_, ?_, ?_⟩
  · simp only [parseFraction, hs46, false_and, if_false]
  · simp only [parseFractionGeneral, hs46, hs44, or_self, false_and, if_false]
  · have e2 := parseUint_digits [c, d] 0 59 hcd (Nat.zero_le _) hmm
    by_cases hhr : digitsValue [a, b] ≤ 23
    · have e1 := parseUint_digits [a, b] 0 23 hab (Nat.zero_le _) hhr
      rw [if_pos hhr]
      simp only [parseZone, e1, e2, k3, hs, and_self, if_true]
      split_ifs <;> rfl
    · have hall : [a, b].all (fun c => decide (48 ≤ c.toNat ∧ c.toNat ≤ 57)) = true := by
        rw [List.all_eq_true]
        intro e he
        exact decide_eq_true (hab e he)
      have e1 : parseUint [a, b] 0 23 = none := by
        unfold parseUint
        rw [if_pos hall, if_neg (fun h => hhr h.2)]
      rw [if_neg hhr]
      simp only [parseZone, e1]
  · intro hhr
    have e1 := getnum_two a b [] true (hab a (by simp)) (hab b (by simp))
    have e2 := getnum_two c d [] true (hcd c (by simp)) (hcd d (by simp))
    have g : ¬ (24 < digitsValue [a, b] ∨ 60 < digitsValue [c, d]) := by omega
    rcases hs with h | h
    · have h43 : ¬ s.toNat = 43 := by omega
      simp only [parseColonTZ, hs90, if_false, k3, if_true, e1, e2, g, h, h43]
      simp
    · have h45 : ¬ s.toNat = 45 := by omega
      simp only [parseColonTZ, hs90, if_false, k3, if_true, e1, e2, g, h, h45]
      simp

/-! ## Reading back a timestamp that `formatRFC3339` wrote -/

theorem daysIn_le (m : Nat) (year : Int) (h1 : 1 ≤ m) (h12 : m ≤ 12) : daysIn m year ≤ 31 := by
  unfold daysIn
  split_ifs
  · omega
  · interval_cases m <;> simp [daysBefore]

/-- The text of a timestamp: the year, then month, day, hour, minute and second as two
digits each at fixed places after it, then the zone; the date lies within the calendar, and
the date and the clock that the digits denote are those of the instant in its zone. -/
theorem formatRFC3339_shape (t : Time) :
    ∃ (year : Int) (m : Nat) (dd : Int) (m1 m2 d1 d2 h1 h2 n1 n2 c1 c2 : Char),
      (formatRFC3339 t).data =
        (appendInt year 4).data ++ (Char.ofNat 45 :: m1 :: m2 :: Char.ofNat 45 :: d1 :: d2 ::
          Char.ofNat 84 :: h1 :: h2 :: Char.ofNat 58 :: n1 :: n2 :: Char.ofNat 58 :: c1 :: c2 ::
          (if t.offset = 0 then "Z"
            else (if Int.tdiv t.offset 60 < 0 then "-" else "+") ++
              appendInt (((Int.tdiv t.offset 60).natAbs : Int) / 60) 2 ++ ":" ++
                appendInt (((Int.tdiv t.offset 60).natAbs : Int) % 60) 2).data) ∧
      (∀ e ∈ [m1, m2], 48 ≤ e.toNat ∧ e.toNat ≤ 57) ∧
      (∀ e ∈ [d1, d2], 48 ≤ e.toNat ∧ e.toNat ≤ 57) ∧
      (∀ e ∈ [h1, h2], 48 ≤ e.toNat ∧ e.toNat ≤ 57) ∧
      (∀ e ∈ [n1, n2], 48 ≤ e.toNat ∧ e.toNat ≤ 57) ∧
      (∀ e ∈ [c1, c2], 48 ≤ e.toNat ∧ e.toNat ≤ 57) ∧
      digitsValue [m1, m2] = m ∧ ((digitsValue [d1, d2] : Nat) : Int) = dd ∧
      1 ≤ m ∧ m ≤ 12 ∧ 1 ≤ dd ∧ dd ≤ daysIn m year ∧
      digitsValue [h1, h2] ≤ 23 ∧ digitsValue [n1, n2] ≤ 59 ∧ digitsValue [c1, c2] ≤ 59 ∧
      (daysSinceEpoch year + daysBefore (m - 1) +
          (if isLeap year = true ∧ 3 ≤ m then 1 else 0) + (dd - 1)) * 86400 +
        ((digitsValue [h1, h2] : Int) * 3600 + (digitsValue [n1, n2] : Int) * 60 +
          (digitsValue [c1, c2] : Int)) = t.abs - internalToAbsolute ∧
      (-62167219200 ≤ t.sec + t.offset → t.sec + t.offset < 253402300800 →
        0 ≤ year ∧ year ≤ 9999 ∧ t.abs - internalToAbsolute - unixToInternal =
          t.sec + t.offset) := by
  have hu : unixToInternal = 62135596800 := by decide
  have hi : internalToAbsolute = 9223371966579724800 := by decide
  have habs0 : 0 ≤ t.abs ∧ t.abs < 18446744073709551616 := by
    unfold Time.abs
    omega
  have hdef : t.abs = (t.sec + t.offset + (unixToInternal + internalToAbsolute)) %
      18446744073709551616 := rfl
  obtain ⟨year, m, dd, habs, hm1, hm12, hdd1, hdd, hsum, hyear⟩ :=
    absDate_spec (t.abs / 86400)
  have hdin := daysIn_le m year hm1 hm12
  obtain ⟨m1, m2, hmd, hma, hmb, hmv⟩ := appendInt_two (m : Int) (by omega) (by omega)
  obtain ⟨d1, d2, hdd2, hda, hdb, hdv⟩ := appendInt_two dd (by omega) (by omega)
  obtain ⟨h1, h2, hhd, hha, hhb, hhv⟩ :=
    appendInt_two (t.abs % 86400 / 3600) (by omega) (by omega)
  obtain ⟨n1, n2, hnd, hna, hnb, hnv⟩ :=
    appendInt_two (t.abs % 86400 % 3600 / 60) (by omega)
      (by omega)
  obtain ⟨c1, c2, hcd, hca, hcb, hcv⟩ :=
    appendInt_two (t.abs % 86400 % 60) (by omega) (by omega)
  have hmv2 : digitsValue [m1, m2] = m := by exact_mod_cast hmv
  have pair : ∀ a b : Char, (48 ≤ a.toNat ∧ a.toNat ≤ 57) → (48 ≤ b.toNat ∧ b.toNat ≤ 57) →
      ∀ e ∈ [a, b], 48 ≤ e.toNat ∧ e.toNat ≤ 57 := by
    intro a b ha hb e he
    simp only [List.mem_cons, List.mem_singleton, List.not_mem_nil, or_false] at he
    rcases he with h | h <;> subst h <;> assumption
  refine ⟨year, m, dd, m1, m2, d1, d2, h1, h2, n1, n2, c1, c2, ?_, pair _ _ hma hmb,
    pair _ _ hda hdb, pair _ _ hha hhb, pair _ _ hna hnb, pair _ _ hca hcb, hmv2, hdv,
    hm1, hm12, hdd1, hdd, by omega, by omega, by omega, ?_, ?_⟩
  · rw [formatRFC3339_eq t year m dd habs]
    simp only [String.data_append, hmd, hdd2, hhd, hnd, hcd]
    simp only [List.append_assoc]
    rfl
  · rw [hhv, hnv, hcv, hsum, hi]
    omega
  · intro hlo hhi
    rw [hu, hi] at hdef
    have hnowrap : t.abs = t.sec + t.offset + 9223372028715321600 := by omega
    obtain ⟨hy0, hy1⟩ := hyear (by omega) (by omega)
    exact ⟨hy0, hy1, by rw [hu, hi]; omega⟩

/-- The text of a timestamp whose date in its zone has a year from 0 to 9999: the year is
four digits, and all numbers lie within the ranges that the parsers accept. -/
theorem formatRFC3339_pieces (t : Time) (hlo : -62167219200 ≤ t.sec + t.offset)
    (hhi : t.sec + t.offset < 253402300800) :
    ∃ y1 y2 y3 y4 m1 m2 d1 d2 h1 h2 n1 n2 c1 c2 : Char,
      (formatRFC3339 t).data =
        y1 :: y2 :: y3 :: y4 :: Char.ofNat 45 :: m1 :: m2 :: Char.ofNat 45 :: d1 :: d2 ::
          Char.ofNat 84 :: h1 :: h2 :: Char.ofNat 58 :: n1 :: n2 :: Char.ofNat 58 :: c1 :: c2 ::
          (if t.offset = 0 then "Z"
            else (if Int.tdiv t.offset 60 < 0 then "-" else "+") ++
              appendInt (((Int.tdiv t.offset 60).natAbs : Int) / 60) 2 ++ ":" ++
                appendInt (((Int.tdiv t.offset 60).natAbs : Int) % 60) 2).data ∧
      (∀ e ∈ [y1, y2, y3, y4], 48 ≤ e.toNat ∧ e.toNat ≤ 57) ∧
      (∀ e ∈ [m1, m2], 48 ≤ e.toNat ∧ e.toNat ≤ 57) ∧
      (∀ e ∈ [d1, d2], 48 ≤ e.toNat ∧ e.toNat ≤ 57) ∧
      (∀ e ∈ [h1, h2], 48 ≤ e.toNat ∧ e.toNat ≤ 57) ∧
      (∀ e ∈ [n1, n2], 48 ≤ e.toNat ∧ e.toNat ≤ 57) ∧
      (∀ e ∈ [c1, c2], 48 ≤ e.toNat ∧ e.toNat ≤ 57) ∧
      digitsValue [y1, y2, y3, y4] ≤ 9999 ∧
      (1 ≤ digitsValue [m1, m2] ∧ digitsValue [m1, m2] ≤ 12) ∧
      (1 ≤ digitsValue [d1, d2] ∧
        digitsValue [d1, d2] ≤ daysIn (digitsValue [m1, m2]) (digitsValue [y1, y2, y3, y4])) ∧
      digitsValue [h1, h2] ≤ 23 ∧ digitsValue [n1, n2] ≤ 59 ∧ digitsValue [c1, c2] ≤ 59 ∧
      dateUnix (digitsValue [y1, y2, y3, y4]) (digitsValue [m1, m2]) (digitsValue [d1, d2])
        (digitsValue [h1, h2]) (digitsValue [n1, n2]) (digitsValue [c1, c2]) =
          t.sec + t.offset := by
  obtain ⟨year, m, dd, m1, m2, d1, d2, h1, h2, n1, n2, c1, c2, hdata, hm, hd, hh, hn, hc, hmv,
    hdv, hm1, hm12, hdd1, hdd, hH, hN, hC, hsum, hyear⟩ := formatRFC3339_shape t
  obtain ⟨hy0, hy1, hnowrap⟩ := hyear hlo hhi
  obtain ⟨y1, y2, y3, y4, hyd, hy, hyv⟩ := appendInt_four year hy0 (by omega)
  refine ⟨y1, y2, y3, y4, m1, m2, d1, d2, h1, h2, n1, n2, c1, c2, ?_, hy, hm, hd, hh, hn, hc,
    by omega, by omega, ?_, hH, hN, hC, ?_⟩
  · rw [hdata, hyd]
    rfl
  · rw [hmv, hyv]
    omega
  · unfold dateUnix
    simp only []
    rw [hmv, hyv, hdv]
    omega

theorem time_ext (a b : Time) (h1 : a.sec = b.sec) (h2 : a.nsec = b.nsec)
    (h3 : a.offset = b.offset) : a = b := by
  cases a
  cases b
  simp only [Time.mk.injEq]
  exact ⟨h1, h2, h3⟩

/-- What `time.Parse` reads from the text of a timestamp whose zone offset is a whole
number of minutes, with hours up to 24, and whose date in that zone has a year from 0 to
9999: the instant at second precision, with the zone offset. -/
theorem parse_formatRFC3339 (t : Time) (h60 : t.offset % 60 = 0)
    (hb : t.offset.natAbs ≤ 89940) (hlo : -62167219200 ≤ t.sec + t.offset)
    (hhi : t.sec + t.offset < 253402300800) :
    Parse (formatRFC3339 t) = some ⟨t.sec, 0, t.offset⟩ := by
  obtain ⟨y1, y2, y3, y4, m1, m2, d1, d2, h1, h2, n1, n2, c1, c2, hdata, hy, hm, hd, hh, hn,
    hc, hY, hM, hD, hH, hN, hC, hdate⟩ := formatRFC3339_pieces t hlo hhi
  have hs : formatRFC3339 t = String.mk (formatRFC3339 t).data := rfl
  rw [hs, hdata]
  unfold Parse
  rw [parseRFC3339_pieces y1 y2 y3 y4 m1 m2 d1 d2 h1 h2 n1 n2 c1 c2 _ hy hm hd hh hn hc hY hM
    hD hH hN hC,
    parse_pieces y1 y2 y3 y4 m1 m2 d1 d2 h1 h2 n1 n2 c1 c2 _ hy hm hd hh hn hc hM hD hH hN hC,
    hdate]
  by_cases h0 : t.offset = 0
  · rw [if_pos h0]
    have e1 : parseFraction ("Z" : String).data = (0, [Char.ofNat 90]) := rfl
    have e2 : parseZone [Char.ofNat 90] = some 0 := rfl
    rw [e1]
    simp only [e2]
    exact congrArg some (time_ext _ _ (by simp [h0]) rfl h0.symm)
  · rw [if_neg h0]
    obtain ⟨a, b, c, d, hz, hab, hcd, hvab, hvcd⟩ := zone_pieces t.offset h60 (by omega)
    rw [hz]
    have hsign : (Char.ofNat (if t.offset < 0 then 45 else 43)).toNat = 45 ∨
        (Char.ofNat (if t.offset < 0 then 45 else 43)).toNat = 43 := by
      split_ifs
      · exact Or.inl rfl
      · exact Or.inr rfl
    obtain ⟨f1, f2, z1, z2⟩ := parseZone_signed _ a b c d hsign hab hcd (by omega)
    have hzo : (if (Char.ofNat (if t.offset < 0 then 45 else 43)).toNat = 45 then
          -((((digitsValue [a, b]) * 60 + digitsValue [c, d]) * 60 : Nat) : Int)
        else ((((digitsValue [a, b]) * 60 + digitsValue [c, d]) * 60 : Nat) : Int)) =
        t.offset := by
      rw [hvab, hvcd]
      by_cases hneg : t.offset < 0
      · rw [if_pos hneg]
        have k : (Char.ofNat 45).toNat = 45 := rfl
        rw [if_pos k]
        omega
      · rw [if_neg hneg]
        have k : ¬ (Char.ofNat 43).toNat = 45 := by decide
        rw [if_neg k]
        omega
    rw [hzo] at z1 z2
    rw [f1, f2]
    simp only []
    have z2b := z2 (by omega)
    rw [z1, z2b]
    have hres : (⟨t.sec + t.offset - t.offset, 0, t.offset⟩ : Time) = ⟨t.sec, 0, t.offset⟩ :=
      time_ext _ _ (by simp) rfl rfl
    by_cases hhr : digitsValue [a, b] ≤ 23
    · rw [if_pos hhr]
      simp only []
      rw [hres]
    · rw [if_neg hhr]
      simp only [List.length_nil, ne_eq, not_true_eq_false, if_false]
      rw [hres]

/-! ## Two instants with the same text -/

/-- Two texts that are cut in two at the first occurrence of a byte: the parts before the
byte are the same and the parts after it are the same. -/
theorem split_at_first (x : Char) : ∀ (A B R S : List Char), (∀ c ∈ A, c ≠ x) →
    (∀ c ∈ B, c ≠ x) → A ++ x :: R = B ++ x :: S → A = B ∧ R = S
  | [], [], R, S, _, _, h => by
    simp only [List.nil_append, List.cons.injEq, true_and] at h
    exact ⟨rfl, h⟩
  | [], b :: B, R, S, _, hB, h => by
    simp only [List.nil_append, List.cons_append, List.cons.injEq] at h
    exact absurd h.1.symm (hB b (by simp))
  | a :: A, [], R, S, hA, _, h => by
    simp only [List.nil_append, List.cons_append, List.cons.injEq] at h
    exact absurd h.1 (hA a (by simp))
  | a :: A, b :: B, R, S, hA, hB, h => by
    simp only [List.cons_append, List.cons.injEq] at h
    obtain ⟨h1, h2⟩ := split_at_first x A B R S
      (fun c hc => hA c (List.mem_cons_of_mem _ hc))
      (fun c hc => hB c (List.mem_cons_of_mem _ hc)) h.2
    exact ⟨by rw [h.1, h1], h2⟩

/-- The text of a number has no byte `T`. -/
theorem appendInt_no_T (x : Int) (w : Nat) : ∀ c ∈ (appendInt x w).data, c ≠ Char.ofNat 84 := by
  obtain ⟨body, hd, hall, _, _⟩ := appendInt_data x w
  intro c hc hcT
  rw [hd] at hc
  have hbody : c ∉ body := by
    intro hmem
    have := hall c hmem
    rw [hcT] at this
    revert this
    decide
  split_ifs at hc
  · rcases List.mem_cons.1 hc with h | h
    · rw [hcT] at h
      revert h
      decide
    · exact hbody h
  · exact hbody hc

/-- The text of the zone tells the offset, when the offset is a whole number of minutes. -/
theorem zoneText_inj (o1 o2 : Int) (h1 : o1 % 60 = 0) (h2 : o2 % 60 = 0)
    (h : (if o1 = 0 then "Z"
        else (if Int.tdiv o1 60 < 0 then "-" else "+") ++
          appendInt (((Int.tdiv o1 60).natAbs : Int) / 60) 2 ++ ":" ++
            appendInt (((Int.tdiv o1 60).natAbs : Int) % 60) 2).data =
      (if o2 = 0 then "Z"
        else (if Int.tdiv o2 60 < 0 then "-" else "+") ++
          appendInt (((Int.tdiv o2 60).natAbs : Int) / 60) 2 ++ ":" ++
            appendInt (((Int.tdiv o2 60).natAbs : Int) % 60) 2).data) : o1 = o2 := by
  have hsign : ∀ o : Int, ∃ s : Char, (if Int.tdiv o 60 < 0 then "-" else "+").data = [s] ∧
      s ≠ Char.ofNat 90 ∧ (s = Char.ofNat 45 ↔ Int.tdiv o 60 < 0) := by
    intro o
    by_cases hneg : Int.tdiv o 60 < 0
    · rw [if_pos hneg]
      exact ⟨Char.ofNat 45, rfl, by decide, by simp [hneg]⟩
    · rw [if_neg hneg]
      refine ⟨Char.ofNat 43, rfl, by decide, ?_⟩
      constructor
      · intro hc
        exact absurd hc (by decide)
      · intro hc
        exact absurd hc hneg
  by_cases z1 : o1 = 0 <;> by_cases z2 : o2 = 0
  · rw [z1, z2]
  · obtain ⟨s, hs, hsZ, _⟩ := hsign o2
    rw [if_pos z1, if_neg z2] at h
    simp only [String.data_append, hs, List.cons_append, List.nil_append, List.append_assoc] at h
    exact absurd (List.cons.inj h).1.symm hsZ
  · obtain ⟨s, hs, hsZ, _⟩ := hsign o1
    rw [if_neg z1, if_pos z2] at h
    simp only [String.data_append, hs, List.cons_append, List.nil_append, List.append_assoc] at h
    exact absurd (List.cons.inj h).1 hsZ
  · obtain ⟨s1, hs1, _, hn1⟩ := hsign o1
    obtain ⟨s2, hs2, _, hn2⟩ := hsign o2
    obtain ⟨c1, d1, hm1, _, _, _⟩ := appendInt_two (((Int.tdiv o1 60).natAbs : Int) % 60)
      (by omega) (by omega)
    obtain ⟨c2, d2, hm2, _, _, _⟩ := appendInt_two (((Int.tdiv o2 60).natAbs : Int) % 60)
      (by omega) (by omega)
    rw [if_neg z1, if_neg z2] at h
    have hc : (":" : String).data = [Char.ofNat 58] := rfl
    simp only [String.data_append, hs1, hs2, hm1, hm2, hc, List.cons_append, List.nil_append,
      List.append_assoc, List.cons.injEq] at h
    obtain ⟨hs, hrest⟩ := h
    obtain ⟨hH, hM⟩ := List.append_inj' hrest (by simp only [List.length_cons])
    have hhr := appendInt_inj _ _ 2 (String.ext hH)
    have hmm : appendInt (((Int.tdiv o1 60).natAbs : Int) % 60) 2 =
        appendInt (((Int.tdiv o2 60).natAbs : Int) % 60) 2 := by
      apply String.ext
      rw [hm1, hm2]
      exact (List.cons.inj hM).2
    have hmm2 := appendInt_inj _ _ 2 hmm
    rw [natAbs_tdiv_sixty] at hhr hmm2
    rw [natAbs_tdiv_sixty] at hhr hmm2
    have hneg : o1 < 0 ↔ o2 < 0 := by
      rw [← tdiv_sixty_neg_iff o1 h1, ← tdiv_sixty_neg_iff o2 h2, ← hn1, ← hn2, hs]
    omega

/-- Two instants with the same text are the same instant at second precision, when their
zone offsets are equal or are both a whole number of minutes; the seconds since the Unix
epoch are those of an `int64`. -/
theorem formatRFC3339_inj (t u : Time)
    (ho : u.offset = t.offset ∨ (u.offset % 60 = 0 ∧ t.offset % 60 = 0))
    (ht : -9223372036854775808 ≤ t.sec ∧ t.sec < 9223372036854775808)
    (hu : -9223372036854775808 ≤ u.sec ∧ u.sec < 9223372036854775808)
    (h : formatRFC3339 u = formatRFC3339 t) : u.sec = t.sec := by
  obtain ⟨year, m, dd, m1, m2, d1, d2, h1, h2, n1, n2, c1, c2, hdata, hm, hd, _, _, _, hmv,
    hdv, _, _, _, _, _, _, _, hsum, _⟩ := formatRFC3339_shape t
  obtain ⟨year2, k, ee, k1, k2, e1, e2, g1, g2, p1, p2, q1, q2, hdata2, hk, he, _, _, _, hkv,
    hev, _, _, _, _, _, _, _, hsum2, _⟩ := formatRFC3339_shape u
  have hdd : (formatRFC3339 u).data = (formatRFC3339 t).data := by rw [h]
  rw [hdata, hdata2] at hdd
  have hnoT : ∀ (y : Int) (a b c d : Char), (∀ e ∈ [a, b], 48 ≤ e.toNat ∧ e.toNat ≤ 57) →
      (∀ e ∈ [c, d], 48 ≤ e.toNat ∧ e.toNat ≤ 57) →
      ∀ x ∈ (appendInt y 4).data ++ [Char.ofNat 45, a, b, Char.ofNat 45, c, d],
        x ≠ Char.ofNat 84 := by
    intro y a b c d hab hcd x hx hxT
    rcases List.mem_append.1 hx with hx | hx
    · exact appendInt_no_T y 4 x hx hxT
    · have hdig : ∀ e : Char, (48 ≤ e.toNat ∧ e.toNat ≤ 57) → e ≠ Char.ofNat 84 := by
        intro e he heT
        rw [heT] at he
        revert he
        decide
      simp only [List.mem_cons, List.mem_singleton, List.not_mem_nil, or_false] at hx
      rcases hx with hx | hx | hx | hx | hx | hx
      · rw [hxT] at hx
        revert hx
        decide
      · exact hdig a (hab a (by simp)) (hx ▸ hxT)
      · exact hdig b (hab b (by simp)) (hx ▸ hxT)
      · rw [hxT] at hx
        revert hx
        decide
      · exact hdig c (hcd c (by simp)) (hx ▸ hxT)
      · exact hdig d (hcd d (by simp)) (hx ▸ hxT)
  have hsplit := split_at_first (Char.ofNat 84)
    ((appendInt year2 4).data ++ [Char.ofNat 45, k1, k2, Char.ofNat 45, e1, e2])
    ((appendInt year 4).data ++ [Char.ofNat 45, m1, m2, Char.ofNat 45, d1, d2]) _ _
    (hnoT year2 k1 k2 e1 e2 hk he) (hnoT year m1 m2 d1 d2 hm hd)
    (by simpa only [List.append_assoc, List.cons_append, List.nil_append] using hdd)
  obtain ⟨hA, hR⟩ := hsplit
  obtain ⟨hY, hMD⟩ := List.append_inj' hA (by simp only [List.length_cons])
  simp only [List.cons.injEq, true_and, and_true] at hMD hR
  obtain ⟨a1, a2, a3, a4⟩ := hMD
  obtain ⟨a5, a6, a7, a8, a9, a10, hZ⟩ := hR
  subst a1 a2 a3 a4 a5 a6 a7 a8 a9 a10
  have hyear : year2 = year := appendInt_inj year2 year 4 (String.ext hY)
  have hmk : k = m := hkv.symm.trans hmv
  have hde : ee = dd := hev.symm.trans hdv
  subst hyear hmk hde
  have habs : u.abs = t.abs := by
    have := hsum2.symm.trans hsum
    omega
  have hoff : u.offset = t.offset := by
    rcases ho with ho | ho
    · exact ho
    · exact zoneText_inj u.offset t.offset ho.1 ho.2 hZ
  unfold Time.abs at habs
  rw [hoff] at habs
  omega

/-! ## The timestamps of the date range -/

set_option maxRecDepth 100000 in
/-- The absolute seconds wrap around: the lowest instant of an `int64`, 2^63 seconds before
the Unix epoch, is written with a year far in the future. -/
theorem formatRFC3339_lowest_instant :
    formatRFC3339 ⟨-9223372036854775808, 0, 0⟩ = "292277026596-12-04T15:30:08Z" := by
  rfl

/-- C16 (amended): for an instant whose zone offset is a whole number of minutes, of at
most 24 hours and 59 minutes to either side, and whose date in that zone has a year from 0
to 9999, reading the timestamp text back with `time.Parse(time.RFC3339, _)` gives the same
instant at second precision, with the same offset; and two instants of any year, given by
the seconds of an `int64`, that have the same text are the same instant at second
precision, when their zone offsets are equal or are both a whole number of minutes. -/
theorem rfc3339_round_trip (t u : Time) :
    (t.offset % 60 = 0 → t.offset.natAbs ≤ 89940 → -62167219200 ≤ t.sec + t.offset →
      t.sec + t.offset < 253402300800 →
      Parse (formatRFC3339 t) = some ⟨t.sec, 0, t.offset⟩) ∧
    ((u.offset = t.offset ∨ (u.offset % 60 = 0 ∧ t.offset % 60 = 0)) →
      (-9223372036854775808 ≤ t.sec ∧ t.sec < 9223372036854775808) →
      (-9223372036854775808 ≤ u.sec ∧ u.sec < 9223372036854775808) →
      formatRFC3339 u = formatRFC3339 t → u.sec = t.sec) :=
  ⟨parse_formatRFC3339 t, formatRFC3339_inj t u⟩

set_option maxRecDepth 100000 in
/-- C16 (as stated) fails.  The instant 0 in a zone 30 seconds east of UTC has the text
`1970-01-01T00:00:30+00:00`, which reads back as the instant 30.  The texts of the first
second of the year 10000, of the last second of the year -1, and of the instant 0 in a zone
25 hours east of UTC are not read back at all.  And the instants -4 and 4 of one zone whose
offset is 21208 seconds at the first and 21200 seconds at the second, two different
instants, have the same text. -/
theorem offset_seconds_break_round_trip :
    formatRFC3339 ⟨0, 0, 30⟩ = "1970-01-01T00:00:30+00:00" ∧
    Parse "1970-01-01T00:00:30+00:00" = some ⟨30, 0, 0⟩ ∧
    formatRFC3339 ⟨253402300800, 0, 0⟩ = "10000-01-01T00:00:00Z" ∧
    Parse "10000-01-01T00:00:00Z" = none ∧
    formatRFC3339 ⟨-62167219201, 0, 0⟩ = "-0001-12-31T23:59:59Z" ∧
    Parse "-0001-12-31T23:59:59Z" = none ∧
    formatRFC3339 ⟨0, 0, 90000⟩ = "1970-01-02T01:00:00+25:00" ∧
    Parse "1970-01-02T01:00:00+25:00" = none ∧
    formatRFC3339 ⟨-4, 0, 21208⟩ = "1970-01-01T05:53:24+05:53" ∧
    formatRFC3339 ⟨4, 0, 21200⟩ = "1970-01-01T05:53:24+05:53" ∧
    (-4 : Int) ≠ 4 := by
  refine ⟨by rfl, by rfl, by rfl, by rfl, by rfl, by rfl, by rfl, by rfl, by rfl, by rfl,
    by decide⟩

/-- The amended C16 at the first second of 2023 in a zone five and a half hours east of
UTC, and at the same instant with other nanoseconds. -/
theorem rfc3339_round_trip_witness :
    ((19800 : Int) % 60 = 0 ∧ (19800 : Int).natAbs ≤ 89940 ∧
      -62167219200 ≤ (1672511400 : Int) + 19800 ∧
      (1672511400 : Int) + 19800 < 253402300800) ∧
    Parse (formatRFC3339 ⟨1672511400, 0, 19800⟩) = some ⟨1672511400, 0, 19800⟩ ∧
    formatRFC3339 ⟨1672511400, 7, 19800⟩ = formatRFC3339 ⟨1672511400, 0, 19800⟩ ∧
    (1672511400 : Int) = 1672511400 :=
  ⟨by decide,
    (rfc3339_round_trip ⟨1672511400, 0, 19800⟩ ⟨1672511400, 7, 19800⟩).1 (by decide)
      (by decide) (by decide) (by decide),
    rfl,
    (rfc3339_round_trip ⟨1672511400, 0, 19800⟩ ⟨1672511400, 7, 19800⟩).2 (Or.inl rfl)
      (by decide) (by decide) rfl⟩

end Smpsearch
